import Mathlib

/-!
SpreadSheet: the cell dependency graph and cache engine.

A shallow embedding of `cell.h`, `cell.cpp` and `formula.cpp`.

* A cell is identified by the position under which the sheet stores it; the pointers
  kept in `influence_` and the comparison `current_cell == this` become positions.
* The sheet, the expression tree and `std::stod` are not part of these sources; the
  sheet and the tree are modelled from the specification, `std::stod` and the parser
  are parameters.
* A method of `Cell` takes the sheet state and the position of `this` and returns the
  new sheet state inside an `Outcome`, which also records a thrown exception or
  undefined behaviour (an out-of-range `operator[]`, a null dereference).
* The two `while` loops run on fuel; `checkLoop_fuel` and `clearLoop_fuel` show that
  the fuel handed to them is always enough.
* `Cell.checkTrace` and `Cell.clearTrace` are the same loops with a record of the
  positions they handle; `checkTrace_outcome` and `clearTrace_outcome` show that they
  end like the loops.
-/

namespace SpreadSheet

/-! ## Data model -/

/-- Modelled from the spec: `Position` (declared in `common.h`, which is not among the
sources): an opaque (row, column) coordinate, zero based; the source reads its fields
`row` and `col`. -/
structure Position where
  row : Nat
  col : Nat
deriving DecidableEq, Repr

/-- Modelled from the spec: `Size` (declared in `common.h`): an extent in rows and
columns; the source reads its fields `rows` and `cols`. -/
structure Size where
  rows : Nat
  cols : Nat
deriving DecidableEq, Repr

/-- The enumeration `FormulaError::Category`, with the three values that
`FormulaError::ToString` distinguishes. -/
inductive Category
  | Ref
  | Value
  | Div0
deriving DecidableEq, Repr

/-- The class `FormulaError`: an evaluation error, carrying its category only. -/
structure FormulaError where
  category_ : Category
deriving DecidableEq, Repr

/-- `FormulaError::operator==`: the comparison of the two categories. -/
def FormulaError.eq (lhs rhs : FormulaError) : Bool :=
  lhs.category_ == rhs.category_

/-- `FormulaError::ToString`: the display string of the category (the `default`
branch of the `switch` is not reached by a value of the enumeration). -/
def FormulaError.ToString (fe : FormulaError) : String :=
  match fe.category_ with
  | .Ref => "#REF!"
  | .Value => "#VALUE!"
  | .Div0 => "#DIV/0!"

/-- Stand-in for the payload of a C++ `double`. The engine only stores, copies and
hands on numbers (and produces the constant zero); all arithmetic happens inside the
external expression tree. -/
abbrev Double := Int

/-- Modelled from the spec: the variant `CellInterface::Value` (declared in `common.h`):
a text, a number or an error, the three alternatives that `Formula::Evaluate` tests. -/
inductive Value
  | str (s : String)
  | num (d : Double)
  | err (e : FormulaError)
deriving DecidableEq, Repr

/-- Modelled from the spec: the run of `FormulaAST::Execute` against its callback
(the expression tree is an external collaborator and not part of the sources). A run
returns a number, raises a `FormulaError` of its own (for instance a division by
zero), or calls the callback for a position and continues with the number it
yields; an error thrown by the callback leaves `Execute` unhandled. -/
inductive Exec
  | ret (d : Double)
  | raise (e : FormulaError)
  | arg (pos : Position) (k : Double → Exec)

/-- Modelled from the spec: the interface of the external `FormulaAST`: the positions
listed by `GetCells()`, the canonical text written by `PrintFormula` and the behaviour
of `Execute`. -/
structure FormulaAST where
  cells : List Position
  printed : String
  run : Exec

/-- The class `Formula` of `formula.cpp`, which wraps the parsed tree `ast_`. -/
structure Formula where
  ast_ : FormulaAST

/-- `Formula::GetExpression`: the text `PrintFormula` writes into the stream. -/
def Formula.GetExpression (f : Formula) : String :=
  f.ast_.printed

/-- `Formula::GetReferencedCells`: a vector built from the range `ast_.GetCells()`. -/
def Formula.GetReferencedCells (f : Formula) : List Position :=
  f.ast_.cells

/-- The three content variants `Cell::EmptyImpl`, `Cell::TextImpl`, `Cell::FormulaImpl`. -/
inductive Impl
  | EmptyImpl
  | TextImpl (text_ : String)
  | FormulaImpl (formula_ : Formula)

/-- Modelled from the spec: the constant `FORMULA_SIGN` of `common.h`, the formula marker
(the character that `FormulaImpl::GetText` puts in front of the expression). -/
def FORMULA_SIGN : Char := '='

/-- Modelled from the spec: the constant `ESCAPE_SIGN` of `common.h`, the escape marker
(the apostrophe). -/
def ESCAPE_SIGN : Char := Char.ofNat 39

/-- `std::string::front()`; on the empty string it reads the terminating null
character. -/
def front (text : String) : Char :=
  text.data.headD (Char.ofNat 0)

/-- `std::string::substr(pos)`: the text from index `pos` to the end. -/
def substr (text : String) (pos : Nat) : String :=
  String.mk (text.data.drop pos)

/-- `Impl::GetText` with its three overrides. -/
def Impl.GetText : Impl → String
  | .EmptyImpl => ""
  | .TextImpl text_ => text_
  | .FormulaImpl formula_ => "=" ++ formula_.GetExpression

/-- `Impl::GetReferencedCells`: the empty vector of the base class unless overridden
by `FormulaImpl`. -/
def Impl.GetReferencedCells : Impl → List Position
  | .EmptyImpl => []
  | .TextImpl _ => []
  | .FormulaImpl formula_ => formula_.GetReferencedCells

/-- The class `Cell`: content, reverse edges and cached value. -/
structure Cell where
  impl_ : Impl
  influence_ : List Position
  cache_ : Option Value

/-- `Cell::GetText`. -/
def Cell.GetText (c : Cell) : String :=
  c.impl_.GetText

/-- `Cell::GetReferencedCells`. -/
def Cell.GetReferencedCells (c : Cell) : List Position :=
  c.impl_.GetReferencedCells

/-- `Cell::IsReferenced`. -/
def Cell.IsReferenced (c : Cell) : Bool :=
  !c.GetReferencedCells.isEmpty

/-- The constructor `Cell::Cell(Sheet&)`: empty content, no dependents, no cache. -/
def Cell.new : Cell :=
  { impl_ := .EmptyImpl, influence_ := [], cache_ := none }

/-- Modelled from the spec: the grid that maps positions to cell instances (class
`Sheet`, external collaborator): the occupied positions with their cells. -/
abbrev Sheet := List (Position × Cell)

/-- Modelled from the spec: `Sheet::GetCell`, the cell stored at a position, or
absent. -/
def Sheet.GetCell : Sheet → Position → Option Cell
  | [], _ => none
  | (q, c) :: rest, pos => if q = pos then some c else Sheet.GetCell rest pos

/-- Modelled from the spec: `Sheet::SetCell(pos, "")` at a position that holds no
cell: it force-creates an empty cell there (the following `Cell::Set("")` returns at
its first test). -/
def Sheet.SetCellEmpty (s : Sheet) (pos : Position) : Sheet :=
  s ++ [(pos, Cell.new)]

/-- Modelled from the spec: `Sheet::GetPrintableSize`, the current occupied extent:
the smallest rectangle from the origin that holds every occupied position. -/
def Sheet.GetPrintableSize : Sheet → Size
  | [] => { rows := 0, cols := 0 }
  | (q, _) :: rest =>
    let sz := Sheet.GetPrintableSize rest
    { rows := max (q.row + 1) sz.rows, cols := max (q.col + 1) sz.cols }

/-- Write access to the cell object stored at a position (no effect when the
position holds no cell). -/
def Sheet.modify (f : Cell → Cell) : Sheet → Position → Sheet
  | [], _ => []
  | (q, c) :: rest, pos =>
    if q = pos then (q, f c) :: rest else (q, c) :: Sheet.modify f rest pos

/-- How a method call ends: a normal return, one of the two exceptions (each with the
sheet as the call leaves it), or undefined behaviour. -/
inductive Outcome (α : Type)
  | ok (x : α) (s : Sheet)
  | formulaException (s : Sheet)
  | circularDependency (s : Sheet)
  | undefined

/-! ## Cell methods -/

/-- `Cell::Clear`: the content is replaced by a fresh `EmptyImpl`. -/
def Cell.Clear (s : Sheet) (self : Position) : Sheet :=
  Sheet.modify (fun c => { c with impl_ := .EmptyImpl }) s self

/-- `Cell::ClearCache`: `cache_.reset()`. -/
def Cell.ClearCache (s : Sheet) (self : Position) : Sheet :=
  Sheet.modify (fun c => { c with cache_ := none }) s self

/-- `Cell::AddToStack` (both overloads): the elements are pushed in iteration order,
so the last one ends on top. The head of the list is the top of the stack. -/
def Cell.AddToStack (destination : List Position) (source : List Position) : List Position :=
  source.foldl (fun st pos => pos :: st) destination

/-- `Cell::CreateStack` (both overloads). -/
def Cell.CreateStack (source : List Position) : List Position :=
  Cell.AddToStack [] source

/-- The loop of `Cell::ClearCaches`; `none` when the fuel runs out. -/
def Cell.clearLoop : Nat → Sheet → List Position → List Position → Option (Outcome Unit)
  | _, s, [], _ => some (.ok () s)
  | 0, _, _ :: _, _ => none
  | n + 1, s, now_cell :: stack_positions, visited_cells =>
    if now_cell ∈ visited_cells then
      Cell.clearLoop n s stack_positions visited_cells
    else
      match Sheet.GetCell s now_cell with
      | none => some .undefined
      | some real_cell =>
        Cell.clearLoop n (Cell.ClearCache s now_cell)
          (Cell.AddToStack stack_positions real_cell.influence_) (now_cell :: visited_cells)

/-- Sum of the sizes of all `influence_` sets: with the initial stack it bounds the
number of iterations of the loop of `ClearCaches`. -/
def Sheet.influenceTotal (s : Sheet) : Nat :=
  (s.map (fun e => e.2.influence_.length)).sum

/-- `Cell::ClearCaches`: reset the cache of every cell reached through `influence_`
sets, then the cell's own cache. -/
def Cell.ClearCaches (s : Sheet) (self : Position) : Outcome Unit :=
  match Sheet.GetCell s self with
  | none => .undefined
  | some this =>
    let stack_positions := Cell.CreateStack this.influence_
    match Cell.clearLoop (stack_positions.length + Sheet.influenceTotal s) s stack_positions [] with
    | some (.ok () s') => .ok () (Cell.ClearCache s' self)
    | _ => .undefined

/-- Removal of a cell from an `influence_` set: `influence_.erase(this)`. -/
def eraseCell (self : Position) (influence : List Position) : List Position :=
  influence.filter (fun q => q ≠ self)

/-- Insertion of a cell into an `influence_` set: `influence_.insert(this)`. -/
def insertCell (self : Position) (influence : List Position) : List Position :=
  if self ∈ influence then influence else self :: influence

/-- The loop body of `Cell::ClearInfluence` over a list of referenced positions. -/
def Cell.clearInfluenceOver (self : Position) (s : Sheet) (references : List Position) : Sheet :=
  references.foldl
    (fun st pos => Sheet.modify (fun c => { c with influence_ := eraseCell self c.influence_ }) st pos) s

/-- `Cell::ClearInfluence`: remove this cell from the `influence_` set of every
existing cell its content references. -/
def Cell.ClearInfluence (s : Sheet) (self : Position) : Sheet :=
  match Sheet.GetCell s self with
  | none => s
  | some this => Cell.clearInfluenceOver self s this.impl_.GetReferencedCells

/-- `Cell::CreateEmptyCell`: `SetCell(pos, "")` on the sheet. -/
def Cell.CreateEmptyCell (s : Sheet) (pos : Position) : Sheet :=
  Sheet.SetCellEmpty s pos

/-- `Cell::CreateVisitedCells`: a matrix of zeros with the printable size of the sheet. -/
def Cell.CreateVisitedCells (s : Sheet) : List (List Nat) :=
  let sheet_printable_size := Sheet.GetPrintableSize s
  let inner_vec := List.replicate sheet_printable_size.cols 0
  List.replicate sheet_printable_size.rows inner_vec

/-- The access `visited_cells[pos.row][pos.col]`; `none` when an index is out of
range (undefined behaviour of `operator[]`). -/
def visitedAt (visited_cells : List (List Nat)) (pos : Position) : Option Nat :=
  match visited_cells[pos.row]? with
  | none => none
  | some inner => inner[pos.col]?

/-- The assignment `check_pos = 1` through the reference into the matrix. -/
def visitedSet (visited_cells : List (List Nat)) (pos : Position) : List (List Nat) :=
  match visited_cells[pos.row]? with
  | none => visited_cells
  | some inner => visited_cells.set pos.row (inner.set pos.col 1)

/-- The loop of `Cell::CheckForCircularDependencies`; `none` when the fuel runs out. -/
def Cell.checkLoop (self : Position) :
    Nat → Sheet → List Position → List (List Nat) → Option (Outcome Unit)
  | _, s, [], _ => some (.ok () s)
  | 0, _, _ :: _, _ => none
  | n + 1, s, current_pos :: stack_positions, visited_cells =>
    match visitedAt visited_cells current_pos with
    | none => some .undefined
    | some check_pos =>
      if check_pos = 1 then
        Cell.checkLoop self n s stack_positions visited_cells
      else
        let visited_cells := visitedSet visited_cells current_pos
        match Sheet.GetCell s current_pos with
        | some current_cell =>
          if current_pos = self then
            some (.circularDependency s)
          else
            Cell.checkLoop self n s
              (Cell.AddToStack stack_positions current_cell.GetReferencedCells) visited_cells
        | none =>
          let s := Cell.CreateEmptyCell s current_pos
          match Sheet.GetCell s current_pos with
          | none => some .undefined
          | some current_cell =>
            Cell.checkLoop self n s
              (Cell.AddToStack stack_positions current_cell.GetReferencedCells) visited_cells

/-- Sum of the lengths of all reference lists: with the initial stack it bounds the
number of iterations of the cycle check. -/
def Sheet.referencesTotal (s : Sheet) : Nat :=
  (s.map (fun e => e.2.GetReferencedCells.length)).sum

/-- `Cell::CheckForCircularDependencies`: depth-first traversal of the forward
references, starting from the references of the candidate content. -/
def Cell.CheckForCircularDependencies (s : Sheet) (self : Position)
    (referenced_cells : List Position) : Outcome Unit :=
  let stack_positions := Cell.CreateStack referenced_cells
  let visited_cells := Cell.CreateVisitedCells s
  match Cell.checkLoop self (stack_positions.length + Sheet.referencesTotal s) s
      stack_positions visited_cells with
  | some r => r
  | none => .undefined

/-- `ParseFormula` of `formula.cpp`: build a `Formula` from the tree the external
parser returns; `none` when the parser throws. -/
def ParseFormula (ParseFormulaAST : String → Option FormulaAST) (expression : String) :
    Option Formula :=
  (ParseFormulaAST expression).map Formula.mk

/-- The test `text.size() != 1 && text.front() == FORMULA_SIGN` shared by
`CreateFormulaImpl` and `SetImpl`. -/
def isFormulaText (text : String) : Bool :=
  text.length ≠ 1 && front text = FORMULA_SIGN

/-- `Cell::CreateFormulaImpl`: for a formula text, parse the remainder and check the
candidate for cycles; the result is the null pointer for any other text. -/
def Cell.CreateFormulaImpl (ParseFormulaAST : String → Option FormulaAST)
    (s : Sheet) (self : Position) (text : String) : Outcome (Option Impl) :=
  if isFormulaText text then
    match ParseFormula ParseFormulaAST (substr text 1) with
    | none => .formulaException s
    | some formula_ =>
      let temp_impl := Impl.FormulaImpl formula_
      match Cell.CheckForCircularDependencies s self temp_impl.GetReferencedCells with
      | .ok () s' => .ok (some temp_impl) s'
      | .formulaException s' => .formulaException s'
      | .circularDependency s' => .circularDependency s'
      | .undefined => .undefined
  else
    .ok none s

/-- `Cell::SetImpl`: choose the new content; `none` when the moved-in pointer is
null in the formula branch. -/
def Cell.SetImpl (s : Sheet) (self : Position) (text : String) (formula_impl : Option Impl) :
    Option Sheet :=
  if text = "" then
    some (Sheet.modify (fun c => { c with impl_ := .EmptyImpl }) s self)
  else if isFormulaText text then
    match formula_impl with
    | none => none
    | some impl => some (Sheet.modify (fun c => { c with impl_ := impl }) s self)
  else
    some (Sheet.modify (fun c => { c with impl_ := .TextImpl text }) s self)

/-- One round of the loop of `Cell::RebuildGraph`. -/
def Cell.rebuildStep (self : Position) (s : Sheet) (pos : Position) : Sheet :=
  let s := match Sheet.GetCell s pos with
    | none => Sheet.SetCellEmpty s pos
    | some _ => s
  Sheet.modify (fun c => { c with influence_ := insertCell self c.influence_ }) s pos

/-- `Cell::RebuildGraph`: enter this cell into the `influence_` set of every position
its content references, creating missing cells. -/
def Cell.RebuildGraph (s : Sheet) (self : Position) : Sheet :=
  match Sheet.GetCell s self with
  | none => s
  | some this => this.impl_.GetReferencedCells.foldl (Cell.rebuildStep self) s

/-- `Cell::Set`. The call is undefined when no cell is stored at `self`. -/
def Cell.Set (ParseFormulaAST : String → Option FormulaAST)
    (s : Sheet) (self : Position) (text : String) : Outcome Unit :=
  match Sheet.GetCell s self with
  | none => .undefined
  | some this =>
    if text = this.impl_.GetText then
      .ok () s
    else
      match Cell.CreateFormulaImpl ParseFormulaAST s self text with
      | .formulaException s' => .formulaException s'
      | .circularDependency s' => .circularDependency s'
      | .undefined => .undefined
      | .ok formula_impl s1 =>
        let s2 := Cell.ClearInfluence s1 self
        match Cell.SetImpl s2 self text formula_impl with
        | none => .undefined
        | some s3 =>
          match Cell.ClearCaches s3 self with
          | .ok () s4 => .ok () (Cell.RebuildGraph s4 self)
          | _ => .undefined

/-! ## Evaluation -/

/-- The variant `FormulaInterface::Value`, with the two alternatives that
`FormulaImpl::GetValue` tests: a number or an error. -/
inductive FormulaValue
  | num (d : Double)
  | err (e : FormulaError)
deriving DecidableEq, Repr

/-- `ast_.Execute(lambda)` inside the `try` block of `Formula::Evaluate`, with the
lambda inlined: the callback reads the value of the cell at `pos` through `getValue`
(`sheet.GetCell(pos)->GetValue()`), hands on a number, turns the empty text into zero
and any other text into `std::stod` of it (a failure is thrown as an error of category
`Value`), and rethrows an error value; every thrown `FormulaError` is caught and
returned. `none` when `getValue` yields no value. -/
def Formula.execute (stod : String → Option Double)
    (getValue : Sheet → Position → Option (Value × Sheet)) :
    Exec → Sheet → Option (FormulaValue × Sheet)
  | .ret d, s => some (.num d, s)
  | .raise e, s => some (.err e, s)
  | .arg pos k, s =>
    match getValue s pos with
    | none => none
    | some (.num d, s') => Formula.execute stod getValue (k d) s'
    | some (.str str_value, s') =>
      if str_value = "" then
        Formula.execute stod getValue (k 0) s'
      else
        match stod str_value with
        | some d => Formula.execute stod getValue (k d) s'
        | none => some (.err { category_ := .Value }, s')
    | some (.err e, s') => some (.err e, s')

/-- `Formula::Evaluate`. -/
def Formula.Evaluate (stod : String → Option Double)
    (getValue : Sheet → Position → Option (Value × Sheet)) (f : Formula) (s : Sheet) :
    Option (FormulaValue × Sheet) :=
  Formula.execute stod getValue f.ast_.run s

/-- `Impl::GetValue` with its three overrides. -/
def Impl.GetValue (stod : String → Option Double)
    (getValue : Sheet → Position → Option (Value × Sheet)) :
    Impl → Sheet → Option (Value × Sheet)
  | .EmptyImpl, s => some (.str "", s)
  | .TextImpl text_, s =>
    if text_ ≠ "" ∧ front text_ = ESCAPE_SIGN then
      some (.str (substr text_ 1), s)
    else
      some (.str text_, s)
  | .FormulaImpl formula_, s =>
    match Formula.Evaluate stod getValue formula_ s with
    | none => none
    | some (.num d, s') => some (.num d, s')
    | some (.err e, s') => some (.err e, s')

/-- `Cell::GetValue`: the cached value if there is one, otherwise the value of the
content, which is stored in `cache_`. The first argument bounds the depth of nested
`GetValue` calls; `none` when that depth is exceeded or a missing cell is
dereferenced. -/
def Cell.GetValue (stod : String → Option Double) :
    Nat → Sheet → Position → Option (Value × Sheet)
  | 0, _, _ => none
  | n + 1, s, self =>
    match Sheet.GetCell s self with
    | none => none
    | some this =>
      match this.cache_ with
      | some v => some (v, s)
      | none =>
        match Impl.GetValue stod (Cell.GetValue stod n) this.impl_ s with
        | none => none
        | some (v, s') => some (v, Sheet.modify (fun c => { c with cache_ := some v }) s' self)

/-- Evaluation of an expression from scratch: like `Formula.execute`, but the callback
is a pure function and no cache is read or written. -/
def Formula.executePure (stod : String → Option Double)
    (getValue : Position → Option Value) : Exec → Option FormulaValue
  | .ret d => some (.num d)
  | .raise e => some (.err e)
  | .arg pos k =>
    match getValue pos with
    | none => none
    | some (.num d) => Formula.executePure stod getValue (k d)
    | some (.str str_value) =>
      if str_value = "" then
        Formula.executePure stod getValue (k 0)
      else
        match stod str_value with
        | some d => Formula.executePure stod getValue (k d)
        | none => some (.err { category_ := .Value })
    | some (.err e) => some (.err e)

/-- The value of a content variant computed from scratch. -/
def Impl.valuePure (stod : String → Option Double) (getValue : Position → Option Value) :
    Impl → Option Value
  | .EmptyImpl => some (.str "")
  | .TextImpl text_ =>
    if text_ ≠ "" ∧ front text_ = ESCAPE_SIGN then
      some (.str (substr text_ 1))
    else
      some (.str text_)
  | .FormulaImpl formula_ =>
    match Formula.executePure stod getValue formula_.ast_.run with
    | none => none
    | some (.num d) => some (.num d)
    | some (.err e) => some (.err e)

/-- The value of the cell at `self` evaluated from scratch, all caches ignored; the
first argument bounds the depth of nested evaluations. -/
def Cell.valuePure (stod : String → Option Double) (s : Sheet) : Nat → Position → Option Value
  | 0, _ => none
  | n + 1, self =>
    match Sheet.GetCell s self with
    | none => none
    | some this => Impl.valuePure stod (Cell.valuePure stod s n) this.impl_

/-! ## The two graphs and the measures of the loops -/

/-- The positions the content stored at `pos` references; none for a position without
a cell. -/
def Sheet.refs (s : Sheet) (pos : Position) : List Position :=
  match Sheet.GetCell s pos with
  | some c => c.GetReferencedCells
  | none => []

/-- The `influence_` set of the cell stored at `pos`; empty for a position without a
cell. -/
def Sheet.infl (s : Sheet) (pos : Position) : List Position :=
  match Sheet.GetCell s pos with
  | some c => c.influence_
  | none => []

/-- Forward reference edge: the content at `p` references position `q`. -/
def Refers (s : Sheet) (p q : Position) : Prop :=
  q ∈ Sheet.refs s p

/-- Reverse edge: `q` is in the `influence_` set of the cell at `p`. -/
def Influences (s : Sheet) (p q : Position) : Prop :=
  q ∈ Sheet.infl s p

/-- The forward-reference graph has no cycle (a self-reference is a cycle). -/
def Acyclic (s : Sheet) : Prop :=
  ∀ p, ¬ Relation.TransGen (Refers s) p p

/-- The entry of the visited matrix for `pos` exists and is set. -/
def marked (visited_cells : List (List Nat)) (pos : Position) : Prop :=
  visitedAt visited_cells pos = some 1

/-- The position has a slot in a matrix of the printable size of the sheet. -/
def inBounds (s : Sheet) (pos : Position) : Prop :=
  pos.row < (Sheet.GetPrintableSize s).rows ∧ pos.col < (Sheet.GetPrintableSize s).cols

/-- Measure of the cycle check: the references of the cells not yet marked. -/
def Sheet.pendingRefs (s : Sheet) (visited_cells : List (List Nat)) : Nat :=
  (s.map (fun e =>
    if visitedAt visited_cells e.1 = some 1 then 0 else e.2.GetReferencedCells.length)).sum

/-- Measure of `ClearCaches`: the `influence_` entries of the cells not yet visited. -/
def Sheet.pendingInfl (s : Sheet) (visited_cells : List Position) : Nat :=
  (s.map (fun e => if e.1 ∈ visited_cells then 0 else e.2.influence_.length)).sum

/-- The sheet a call leaves behind, when it returns or throws. -/
def Outcome.state {α : Type} : Outcome α → Option Sheet
  | .ok _ s => some s
  | .formulaException s => some s
  | .circularDependency s => some s
  | .undefined => none

/-- The sheet `s'` is the sheet `s` with fresh empty cells at some positions that held
no cell: every cell of `s` is untouched. -/
def Materialized (s s' : Sheet) : Prop :=
  (∀ p c, Sheet.GetCell s p = some c → Sheet.GetCell s' p = some c) ∧
  (∀ p, Sheet.GetCell s p = none →
    Sheet.GetCell s' p = none ∨ Sheet.GetCell s' p = some Cell.new)

/-- Forward reference edge out of a position other than `self`: the edges the cycle
check of the cell at `self` can follow, since it never expands `self`. -/
def RefersAvoiding (s : Sheet) (self p q : Position) : Prop :=
  p ≠ self ∧ Refers s p q

/-- The `influence_` set of the cell at `p` after `ClearInfluence` for the old
references and `RebuildGraph` for the new ones of the cell at `self`. -/
def relink (self : Position) (old new : List Position) (p : Position)
    (influence : List Position) : List Position :=
  let unlinked := if p ∈ old then eraseCell self influence else influence
  if p ∈ new then insertCell self unlinked else unlinked

/-- The content `impl` that a committing `Set` of `text` stores in the cell at `self`,
and the sheet `s1` as the preparation of that content (`CreateFormulaImpl`) leaves it. -/
def NewContent (ParseFormulaAST : String → Option FormulaAST) (s : Sheet) (self : Position)
    (text : String) (impl : Impl) (s1 : Sheet) : Prop :=
  (text = "" ∧ impl = .EmptyImpl ∧ s1 = s) ∨
  (text ≠ "" ∧ isFormulaText text = false ∧ impl = .TextImpl text ∧ s1 = s) ∨
  (isFormulaText text = true ∧ ∃ f, ParseFormula ParseFormulaAST (substr text 1) = some f ∧
    impl = .FormulaImpl f ∧
    Cell.CheckForCircularDependencies s self f.GetReferencedCells = .ok () s1)

/-! ## Reverse edges -/

/-- The reverse edges are exactly the inverse of the forward references: for all cells
`X`, `Y` of the sheet, `X` is in `Y.influence_` iff the position of `Y` is referenced
by the content of `X`; every referenced position holds a cell; and every member of an
`influence_` set is a cell of the sheet (it is a pointer to one). -/
def ReverseEdgesExact (s : Sheet) : Prop :=
  (∀ x y cx cy, Sheet.GetCell s x = some cx → Sheet.GetCell s y = some cy →
    (x ∈ cy.influence_ ↔ y ∈ cx.GetReferencedCells)) ∧
  (∀ x cx, Sheet.GetCell s x = some cx →
    ∀ y ∈ cx.GetReferencedCells, Sheet.GetCell s y ≠ none) ∧
  (∀ y cy, Sheet.GetCell s y = some cy → ∀ x ∈ cy.influence_, Sheet.GetCell s x ≠ none)

/-! ## Cache validity -/

/-- The positions a run of `Execute` can pass to its callback. -/
inductive Exec.Reads : Exec → Position → Prop
  | here (pos : Position) (k : Double → Exec) : Exec.Reads (.arg pos k) pos
  | later (pos : Position) (k : Double → Exec) (d : Double) (p : Position) :
      Exec.Reads (k d) p → Exec.Reads (.arg pos k) p

/-- The interface contract of the external tree: `GetCells()` lists every position
that `Execute` reads. -/
def FormulaAST.Sound (ast : FormulaAST) : Prop :=
  ∀ p, Exec.Reads ast.run p → p ∈ ast.cells

/-- Every tree the parser returns satisfies the interface contract. -/
def ParseSound (ParseFormulaAST : String → Option FormulaAST) : Prop :=
  ∀ expression ast, ParseFormulaAST expression = some ast → ast.Sound

/-- Every formula stored in the sheet satisfies the interface contract. -/
def ContentSound (s : Sheet) : Prop :=
  ∀ x c f, Sheet.GetCell s x = some c → c.impl_ = .FormulaImpl f → f.ast_.Sound

/-- Every cached value is the value of the cell evaluated from scratch. -/
def CacheValid (stod : String → Option Double) (s : Sheet) : Prop :=
  ∀ x c v, Sheet.GetCell s x = some c → c.cache_ = some v →
    ∃ n, Cell.valuePure stod s n x = some v

/-- The two sheets hold cells at the same positions, with the same contents and the
same `influence_` sets; only caches may differ. -/
def SameContent (s s' : Sheet) : Prop :=
  ∀ p, (Sheet.GetCell s' p).map (fun c => (c.impl_, c.influence_))
    = (Sheet.GetCell s p).map (fun c => (c.impl_, c.influence_))

/-- The sheets that arise from the empty sheet when the sheet creates cells at free
positions (the constructor `Cell::Cell`) and `Cell::Set` and `Cell::GetValue` are called
on existing cells; a call of `Set` may return or throw. -/
inductive Reachable (ParseFormulaAST : String → Option FormulaAST)
    (stod : String → Option Double) : Sheet → Prop
  | empty : Reachable ParseFormulaAST stod []
  | create (s : Sheet) (pos : Position) :
      Reachable ParseFormulaAST stod s → Sheet.GetCell s pos = none →
      Reachable ParseFormulaAST stod (Sheet.SetCellEmpty s pos)
  | set (s : Sheet) (pos : Position) (text : String) (s' : Sheet) :
      Reachable ParseFormulaAST stod s →
      (Cell.Set ParseFormulaAST s pos text).state = some s' →
      Reachable ParseFormulaAST stod s'
  | getValue (s : Sheet) (pos : Position) (n : Nat) (v : Value) (s' : Sheet) :
      Reachable ParseFormulaAST stod s →
      Cell.GetValue stod n s pos = some (v, s') →
      Reachable ParseFormulaAST stod s'

/-! ## What a run reads and what the tree lists -/

/-- The run of `Execute` inside `Formula::Evaluate`, started on the sheet `s`, calls the
callback for the position `p`, and the cell there has the value `v`: either the run
starts with that call, or its first call yields a number (a number, the empty text or a
text that `std::stod` converts) and the call for `p` comes later in the run. -/
inductive Formula.ReadsValue (stod : String → Option Double)
    (getValue : Sheet → Position → Option (Value × Sheet)) :
    Exec → Sheet → Position → Value → Prop
  | here (pos : Position) (k : Double → Exec) (s s' : Sheet) (v : Value) :
      getValue s pos = some (v, s') →
      Formula.ReadsValue stod getValue (.arg pos k) s pos v
  | afterNumber (pos : Position) (k : Double → Exec) (s s' : Sheet) (d : Double)
      (p : Position) (v : Value) :
      getValue s pos = some (.num d, s') →
      Formula.ReadsValue stod getValue (k d) s' p v →
      Formula.ReadsValue stod getValue (.arg pos k) s p v
  | afterEmptyText (pos : Position) (k : Double → Exec) (s s' : Sheet)
      (p : Position) (v : Value) :
      getValue s pos = some (.str "", s') →
      Formula.ReadsValue stod getValue (k 0) s' p v →
      Formula.ReadsValue stod getValue (.arg pos k) s p v
  | afterText (pos : Position) (k : Double → Exec) (s s' : Sheet) (str_value : String)
      (d : Double) (p : Position) (v : Value) :
      getValue s pos = some (.str str_value, s') → str_value ≠ "" →
      stod str_value = some d →
      Formula.ReadsValue stod getValue (k d) s' p v →
      Formula.ReadsValue stod getValue (.arg pos k) s p v

/-- Modelled from the spec: the external tree hands out its referenced positions as an
ordered set, so `GetCells()` of a tree the parser returns lists no position twice. -/
def ParseCellsSet (ParseFormulaAST : String → Option FormulaAST) : Prop :=
  ∀ expression ast, ParseFormulaAST expression = some ast → ast.cells.Nodup

/-! ## Records of the two loops -/

/-- The loop of `Cell::CheckForCircularDependencies` together with the positions it
takes from the stack, in order: the positions it looks up in the visited matrix.
`none` when the fuel runs out. -/
def Cell.checkTrace (self : Position) :
    Nat → Sheet → List Position → List (List Nat) → Option (List Position × Outcome Unit)
  | _, s, [], _ => some ([], .ok () s)
  | 0, _, _ :: _, _ => none
  | n + 1, s, current_pos :: stack_positions, visited_cells =>
    match visitedAt visited_cells current_pos with
    | none => some ([current_pos], .undefined)
    | some check_pos =>
      if check_pos = 1 then
        (Cell.checkTrace self n s stack_positions visited_cells).map
          (fun r => (current_pos :: r.1, r.2))
      else
        let visited_cells := visitedSet visited_cells current_pos
        match Sheet.GetCell s current_pos with
        | some current_cell =>
          if current_pos = self then
            some ([current_pos], .circularDependency s)
          else
            (Cell.checkTrace self n s
              (Cell.AddToStack stack_positions current_cell.GetReferencedCells)
              visited_cells).map (fun r => (current_pos :: r.1, r.2))
        | none =>
          let s := Cell.CreateEmptyCell s current_pos
          match Sheet.GetCell s current_pos with
          | none => some ([current_pos], .undefined)
          | some current_cell =>
            (Cell.checkTrace self n s
              (Cell.AddToStack stack_positions current_cell.GetReferencedCells)
              visited_cells).map (fun r => (current_pos :: r.1, r.2))

/-- The positions that `Cell::CheckForCircularDependencies` visits: those it takes from
the stack and looks up in the visited matrix, in order. -/
def Cell.visitedPositions (s : Sheet) (self : Position) (referenced_cells : List Position) :
    List Position :=
  let stack_positions := Cell.CreateStack referenced_cells
  let visited_cells := Cell.CreateVisitedCells s
  match Cell.checkTrace self (stack_positions.length + Sheet.referencesTotal s) s
      stack_positions visited_cells with
  | some r => r.1
  | none => []

/-- The loop of `Cell::ClearCaches` together with the cells it inserts into
`visited_cells`, in order: for each of them, once it is inserted, the loop pushes its
`influence_` set and resets its cache. `none` when the fuel runs out. -/
def Cell.clearTrace :
    Nat → Sheet → List Position → List Position → Option (List Position × Outcome Unit)
  | _, s, [], _ => some ([], .ok () s)
  | 0, _, _ :: _, _ => none
  | n + 1, s, now_cell :: stack_positions, visited_cells =>
    if now_cell ∈ visited_cells then
      Cell.clearTrace n s stack_positions visited_cells
    else
      match Sheet.GetCell s now_cell with
      | none => some ([now_cell], .undefined)
      | some real_cell =>
        (Cell.clearTrace n (Cell.ClearCache s now_cell)
          (Cell.AddToStack stack_positions real_cell.influence_)
          (now_cell :: visited_cells)).map (fun r => (now_cell :: r.1, r.2))

/-- The cells that the loop of `Cell::ClearCaches` inserts into `visited_cells`, in
order; each entry stands for one insertion, one expansion of an `influence_` set and
one reset of a cache. -/
def Cell.expandedCells (s : Sheet) (self : Position) : List Position :=
  match Sheet.GetCell s self with
  | none => []
  | some this =>
    let stack_positions := Cell.CreateStack this.influence_
    match Cell.clearTrace (stack_positions.length + Sheet.influenceTotal s) s
        stack_positions [] with
    | some r => r.1
    | none => []

/-- The calls of `ClearCache` that `Cell::ClearCaches` makes, in order: one for every
cell its loop inserts into `visited_cells`, then the one on the cell itself. -/
def Cell.cacheResets (s : Sheet) (self : Position) : List Position :=
  Cell.expandedCells s self ++ [self]

/-! ## Example data -/

/-- The cell `A1`. -/
def A1 : Position := { row := 0, col := 0 }

/-- The cell `B1`. -/
def B1 : Position := { row := 0, col := 1 }

/-- The cell `C1`. -/
def C1 : Position := { row := 0, col := 2 }

/-- The cell `D1`. -/
def D1 : Position := { row := 0, col := 3 }

/-- The tree the parser builds for a single cell reference. -/
def refAST (pos : Position) (name : String) : FormulaAST :=
  { cells := [pos], printed := name, run := .arg pos (fun d => .ret d) }

/-- The tree the parser builds for the sum of two cell references, with the positions
in the sorted order of `GetCells()`. -/
def sumAST (p q : Position) (name : String) : FormulaAST :=
  { cells := [p, q], printed := name,
    run := .arg p (fun a => .arg q (fun b => .ret (a + b))) }

/-- The tree the parser builds for the sum of a cell reference with itself: the run
reads the position twice, `GetCells()` lists it once. -/
def twiceAST (p : Position) (name : String) : FormulaAST :=
  { cells := [p], printed := name,
    run := .arg p (fun a => .arg p (fun b => .ret (a + b))) }

/-- The external parser on the few expressions the examples use; it rejects every
other text. -/
def exampleParse (expression : String) : Option FormulaAST :=
  if expression = "A1" then some (refAST A1 "A1")
  else if expression = "B1" then some (refAST B1 "B1")
  else if expression = "A1+B1" then some (sumAST A1 B1 "A1+B1")
  else if expression = "A1+C1" then some (sumAST A1 C1 "A1+C1")
  else if expression = "A1+A1" then some (twiceAST A1 "A1+A1")
  else none

/-- `std::stod` on the few texts the examples use: it converts the longest prefix of
the text that is a number and ignores what follows, so `1abc` yields 1 like `1`; a text
without such a prefix, like `abc`, makes it throw `std::invalid_argument`. -/
def exampleStod (text : String) : Option Double :=
  if text = "5" then some 5
  else if text = "1" then some 1
  else if text = "1abc" then some 1
  else none

/-- A sheet that holds one fresh cell, at `A1`. -/
def sheetA : Sheet := [(A1, Cell.new)]

/-- A sheet with a fresh cell at `A1` and the text `x` at `C1`; its occupied extent is
one row of three columns, and `B1` holds no cell. -/
def sheetAC : Sheet :=
  [(A1, Cell.new), (C1, { impl_ := .TextImpl "x", influence_ := [], cache_ := none })]

/-- The sheet `sheetAC` after `Set(A1, "=B1")`: the formula at `A1`, and a new empty cell
at `B1` with `A1` as its dependent. -/
def sheetACLinked : Sheet :=
  [(A1, { impl_ := .FormulaImpl { ast_ := refAST B1 "B1" }, influence_ := [],
          cache_ := none }),
   (C1, { impl_ := .TextImpl "x", influence_ := [], cache_ := none }),
   (B1, { impl_ := .EmptyImpl, influence_ := [A1], cache_ := none })]

/-- A sheet with a fresh cell at `A1` and the text `5` at `B1`. -/
def sheetAB : Sheet :=
  [(A1, Cell.new), (B1, { impl_ := .TextImpl "5", influence_ := [], cache_ := none })]

/-- The sheet `sheetAB` after `Set(A1, "=B1")`, before any value is read. -/
def sheetLinkedFresh : Sheet :=
  [(A1, { impl_ := .FormulaImpl { ast_ := refAST B1 "B1" }, influence_ := [],
          cache_ := none }),
   (B1, { impl_ := .TextImpl "5", influence_ := [A1], cache_ := none })]

/-- The sheet `sheetLinkedFresh` after `GetValue` on `A1`: `A1` holds the formula `=B1`,
`B1` the text `5`, and both cells carry a cached value. -/
def sheetLinked : Sheet :=
  [(A1, { impl_ := .FormulaImpl { ast_ := refAST B1 "B1" }, influence_ := [],
          cache_ := some (.num 5) }),
   (B1, { impl_ := .TextImpl "5", influence_ := [A1], cache_ := some (.str "5") })]

/-- The sheet `sheetLinked` after `Clear` on `A1`. -/
def sheetLinkedCleared : Sheet :=
  [(A1, { impl_ := .EmptyImpl, influence_ := [], cache_ := some (.num 5) }),
   (B1, { impl_ := .TextImpl "5", influence_ := [A1], cache_ := some (.str "5") })]

/-- The sheet `sheetLinked` after `Set(A1, "")`. -/
def sheetLinkedEmptied : Sheet :=
  [(A1, { impl_ := .EmptyImpl, influence_ := [], cache_ := none }),
   (B1, { impl_ := .TextImpl "5", influence_ := [], cache_ := some (.str "5") })]

/-- A sheet whose only cell `A1` holds the text `x`, read once. -/
def sheetTextRead : Sheet :=
  [(A1, { impl_ := .TextImpl "x", influence_ := [], cache_ := some (.str "x") })]

/-- A diamond: `B1` reads `A1`, `C1` reads `B1`, `D1` reads `A1` and `C1`; every cell
carries a cached value. -/
def sheetDiamond : Sheet :=
  [(A1, { impl_ := .TextImpl "1", influence_ := [B1, D1], cache_ := some (.str "1") }),
   (B1, { impl_ := .FormulaImpl { ast_ := refAST A1 "A1" }, influence_ := [C1],
          cache_ := some (.num 1) }),
   (C1, { impl_ := .FormulaImpl { ast_ := refAST B1 "B1" }, influence_ := [D1],
          cache_ := some (.num 1) }),
   (D1, { impl_ := .FormulaImpl { ast_ := sumAST A1 C1 "A1+C1" }, influence_ := [],
          cache_ := some (.num 2) })]

/-- The diamond after `Set(A1, "5")`: new content at `A1`, every cache reset. -/
def sheetDiamondEdited : Sheet :=
  [(A1, { impl_ := .TextImpl "5", influence_ := [B1, D1], cache_ := none }),
   (B1, { impl_ := .FormulaImpl { ast_ := refAST A1 "A1" }, influence_ := [C1],
          cache_ := none }),
   (C1, { impl_ := .FormulaImpl { ast_ := refAST B1 "B1" }, influence_ := [D1],
          cache_ := none }),
   (D1, { impl_ := .FormulaImpl { ast_ := sumAST A1 C1 "A1+C1" }, influence_ := [],
          cache_ := none })]

/-- Two fresh cells, at `A1` and `B1`. -/
def sheetFreshAB : Sheet := [(A1, Cell.new), (B1, Cell.new)]

/-- The sheet `sheetFreshAB` after `Set(A1, text)` for a text that is not a formula and
`Set(B1, "=A1")`. -/
def sheetReadsText (text : String) : Sheet :=
  [(A1, { impl_ := .TextImpl text, influence_ := [B1], cache_ := none }),
   (B1, { impl_ := .FormulaImpl { ast_ := refAST A1 "A1" }, influence_ := [],
          cache_ := none })]

/-- A tree whose run raises a division by zero without reading a cell, as the parser
builds it for `1/0`. -/
def div0AST : FormulaAST :=
  { cells := [], printed := "1/0", run := .raise { category_ := .Div0 } }

/-- The formula `=1/0` at `A1` and the formula `=A1` at `B1`, nothing evaluated yet. -/
def sheetDiv0 : Sheet :=
  [(A1, { impl_ := .FormulaImpl { ast_ := div0AST }, influence_ := [B1], cache_ := none }),
   (B1, { impl_ := .FormulaImpl { ast_ := refAST A1 "A1" }, influence_ := [],
          cache_ := none })]

/-- The sheet `sheetAB` after `Set(B1, "=A1+A1")`. -/
def sheetTwice : Sheet :=
  [(A1, { impl_ := .EmptyImpl, influence_ := [B1], cache_ := none }),
   (B1, { impl_ := .FormulaImpl { ast_ := twiceAST A1 "A1+A1" }, influence_ := [],
          cache_ := none })]

/-- The sheet `sheetLinkedFresh` after `Clear` on `A1`: `B1` keeps `A1` in its
`influence_` set. -/
def sheetStaleEdge : Sheet :=
  [(A1, { impl_ := .EmptyImpl, influence_ := [], cache_ := none }),
   (B1, { impl_ := .TextImpl "5", influence_ := [A1], cache_ := none })]

/-- The sheet `sheetStaleEdge` after `Set(B1, "=A1")`: the `influence_` sets of `A1` and
`B1` hold each other. -/
def sheetInfluenceCycle : Sheet :=
  [(A1, { impl_ := .EmptyImpl, influence_ := [B1], cache_ := none }),
   (B1, { impl_ := .FormulaImpl { ast_ := refAST A1 "A1" }, influence_ := [A1],
          cache_ := none })]

/-! ## Lookup lemmas for the sheet -/

theorem GetCell_modify (f : Cell → Cell) (s : Sheet) (pos q : Position) :
    Sheet.GetCell (Sheet.modify f s pos) q
      = if pos = q then (Sheet.GetCell s q).map f else Sheet.GetCell s q := by
  induction s with
  | nil => simp [Sheet.modify, Sheet.GetCell]
  | cons e rest ih =>
    obtain ⟨k, c⟩ := e
    by_cases hk : k = pos
    · subst hk
      by_cases hq : k = q
      · simp [Sheet.modify, Sheet.GetCell, hq]
      · simp [Sheet.modify, Sheet.GetCell, hq]
    · by_cases hq : k = q
      · subst hq
        have : ¬ pos = k := fun h => hk h.symm
        simp [Sheet.modify, Sheet.GetCell, hk, this]
      · simp [Sheet.modify, Sheet.GetCell, hk, hq, ih]

theorem GetCell_modify_self (f : Cell → Cell) (s : Sheet) (pos : Position) :
    Sheet.GetCell (Sheet.modify f s pos) pos = (Sheet.GetCell s pos).map f := by
  simp [GetCell_modify]

theorem GetCell_modify_ne (f : Cell → Cell) (s : Sheet) {pos q : Position} (h : pos ≠ q) :
    Sheet.GetCell (Sheet.modify f s pos) q = Sheet.GetCell s q := by
  simp [GetCell_modify, h]

theorem GetCell_append (s t : Sheet) (q : Position) :
    Sheet.GetCell (s ++ t) q
      = match Sheet.GetCell s q with
        | some c => some c
        | none => Sheet.GetCell t q := by
  induction s with
  | nil => simp [Sheet.GetCell]
  | cons e rest ih =>
    obtain ⟨k, c⟩ := e
    by_cases hk : k = q
    · simp [Sheet.GetCell, hk]
    · simp [Sheet.GetCell, hk, ih]

theorem GetCell_SetCellEmpty (s : Sheet) (pos q : Position) :
    Sheet.GetCell (Sheet.SetCellEmpty s pos) q
      = match Sheet.GetCell s q with
        | some c => some c
        | none => if pos = q then some Cell.new else none := by
  simp [Sheet.SetCellEmpty, GetCell_append, Sheet.GetCell]

theorem GetCell_SetCellEmpty_self {s : Sheet} {pos : Position}
    (h : Sheet.GetCell s pos = none) :
    Sheet.GetCell (Sheet.SetCellEmpty s pos) pos = some Cell.new := by
  simp [GetCell_SetCellEmpty, h]

theorem GetCell_SetCellEmpty_of_some {s : Sheet} {q : Position} {c : Cell} (pos : Position)
    (h : Sheet.GetCell s q = some c) :
    Sheet.GetCell (Sheet.SetCellEmpty s pos) q = some c := by
  simp [GetCell_SetCellEmpty, h]

theorem isFormulaText_empty : isFormulaText "" = false := by decide

theorem isFormulaText_ne_empty {text : String} (h : isFormulaText text = true) :
    text ≠ "" := by
  rintro rfl
  simp [isFormulaText_empty] at h

theorem visitedAt_visitedSet_self {v : List (List Nat)} {p : Position} {x : Nat}
    (h : visitedAt v p = some x) : visitedAt (visitedSet v p) p = some 1 := by
  unfold visitedAt at h
  unfold visitedSet visitedAt
  cases hr : v[p.row]? with
  | none => simp [hr] at h
  | some inner =>
    simp only [hr] at h
    have hlt : p.row < v.length := by
      rcases List.getElem?_eq_some_iff.mp hr with ⟨hlt, _⟩
      exact hlt
    have hlt2 : p.col < inner.length := by
      rcases List.getElem?_eq_some_iff.mp h with ⟨hlt, _⟩
      exact hlt
    simp [List.getElem?_set_self, hlt, hlt2]

theorem visitedAt_visitedSet_ne {v : List (List Nat)} {p q : Position}
    (h : q ≠ p) : visitedAt (visitedSet v p) q = visitedAt v q := by
  unfold visitedSet visitedAt
  cases hr : v[p.row]? with
  | none => rfl
  | some inner =>
    simp only
    by_cases hrow : p.row = q.row
    · have hcol : p.col ≠ q.col := by
        intro hc
        apply h
        cases p; cases q; simp_all
      have hlt : p.row < v.length := by
        rcases List.getElem?_eq_some_iff.mp hr with ⟨hlt, _⟩
        exact hlt
      rw [← hrow, hr]
      simp [List.getElem?_set_self, hlt, List.getElem?_set_ne hcol]
    · simp [List.getElem?_set_ne hrow]

theorem marked_visitedSet {v : List (List Nat)} {p q : Position} (h : marked v q) :
    marked (visitedSet v p) q := by
  unfold marked at *
  by_cases hq : q = p
  · subst hq
    exact visitedAt_visitedSet_self h
  · rw [visitedAt_visitedSet_ne hq]
    exact h

theorem AddToStack_eq (destination source : List Position) :
    Cell.AddToStack destination source = source.reverse ++ destination := by
  unfold Cell.AddToStack
  induction source generalizing destination with
  | nil => rfl
  | cons x xs ih => simp [List.foldl, ih]

theorem AddToStack_length (destination source : List Position) :
    (Cell.AddToStack destination source).length = destination.length + source.length := by
  simp [AddToStack_eq, Nat.add_comm]

theorem mem_AddToStack {destination source : List Position} {p : Position} :
    p ∈ Cell.AddToStack destination source ↔ p ∈ source ∨ p ∈ destination := by
  simp [AddToStack_eq]

theorem CreateStack_length (source : List Position) :
    (Cell.CreateStack source).length = source.length := by
  simp [Cell.CreateStack, AddToStack_length]

theorem mem_CreateStack {source : List Position} {p : Position} :
    p ∈ Cell.CreateStack source ↔ p ∈ source := by
  simp [Cell.CreateStack, mem_AddToStack]

/-! ## The loops end within their fuel -/

theorem pendingRefs_cons (k : Position) (c : Cell) (rest : Sheet) (v : List (List Nat)) :
    Sheet.pendingRefs ((k, c) :: rest) v
      = (if visitedAt v k = some 1 then 0 else c.GetReferencedCells.length)
        + Sheet.pendingRefs rest v := by
  simp [Sheet.pendingRefs]

theorem pendingRefs_mono (s : Sheet) (v : List (List Nat)) (p : Position) :
    Sheet.pendingRefs s (visitedSet v p) ≤ Sheet.pendingRefs s v := by
  induction s with
  | nil => simp [Sheet.pendingRefs]
  | cons e rest ih =>
    obtain ⟨k, c⟩ := e
    rw [pendingRefs_cons, pendingRefs_cons]
    by_cases hm : visitedAt v k = some 1
    · have hm2 : visitedAt (visitedSet v p) k = some 1 := marked_visitedSet hm
      simp [hm, hm2, ih]
    · simp only [hm, if_false]
      split
      · omega
      · omega

theorem pendingRefs_mark {s : Sheet} {v : List (List Nat)} {p : Position} {x : Nat} {c : Cell}
    (hx : visitedAt v p = some x) (hx1 : x ≠ 1) (hc : Sheet.GetCell s p = some c) :
    Sheet.pendingRefs s (visitedSet v p) + c.GetReferencedCells.length
      ≤ Sheet.pendingRefs s v := by
  induction s with
  | nil => simp [Sheet.GetCell] at hc
  | cons e rest ih =>
    obtain ⟨k, c0⟩ := e
    rw [pendingRefs_cons, pendingRefs_cons]
    by_cases hk : k = p
    · subst hk
      simp only [Sheet.GetCell, if_true, Option.some.injEq] at hc
      subst hc
      have h1 : visitedAt (visitedSet v k) k = some 1 := visitedAt_visitedSet_self hx
      have h2 : ¬ visitedAt v k = some 1 := by
        rw [hx]; intro h; exact hx1 (Option.some.inj h)
      have := pendingRefs_mono rest v k
      simp only [h1, h2, if_true, if_false]
      omega
    · simp only [Sheet.GetCell, hk, if_false] at hc
      have := ih hc
      rw [visitedAt_visitedSet_ne hk]
      omega

theorem pendingRefs_SetCellEmpty (s : Sheet) (v : List (List Nat)) (p : Position) :
    Sheet.pendingRefs (Sheet.SetCellEmpty s p) v = Sheet.pendingRefs s v := by
  simp [Sheet.pendingRefs, Sheet.SetCellEmpty, Cell.new, Cell.GetReferencedCells,
    Impl.GetReferencedCells]

theorem pendingRefs_le_referencesTotal (s : Sheet) (v : List (List Nat)) :
    Sheet.pendingRefs s v ≤ Sheet.referencesTotal s := by
  induction s with
  | nil => simp [Sheet.pendingRefs, Sheet.referencesTotal]
  | cons e rest ih =>
    obtain ⟨k, c⟩ := e
    rw [pendingRefs_cons]
    have : Sheet.referencesTotal ((k, c) :: rest)
        = c.GetReferencedCells.length + Sheet.referencesTotal rest := by
      simp [Sheet.referencesTotal]
    rw [this]
    split <;> omega

/-- The cycle check never runs out of fuel: the stack size plus the references of
the unmarked cells bounds the number of iterations still to come. -/
theorem checkLoop_fuel (self : Position) :
    ∀ (n : Nat) (s : Sheet) (stack : List Position) (v : List (List Nat)),
      stack.length + Sheet.pendingRefs s v ≤ n →
      ∃ r, Cell.checkLoop self n s stack v = some r := by
  intro n
  induction n with
  | zero =>
    intro s stack v h
    cases stack with
    | nil => exact ⟨.ok () s, by simp [Cell.checkLoop]⟩
    | cons x xs => simp at h
  | succ n ih =>
    intro s stack v h
    cases stack with
    | nil => exact ⟨.ok () s, by simp [Cell.checkLoop]⟩
    | cons cur rest =>
      simp only [List.length_cons] at h
      unfold Cell.checkLoop
      cases hv : visitedAt v cur with
      | none => exact ⟨_, rfl⟩
      | some x =>
        simp only
        by_cases hx : x = 1
        · simp only [hx, if_true]
          exact ih s rest v (by omega)
        · simp only [hx, if_false]
          cases hc : Sheet.GetCell s cur with
          | some c =>
            simp only
            by_cases hself : cur = self
            · simp [hself]
            · simp only [hself, if_false]
              apply ih
              have := pendingRefs_mark hv hx hc
              rw [AddToStack_length]
              omega
          | none =>
            simp only [Cell.CreateEmptyCell, GetCell_SetCellEmpty_self hc]
            apply ih
            have := pendingRefs_mono s v cur
            rw [AddToStack_length, pendingRefs_SetCellEmpty]
            simp only [Cell.new, Cell.GetReferencedCells, Impl.GetReferencedCells,
              List.length_nil]
            omega

theorem CheckForCircularDependencies_eq (s : Sheet) (self : Position) (refs : List Position) :
    ∃ r, Cell.checkLoop self ((Cell.CreateStack refs).length + Sheet.referencesTotal s) s
        (Cell.CreateStack refs) (Cell.CreateVisitedCells s) = some r
      ∧ Cell.CheckForCircularDependencies s self refs = r := by
  obtain ⟨r, hr⟩ := checkLoop_fuel self
    ((Cell.CreateStack refs).length + Sheet.referencesTotal s) s (Cell.CreateStack refs)
    (Cell.CreateVisitedCells s)
    (by have := pendingRefs_le_referencesTotal s (Cell.CreateVisitedCells s); omega)
  exact ⟨r, hr, by simp [Cell.CheckForCircularDependencies, hr]⟩

theorem pendingInfl_cons (k : Position) (c : Cell) (rest : Sheet) (v : List Position) :
    Sheet.pendingInfl ((k, c) :: rest) v
      = (if k ∈ v then 0 else c.influence_.length) + Sheet.pendingInfl rest v := by
  simp [Sheet.pendingInfl]

theorem pendingInfl_mono (s : Sheet) (v : List Position) (p : Position) :
    Sheet.pendingInfl s (p :: v) ≤ Sheet.pendingInfl s v := by
  induction s with
  | nil => simp [Sheet.pendingInfl]
  | cons e rest ih =>
    obtain ⟨k, c⟩ := e
    rw [pendingInfl_cons, pendingInfl_cons]
    by_cases hm : k ∈ v
    · have : k ∈ p :: v := List.mem_cons_of_mem _ hm
      simp [hm, this, ih]
    · simp only [hm, if_false]
      split <;> omega

theorem pendingInfl_visit {s : Sheet} {v : List Position} {p : Position} {c : Cell}
    (hp : p ∉ v) (hc : Sheet.GetCell s p = some c) :
    Sheet.pendingInfl s (p :: v) + c.influence_.length ≤ Sheet.pendingInfl s v := by
  induction s with
  | nil => simp [Sheet.GetCell] at hc
  | cons e rest ih =>
    obtain ⟨k, c0⟩ := e
    rw [pendingInfl_cons, pendingInfl_cons]
    by_cases hk : k = p
    · subst hk
      simp only [Sheet.GetCell, if_true, Option.some.injEq] at hc
      subst hc
      have := pendingInfl_mono rest v k
      simp only [List.mem_cons, true_or, if_true, hp, if_false]
      omega
    · simp only [Sheet.GetCell, hk, if_false] at hc
      have := ih hc
      have hk2 : (k ∈ p :: v) ↔ k ∈ v := by simp [hk]
      simp only [hk2]
      omega

theorem pendingInfl_modify (f : Cell → Cell) (hf : ∀ c, (f c).influence_ = c.influence_)
    (s : Sheet) (p : Position) (v : List Position) :
    Sheet.pendingInfl (Sheet.modify f s p) v = Sheet.pendingInfl s v := by
  induction s with
  | nil => simp [Sheet.modify]
  | cons e rest ih =>
    obtain ⟨k, c⟩ := e
    by_cases hk : k = p
    · simp [Sheet.modify, hk, pendingInfl_cons, hf]
    · simp [Sheet.modify, hk, pendingInfl_cons, ih]

theorem pendingInfl_le_influenceTotal (s : Sheet) (v : List Position) :
    Sheet.pendingInfl s v ≤ Sheet.influenceTotal s := by
  induction s with
  | nil => simp [Sheet.pendingInfl, Sheet.influenceTotal]
  | cons e rest ih =>
    obtain ⟨k, c⟩ := e
    rw [pendingInfl_cons]
    have : Sheet.influenceTotal ((k, c) :: rest)
        = c.influence_.length + Sheet.influenceTotal rest := by
      simp [Sheet.influenceTotal]
    rw [this]
    split <;> omega

/-- The loop of `ClearCaches` never runs out of fuel. -/
theorem clearLoop_fuel :
    ∀ (n : Nat) (s : Sheet) (stack : List Position) (v : List Position),
      stack.length + Sheet.pendingInfl s v ≤ n →
      ∃ r, Cell.clearLoop n s stack v = some r := by
  intro n
  induction n with
  | zero =>
    intro s stack v h
    cases stack with
    | nil => exact ⟨.ok () s, by simp [Cell.clearLoop]⟩
    | cons x xs => simp at h
  | succ n ih =>
    intro s stack v h
    cases stack with
    | nil => exact ⟨.ok () s, by simp [Cell.clearLoop]⟩
    | cons cur rest =>
      simp only [List.length_cons] at h
      unfold Cell.clearLoop
      by_cases hv : cur ∈ v
      · simp only [hv, if_true]
        exact ih s rest v (by omega)
      · simp only [hv, if_false]
        cases hc : Sheet.GetCell s cur with
        | none => exact ⟨_, rfl⟩
        | some c =>
          simp only
          apply ih
          have := pendingInfl_visit hv hc
          rw [AddToStack_length, Cell.ClearCache,
            pendingInfl_modify (fun c => { c with cache_ := none }) (fun _ => rfl)]
          omega

theorem ClearCaches_eq {s : Sheet} {self : Position} {this : Cell}
    (hc : Sheet.GetCell s self = some this) :
    ∃ r, Cell.clearLoop ((Cell.CreateStack this.influence_).length + Sheet.influenceTotal s)
        s (Cell.CreateStack this.influence_) [] = some r
      ∧ Cell.ClearCaches s self
        = match r with
          | .ok () s' => .ok () (Cell.ClearCache s' self)
          | _ => .undefined := by
  obtain ⟨r, hr⟩ := clearLoop_fuel
    ((Cell.CreateStack this.influence_).length + Sheet.influenceTotal s) s
    (Cell.CreateStack this.influence_) []
    (by have := pendingInfl_le_influenceTotal s []; omega)
  refine ⟨r, hr, ?_⟩
  simp only [Cell.ClearCaches, hc, hr]
  cases r <;> rfl

/-! ## The cycle check -/

theorem Materialized.self (s : Sheet) : Materialized s s :=
  ⟨fun _ _ h => h, fun _ h => Or.inl h⟩

theorem Materialized.chain {s t u : Sheet} (h1 : Materialized s t) (h2 : Materialized t u) :
    Materialized s u := by
  refine ⟨fun p c h => h2.1 p c (h1.1 p c h), fun p h => ?_⟩
  rcases h1.2 p h with h' | h'
  · exact h2.2 p h'
  · exact Or.inr (h2.1 p _ h')

theorem Materialized_SetCellEmpty (s : Sheet) (pos : Position) :
    Materialized s (Sheet.SetCellEmpty s pos) := by
  refine ⟨fun p c h => GetCell_SetCellEmpty_of_some pos h, fun p h => ?_⟩
  rw [GetCell_SetCellEmpty, h]
  by_cases hp : pos = p
  · simp [hp]
  · simp [hp]

theorem Materialized.refs_same {s s' : Sheet} (h : Materialized s s') (p : Position) :
    Sheet.refs s' p = Sheet.refs s p := by
  unfold Sheet.refs
  cases hc : Sheet.GetCell s p with
  | some c => rw [h.1 p c hc]
  | none =>
    rcases h.2 p hc with h' | h'
    · rw [h']
    · rw [h']; rfl

theorem Materialized.infl_same {s s' : Sheet} (h : Materialized s s') (p : Position) :
    Sheet.infl s' p = Sheet.infl s p := by
  unfold Sheet.infl
  cases hc : Sheet.GetCell s p with
  | some c => rw [h.1 p c hc]
  | none =>
    rcases h.2 p hc with h' | h'
    · rw [h']
    · rw [h']; rfl

theorem Materialized.Refers_same {s s' : Sheet} (h : Materialized s s') :
    Refers s' = Refers s := by
  funext p q
  simp [Refers, h.refs_same]

theorem Materialized.RefersAvoiding_same {s s' : Sheet} (h : Materialized s s')
    (self : Position) : RefersAvoiding s' self = RefersAvoiding s self := by
  funext p q
  simp [RefersAvoiding, h.Refers_same]

theorem Materialized.Influences_same {s s' : Sheet} (h : Materialized s s') :
    Influences s' = Influences s := by
  funext p q
  simp [Influences, h.infl_same]

theorem refs_of_GetCell {s : Sheet} {p : Position} {c : Cell}
    (h : Sheet.GetCell s p = some c) : Sheet.refs s p = c.GetReferencedCells := by
  simp [Sheet.refs, h]

theorem refs_of_none {s : Sheet} {p : Position}
    (h : Sheet.GetCell s p = none) : Sheet.refs s p = [] := by
  simp [Sheet.refs, h]

theorem infl_of_GetCell {s : Sheet} {p : Position} {c : Cell}
    (h : Sheet.GetCell s p = some c) : Sheet.infl s p = c.influence_ := by
  simp [Sheet.infl, h]

theorem RefersAvoiding.toRefers {s : Sheet} {self p q : Position}
    (h : Relation.ReflTransGen (RefersAvoiding s self) p q) :
    Relation.ReflTransGen (Refers s) p q :=
  Relation.ReflTransGen.mono (fun _ _ hab => hab.2) h

/-- What the cycle check does to the sheet, however it ends: it only creates empty
cells, at positions it reached from the stack. -/
theorem checkLoop_state (self : Position) :
    ∀ (n : Nat) (s : Sheet) (stack : List Position) (v : List (List Nat)) (r : Outcome Unit),
      Cell.checkLoop self n s stack v = some r →
      ∀ s', r.state = some s' →
        Materialized s s' ∧
        ∀ p, Sheet.GetCell s p = none → Sheet.GetCell s' p ≠ none →
          ∃ q ∈ stack, Relation.ReflTransGen (RefersAvoiding s self) q p := by
  intro n
  induction n with
  | zero =>
    intro s stack v r h s' hs'
    cases stack with
    | nil =>
      simp only [Cell.checkLoop, Option.some.injEq] at h
      subst h
      simp only [Outcome.state, Option.some.injEq] at hs'
      subst hs'
      exact ⟨Materialized.self _, fun p h1 h2 => absurd h1 h2⟩
    | cons x xs => simp [Cell.checkLoop] at h
  | succ n ih =>
    intro s stack v r h s' hs'
    cases stack with
    | nil =>
      simp only [Cell.checkLoop, Option.some.injEq] at h
      subst h
      simp only [Outcome.state, Option.some.injEq] at hs'
      subst hs'
      exact ⟨Materialized.self _, fun p h1 h2 => absurd h1 h2⟩
    | cons cur rest =>
      unfold Cell.checkLoop at h
      cases hv : visitedAt v cur with
      | none =>
        simp only [hv, Option.some.injEq] at h
        subst h
        simp [Outcome.state] at hs'
      | some x =>
        simp only [hv] at h
        by_cases hx : x = 1
        · simp only [hx, if_true] at h
          obtain ⟨hm, hp⟩ := ih s rest v r h s' hs'
          refine ⟨hm, fun p h1 h2 => ?_⟩
          obtain ⟨q, hq, hreach⟩ := hp p h1 h2
          exact ⟨q, List.mem_cons_of_mem _ hq, hreach⟩
        · simp only [hx, if_false] at h
          cases hc : Sheet.GetCell s cur with
          | some c =>
            simp only [hc] at h
            by_cases hself : cur = self
            · simp only [hself, if_true, Option.some.injEq] at h
              subst h
              simp only [Outcome.state, Option.some.injEq] at hs'
              subst hs'
              exact ⟨Materialized.self _, fun p h1 h2 => absurd h1 h2⟩
            · simp only [hself, if_false] at h
              obtain ⟨hm, hp⟩ := ih s _ _ r h s' hs'
              refine ⟨hm, fun p h1 h2 => ?_⟩
              obtain ⟨q, hq, hreach⟩ := hp p h1 h2
              rcases mem_AddToStack.mp hq with hq | hq
              · refine ⟨cur, List.mem_cons_self _ _, ?_⟩
                refine Relation.ReflTransGen.head ⟨hself, ?_⟩ hreach
                simpa [Refers, refs_of_GetCell hc] using hq
              · exact ⟨q, List.mem_cons_of_mem _ hq, hreach⟩
          | none =>
            simp only [hc, Cell.CreateEmptyCell, GetCell_SetCellEmpty_self hc] at h
            have hmat := Materialized_SetCellEmpty s cur
            obtain ⟨hm, hp⟩ := ih _ _ _ r h s' hs'
            refine ⟨hmat.chain hm, fun p h1 h2 => ?_⟩
            by_cases hpc : p = cur
            · subst hpc
              exact ⟨p, List.mem_cons_self _ _, Relation.ReflTransGen.refl⟩
            · have h1' : Sheet.GetCell (Sheet.SetCellEmpty s cur) p = none := by
                rw [GetCell_SetCellEmpty, h1]
                simp [Ne.symm hpc]
              obtain ⟨q, hq, hreach⟩ := hp p h1' h2
              rw [hmat.RefersAvoiding_same] at hreach
              have hq' : q ∈ rest := by
                simpa [mem_AddToStack, Cell.new, Cell.GetReferencedCells,
                  Impl.GetReferencedCells] using hq
              exact ⟨q, List.mem_cons_of_mem _ hq', hreach⟩

/-- A normal end of the cycle check: the positions marked at the end contain the
stack and, apart from those marked at the start, exclude `self` and are closed under
forward references. -/
theorem checkLoop_ok (self : Position) :
    ∀ (n : Nat) (s : Sheet) (stack : List Position) (v : List (List Nat)) (s' : Sheet),
      Sheet.GetCell s self ≠ none →
      Cell.checkLoop self n s stack v = some (.ok () s') →
      ∃ V : Position → Prop,
        (∀ p, marked v p → V p) ∧ (∀ p ∈ stack, V p) ∧
        (∀ p, V p → ¬ marked v p → p ≠ self ∧ ∀ q ∈ Sheet.refs s p, V q) := by
  intro n
  induction n with
  | zero =>
    intro s stack v s' _ h
    cases stack with
    | nil => exact ⟨marked v, fun _ hp => hp, by simp, fun p hp hn => absurd hp hn⟩
    | cons x xs => simp [Cell.checkLoop] at h
  | succ n ih =>
    intro s stack v s' hself h
    cases stack with
    | nil => exact ⟨marked v, fun _ hp => hp, by simp, fun p hp hn => absurd hp hn⟩
    | cons cur rest =>
      unfold Cell.checkLoop at h
      cases hv : visitedAt v cur with
      | none => simp [hv] at h
      | some x =>
        simp only [hv] at h
        by_cases hx : x = 1
        · simp only [hx, if_true] at h
          obtain ⟨V, hV1, hV2, hV3⟩ := ih s rest v s' hself h
          refine ⟨V, hV1, ?_, hV3⟩
          intro p hp
          rcases List.mem_cons.mp hp with rfl | hp
          · exact hV1 _ (by rw [marked, hv, hx])
          · exact hV2 p hp
        · simp only [hx, if_false] at h
          have hcurV : marked (visitedSet v cur) cur := visitedAt_visitedSet_self hv
          have hnew : ∀ p, marked (visitedSet v cur) p → ¬ marked v p → p = cur := by
            intro p hp hnp
            by_contra hne
            rw [marked, visitedAt_visitedSet_ne hne] at hp
            exact hnp hp
          cases hc : Sheet.GetCell s cur with
          | some c =>
            simp only [hc] at h
            by_cases hcs : cur = self
            · simp [hcs] at h
            · simp only [hcs, if_false] at h
              obtain ⟨V, hV1, hV2, hV3⟩ := ih s _ _ s' hself h
              refine ⟨V, fun p hp => hV1 p (marked_visitedSet hp), ?_, ?_⟩
              · intro p hp
                rcases List.mem_cons.mp hp with rfl | hp
                · exact hV1 _ hcurV
                · exact hV2 p (mem_AddToStack.mpr (Or.inr hp))
              · intro p hp hnp
                by_cases hm : marked (visitedSet v cur) p
                · have := hnew p hm hnp
                  subst this
                  refine ⟨hcs, fun q hq => ?_⟩
                  rw [refs_of_GetCell hc] at hq
                  exact hV2 q (mem_AddToStack.mpr (Or.inl hq))
                · exact hV3 p hp hm
          | none =>
            simp only [hc, Cell.CreateEmptyCell, GetCell_SetCellEmpty_self hc] at h
            have hmat := Materialized_SetCellEmpty s cur
            have hself' : Sheet.GetCell (Sheet.SetCellEmpty s cur) self ≠ none := by
              cases hs : Sheet.GetCell s self with
              | none => exact absurd hs hself
              | some c => rw [hmat.1 self c hs]; simp
            obtain ⟨V, hV1, hV2, hV3⟩ := ih _ _ _ s' hself' h
            refine ⟨V, fun p hp => hV1 p (marked_visitedSet hp), ?_, ?_⟩
            · intro p hp
              rcases List.mem_cons.mp hp with rfl | hp
              · exact hV1 _ hcurV
              · exact hV2 p (mem_AddToStack.mpr (Or.inr hp))
            · intro p hp hnp
              by_cases hm : marked (visitedSet v cur) p
              · have := hnew p hm hnp
                subst this
                refine ⟨?_, fun q hq => ?_⟩
                · rintro rfl
                  exact hself hc
                · rw [refs_of_none hc] at hq
                  simp at hq
              · have := hV3 p hp hm
                rw [hmat.refs_same] at this
                exact this

/-- A circular-dependency exception is thrown only when `self` is popped, and every
popped position was reached from the stack. -/
theorem checkLoop_circular (self : Position) :
    ∀ (n : Nat) (s : Sheet) (stack : List Position) (v : List (List Nat)) (s' : Sheet),
      Cell.checkLoop self n s stack v = some (.circularDependency s') →
      ∃ q ∈ stack, Relation.ReflTransGen (RefersAvoiding s self) q self := by
  intro n
  induction n with
  | zero =>
    intro s stack v s' h
    cases stack with
    | nil => simp [Cell.checkLoop] at h
    | cons x xs => simp [Cell.checkLoop] at h
  | succ n ih =>
    intro s stack v s' h
    cases stack with
    | nil => simp [Cell.checkLoop] at h
    | cons cur rest =>
      unfold Cell.checkLoop at h
      cases hv : visitedAt v cur with
      | none => simp [hv] at h
      | some x =>
        simp only [hv] at h
        by_cases hx : x = 1
        · simp only [hx, if_true] at h
          obtain ⟨q, hq, hreach⟩ := ih s rest v s' h
          exact ⟨q, List.mem_cons_of_mem _ hq, hreach⟩
        · simp only [hx, if_false] at h
          cases hc : Sheet.GetCell s cur with
          | some c =>
            simp only [hc] at h
            by_cases hcs : cur = self
            · exact ⟨cur, List.mem_cons_self _ _, by rw [hcs]⟩
            · simp only [hcs, if_false] at h
              obtain ⟨q, hq, hreach⟩ := ih s _ _ s' h
              rcases mem_AddToStack.mp hq with hq | hq
              · refine ⟨cur, List.mem_cons_self _ _, ?_⟩
                refine Relation.ReflTransGen.head ⟨hcs, ?_⟩ hreach
                simpa [Refers, refs_of_GetCell hc] using hq
              · exact ⟨q, List.mem_cons_of_mem _ hq, hreach⟩
          | none =>
            simp only [hc, Cell.CreateEmptyCell, GetCell_SetCellEmpty_self hc] at h
            have hmat := Materialized_SetCellEmpty s cur
            obtain ⟨q, hq, hreach⟩ := ih _ _ _ s' h
            rw [hmat.RefersAvoiding_same] at hreach
            have hq' : q ∈ rest := by
              simpa [mem_AddToStack, Cell.new, Cell.GetReferencedCells,
                Impl.GetReferencedCells] using hq
            exact ⟨q, List.mem_cons_of_mem _ hq', hreach⟩

theorem visitedAt_visitedSet_none {v : List (List Nat)} {cur p : Position}
    (h : visitedAt (visitedSet v cur) p = none) : visitedAt v p = none := by
  by_cases hp : p = cur
  · subst hp
    cases hv : visitedAt v p with
    | none => rfl
    | some x => rw [visitedAt_visitedSet_self hv] at h; simp at h
  · rwa [visitedAt_visitedSet_ne hp] at h

/-- The cycle check is undefined only when it pops a position without a slot in the
visited matrix, and every popped position was reached from the stack. -/
theorem checkLoop_undefined (self : Position) :
    ∀ (n : Nat) (s : Sheet) (stack : List Position) (v : List (List Nat)),
      Cell.checkLoop self n s stack v = some .undefined →
      ∃ q ∈ stack, ∃ p, Relation.ReflTransGen (RefersAvoiding s self) q p ∧
        visitedAt v p = none := by
  intro n
  induction n with
  | zero =>
    intro s stack v h
    cases stack with
    | nil => simp [Cell.checkLoop] at h
    | cons x xs => simp [Cell.checkLoop] at h
  | succ n ih =>
    intro s stack v h
    cases stack with
    | nil => simp [Cell.checkLoop] at h
    | cons cur rest =>
      unfold Cell.checkLoop at h
      cases hv : visitedAt v cur with
      | none => exact ⟨cur, List.mem_cons_self _ _, cur, Relation.ReflTransGen.refl, hv⟩
      | some x =>
        simp only [hv] at h
        by_cases hx : x = 1
        · simp only [hx, if_true] at h
          obtain ⟨q, hq, p, hreach, hp⟩ := ih s rest v h
          exact ⟨q, List.mem_cons_of_mem _ hq, p, hreach, hp⟩
        · simp only [hx, if_false] at h
          cases hc : Sheet.GetCell s cur with
          | some c =>
            simp only [hc] at h
            by_cases hcs : cur = self
            · simp [hcs] at h
            · simp only [hcs, if_false] at h
              obtain ⟨q, hq, p, hreach, hp⟩ := ih s _ _ h
              have hp' := visitedAt_visitedSet_none hp
              rcases mem_AddToStack.mp hq with hq | hq
              · refine ⟨cur, List.mem_cons_self _ _, p, ?_, hp'⟩
                refine Relation.ReflTransGen.head ⟨hcs, ?_⟩ hreach
                simpa [Refers, refs_of_GetCell hc] using hq
              · exact ⟨q, List.mem_cons_of_mem _ hq, p, hreach, hp'⟩
          | none =>
            simp only [hc, Cell.CreateEmptyCell, GetCell_SetCellEmpty_self hc] at h
            have hmat := Materialized_SetCellEmpty s cur
            obtain ⟨q, hq, p, hreach, hp⟩ := ih _ _ _ h
            rw [hmat.RefersAvoiding_same] at hreach
            have hq' : q ∈ rest := by
              simpa [mem_AddToStack, Cell.new, Cell.GetReferencedCells,
                Impl.GetReferencedCells] using hq
            exact ⟨q, List.mem_cons_of_mem _ hq', p, hreach, visitedAt_visitedSet_none hp⟩

theorem checkLoop_not_formulaException (self : Position) :
    ∀ (n : Nat) (s : Sheet) (stack : List Position) (v : List (List Nat)) (s' : Sheet),
      Cell.checkLoop self n s stack v ≠ some (.formulaException s') := by
  intro n
  induction n with
  | zero =>
    intro s stack v s' h
    cases stack with
    | nil => simp [Cell.checkLoop] at h
    | cons x xs => simp [Cell.checkLoop] at h
  | succ n ih =>
    intro s stack v s' h
    cases stack with
    | nil => simp [Cell.checkLoop] at h
    | cons cur rest =>
      unfold Cell.checkLoop at h
      cases hv : visitedAt v cur with
      | none => simp [hv] at h
      | some x =>
        simp only [hv] at h
        by_cases hx : x = 1
        · simp only [hx, if_true] at h
          exact ih _ _ _ _ h
        · simp only [hx, if_false] at h
          cases hc : Sheet.GetCell s cur with
          | some c =>
            simp only [hc] at h
            by_cases hcs : cur = self
            · simp [hcs] at h
            · simp only [hcs, if_false] at h
              exact ih _ _ _ _ h
          | none =>
            simp only [hc, Cell.CreateEmptyCell, GetCell_SetCellEmpty_self hc] at h
            exact ih _ _ _ _ h

/-- Entries of the fresh visited matrix: zero inside the printable size, absent
outside. -/
theorem visitedAt_CreateVisitedCells (s : Sheet) (p : Position) :
    visitedAt (Cell.CreateVisitedCells s) p
      = if p.row < (Sheet.GetPrintableSize s).rows ∧ p.col < (Sheet.GetPrintableSize s).cols
        then some 0 else none := by
  unfold visitedAt Cell.CreateVisitedCells
  simp only [List.getElem?_replicate]
  by_cases hr : p.row < (Sheet.GetPrintableSize s).rows
  · by_cases hc : p.col < (Sheet.GetPrintableSize s).cols
    · simp [hr, hc, List.getElem?_replicate]
    · simp [hr, hc, List.getElem?_replicate]
  · simp [hr]

theorem not_marked_CreateVisitedCells (s : Sheet) (p : Position) :
    ¬ marked (Cell.CreateVisitedCells s) p := by
  rw [marked, visitedAt_CreateVisitedCells]
  split <;> simp

theorem visitedAt_CreateVisitedCells_none {s : Sheet} {p : Position}
    (h : visitedAt (Cell.CreateVisitedCells s) p = none) : ¬ inBounds s p := by
  rw [visitedAt_CreateVisitedCells] at h
  intro hb
  simp [inBounds] at hb
  simp [hb] at h

theorem inBounds_of_GetCell {s : Sheet} {p : Position} {c : Cell}
    (h : Sheet.GetCell s p = some c) : inBounds s p := by
  induction s with
  | nil => simp [Sheet.GetCell] at h
  | cons e rest ih =>
    obtain ⟨k, c0⟩ := e
    by_cases hk : k = p
    · subst hk
      simp [inBounds, Sheet.GetPrintableSize]
    · simp only [Sheet.GetCell, hk, if_false] at h
      have := ih h
      simp only [inBounds, Sheet.GetPrintableSize] at this ⊢
      omega

theorem CheckForCircularDependencies_state {s : Sheet} {self : Position}
    {refs : List Position} {s' : Sheet}
    (h : (Cell.CheckForCircularDependencies s self refs).state = some s') :
    Materialized s s' ∧
      ∀ p, Sheet.GetCell s p = none → Sheet.GetCell s' p ≠ none →
        ∃ q ∈ refs, Relation.ReflTransGen (RefersAvoiding s self) q p := by
  obtain ⟨r, hr, heq⟩ := CheckForCircularDependencies_eq s self refs
  rw [heq] at h
  obtain ⟨hm, hp⟩ := checkLoop_state self _ _ _ _ r hr s' h
  refine ⟨hm, fun p h1 h2 => ?_⟩
  obtain ⟨q, hq, hreach⟩ := hp p h1 h2
  exact ⟨q, mem_CreateStack.mp hq, hreach⟩

theorem CheckForCircularDependencies_ok {s : Sheet} {self : Position}
    {refs : List Position} {s' : Sheet}
    (hself : Sheet.GetCell s self ≠ none)
    (h : Cell.CheckForCircularDependencies s self refs = .ok () s') :
    ∀ q ∈ refs, ¬ Relation.ReflTransGen (Refers s) q self := by
  obtain ⟨r, hr, heq⟩ := CheckForCircularDependencies_eq s self refs
  rw [heq] at h
  subst h
  obtain ⟨V, _, hV2, hV3⟩ := checkLoop_ok self _ _ _ _ s' hself hr
  have hclosed : ∀ p, V p → p ≠ self ∧ ∀ q ∈ Sheet.refs s p, V q :=
    fun p hp => hV3 p hp (not_marked_CreateVisitedCells s p)
  intro q hq hreach
  have hVq : V q := hV2 q (mem_CreateStack.mpr hq)
  have key : ∀ y, Relation.ReflTransGen (Refers s) q y → V y := by
    intro y hy
    induction hy with
    | refl => exact hVq
    | tail _ hbc ih => exact (hclosed _ ih).2 _ hbc
  exact (hclosed self (key self hreach)).1 rfl

theorem CheckForCircularDependencies_circular {s : Sheet} {self : Position}
    {refs : List Position} {s' : Sheet}
    (h : Cell.CheckForCircularDependencies s self refs = .circularDependency s') :
    ∃ q ∈ refs, Relation.ReflTransGen (RefersAvoiding s self) q self := by
  obtain ⟨r, hr, heq⟩ := CheckForCircularDependencies_eq s self refs
  rw [heq] at h
  subst h
  obtain ⟨q, hq, hreach⟩ := checkLoop_circular self _ _ _ _ s' hr
  exact ⟨q, mem_CreateStack.mp hq, hreach⟩

theorem CheckForCircularDependencies_undefined {s : Sheet} {self : Position}
    {refs : List Position}
    (h : Cell.CheckForCircularDependencies s self refs = .undefined) :
    ∃ q ∈ refs, ∃ p, Relation.ReflTransGen (RefersAvoiding s self) q p ∧ ¬ inBounds s p := by
  obtain ⟨r, hr, heq⟩ := CheckForCircularDependencies_eq s self refs
  rw [heq] at h
  subst h
  obtain ⟨q, hq, p, hreach, hp⟩ := checkLoop_undefined self _ _ _ _ hr
  exact ⟨q, mem_CreateStack.mp hq, p, hreach, visitedAt_CreateVisitedCells_none hp⟩

theorem CheckForCircularDependencies_not_formulaException (s : Sheet) (self : Position)
    (refs : List Position) (s' : Sheet) :
    Cell.CheckForCircularDependencies s self refs ≠ .formulaException s' := by
  obtain ⟨r, hr, heq⟩ := CheckForCircularDependencies_eq s self refs
  rw [heq]
  rintro rfl
  exact checkLoop_not_formulaException self _ _ _ _ s' hr

/-- Completeness of the cycle check: when every position it can reach has a slot in
the visited matrix and `self` is reachable from the candidate references, it throws. -/
theorem CheckForCircularDependencies_throws {s : Sheet} {self : Position}
    {refs : List Position}
    (hself : Sheet.GetCell s self ≠ none)
    (hb : ∀ q ∈ refs, ∀ p, Relation.ReflTransGen (RefersAvoiding s self) q p → inBounds s p)
    (hreach : ∃ q ∈ refs, Relation.ReflTransGen (Refers s) q self) :
    ∃ s', Cell.CheckForCircularDependencies s self refs = .circularDependency s' := by
  cases hr : Cell.CheckForCircularDependencies s self refs with
  | ok x s' =>
    obtain ⟨q, hq, hqr⟩ := hreach
    exact absurd hqr (CheckForCircularDependencies_ok hself hr q hq)
  | formulaException s' =>
    exact absurd hr (CheckForCircularDependencies_not_formulaException s self refs s')
  | circularDependency s' => exact ⟨s', rfl⟩
  | undefined =>
    obtain ⟨q, hq, p, hqp, hnb⟩ := CheckForCircularDependencies_undefined hr
    exact absurd (hb q hq p hqp) hnb

/-! ## Unlinking and relinking the reverse edges -/

theorem mem_eraseCell {self q : Position} {l : List Position} :
    q ∈ eraseCell self l ↔ q ∈ l ∧ q ≠ self := by
  simp [eraseCell]

theorem mem_insertCell {self q : Position} {l : List Position} :
    q ∈ insertCell self l ↔ q = self ∨ q ∈ l := by
  unfold insertCell
  by_cases h : self ∈ l
  · simp only [h, if_true]
    constructor
    · intro hq; exact Or.inr hq
    · rintro (rfl | hq)
      · exact h
      · exact hq
  · simp [h]

theorem eraseCell_eraseCell (self : Position) (l : List Position) :
    eraseCell self (eraseCell self l) = eraseCell self l := by
  simp [eraseCell, List.filter_filter]

theorem insertCell_insertCell (self : Position) (l : List Position) :
    insertCell self (insertCell self l) = insertCell self l := by
  have h : self ∈ insertCell self l := mem_insertCell.mpr (Or.inl rfl)
  generalize insertCell self l = m at h ⊢
  simp [insertCell, h]

theorem GetCell_clearInfluenceOver (self : Position) (refs : List Position) :
    ∀ (s : Sheet) (p : Position),
      Sheet.GetCell (Cell.clearInfluenceOver self s refs) p
        = (Sheet.GetCell s p).map (fun c =>
            if p ∈ refs then { c with influence_ := eraseCell self c.influence_ } else c) := by
  induction refs with
  | nil =>
    intro s p
    simp [Cell.clearInfluenceOver]
  | cons r rs ih =>
    intro s p
    have hstep : Cell.clearInfluenceOver self s (r :: rs)
        = Cell.clearInfluenceOver self
            (Sheet.modify (fun c => { c with influence_ := eraseCell self c.influence_ }) s r)
            rs := rfl
    rw [hstep, ih, GetCell_modify]
    cases hc : Sheet.GetCell s p with
    | none => simp
    | some c =>
      by_cases hr : r = p
      · subst hr
        by_cases hrs : r ∈ rs
        · simp [hrs, eraseCell_eraseCell]
        · simp [hrs]
      · have hr' : ¬ p = r := fun h => hr h.symm
        simp [hr, hr']

theorem GetCell_rebuildStep (self : Position) (s : Sheet) (r p : Position) :
    Sheet.GetCell (Cell.rebuildStep self s r) p
      = match Sheet.GetCell s p with
        | some c =>
          some (if r = p then { c with influence_ := insertCell self c.influence_ } else c)
        | none =>
          if r = p then some { Cell.new with influence_ := [self] } else none := by
  unfold Cell.rebuildStep
  cases hr : Sheet.GetCell s r with
  | none =>
    simp only [GetCell_modify, GetCell_SetCellEmpty]
    by_cases hrp : r = p
    · subst hrp
      simp [hr, Cell.new, insertCell]
    · cases hp : Sheet.GetCell s p <;> simp [hrp]
  | some c =>
    simp only [GetCell_modify]
    by_cases hrp : r = p
    · subst hrp
      simp [hr]
    · cases hp : Sheet.GetCell s p <;> simp [hrp]

theorem GetCell_rebuild (self : Position) (refs : List Position) :
    ∀ (s : Sheet) (p : Position),
      Sheet.GetCell (refs.foldl (Cell.rebuildStep self) s) p
        = match Sheet.GetCell s p with
          | some c =>
            some (if p ∈ refs then { c with influence_ := insertCell self c.influence_ } else c)
          | none =>
            if p ∈ refs then some { Cell.new with influence_ := [self] } else none := by
  induction refs with
  | nil =>
    intro s p
    cases hp : Sheet.GetCell s p <;> simp [hp]
  | cons r rs ih =>
    intro s p
    rw [List.foldl_cons, ih, GetCell_rebuildStep]
    cases hp : Sheet.GetCell s p with
    | none =>
      by_cases hrp : r = p
      · subst hrp
        by_cases hrs : r ∈ rs
        · simp [hrs, Cell.new, insertCell]
        · simp [hrs]
      · have hr' : ¬ p = r := fun h => hrp h.symm
        simp [hrp, hr']
    | some c =>
      by_cases hrp : r = p
      · subst hrp
        by_cases hrs : r ∈ rs
        · simp [hrs, insertCell_insertCell]
        · simp [hrs]
      · have hr' : ¬ p = r := fun h => hrp h.symm
        simp [hrp, hr']

/-! ## Cache invalidation -/

theorem infl_modify (f : Cell → Cell) (hf : ∀ c, (f c).influence_ = c.influence_)
    (s : Sheet) (pos p : Position) :
    Sheet.infl (Sheet.modify f s pos) p = Sheet.infl s p := by
  unfold Sheet.infl
  rw [GetCell_modify]
  by_cases h : pos = p
  · cases hc : Sheet.GetCell s p <;> simp [h, hf]
  · simp [h]

theorem refs_modify (f : Cell → Cell) (hf : ∀ c, (f c).impl_ = c.impl_)
    (s : Sheet) (pos p : Position) :
    Sheet.refs (Sheet.modify f s pos) p = Sheet.refs s p := by
  unfold Sheet.refs
  rw [GetCell_modify]
  by_cases h : pos = p
  · cases hc : Sheet.GetCell s p <;> simp [h, hf, Cell.GetReferencedCells]
  · simp [h]

theorem Influences_ClearCache (s : Sheet) (pos : Position) :
    Influences (Cell.ClearCache s pos) = Influences s := by
  funext p q
  simp [Influences, Cell.ClearCache, infl_modify (fun c => { c with cache_ := none })
    (fun _ => rfl)]

/-- A normal end of the loop of `ClearCaches`: the cells visited at the end contain the
stack; those newly visited exist, were reached from the stack, have all their
dependents visited, and are exactly the cells whose cache was reset. -/
theorem clearLoop_ok :
    ∀ (n : Nat) (s : Sheet) (stack v : List Position) (s' : Sheet),
      Cell.clearLoop n s stack v = some (.ok () s') →
      ∃ V : List Position,
        (∀ p ∈ v, p ∈ V) ∧ (∀ p ∈ stack, p ∈ V) ∧
        (∀ p ∈ V, p ∉ v →
          Sheet.GetCell s p ≠ none ∧ (∀ q ∈ Sheet.infl s p, q ∈ V) ∧
          ∃ q ∈ stack, Relation.ReflTransGen (Influences s) q p) ∧
        ∀ p, Sheet.GetCell s' p
          = (Sheet.GetCell s p).map (fun c =>
              if p ∈ V ∧ p ∉ v then { c with cache_ := none } else c) := by
  intro n
  induction n with
  | zero =>
    intro s stack v s' h
    cases stack with
    | nil =>
      simp only [Cell.clearLoop, Option.some.injEq, Outcome.ok.injEq, true_and] at h
      subst h
      refine ⟨v, fun _ hp => hp, by simp, fun p hp hn => absurd hp hn, fun p => ?_⟩
      cases Sheet.GetCell s p <;> simp
    | cons x xs => simp [Cell.clearLoop] at h
  | succ n ih =>
    intro s stack v s' h
    cases stack with
    | nil =>
      simp only [Cell.clearLoop, Option.some.injEq, Outcome.ok.injEq, true_and] at h
      subst h
      refine ⟨v, fun _ hp => hp, by simp, fun p hp hn => absurd hp hn, fun p => ?_⟩
      cases Sheet.GetCell s p <;> simp
    | cons cur rest =>
      unfold Cell.clearLoop at h
      by_cases hv : cur ∈ v
      · simp only [hv, if_true] at h
        obtain ⟨V, hV1, hV2, hV3, hV4⟩ := ih s rest v s' h
        refine ⟨V, hV1, ?_, ?_, hV4⟩
        · intro p hp
          rcases List.mem_cons.mp hp with rfl | hp
          · exact hV1 _ hv
          · exact hV2 p hp
        · intro p hp hnp
          obtain ⟨h1, h2, q, hq, hreach⟩ := hV3 p hp hnp
          exact ⟨h1, h2, q, List.mem_cons_of_mem _ hq, hreach⟩
      · simp only [hv, if_false] at h
        cases hc : Sheet.GetCell s cur with
        | none => simp [hc] at h
        | some c =>
          simp only [hc] at h
          obtain ⟨V, hV1, hV2, hV3, hV4⟩ := ih _ _ _ s' h
          have hcurV : cur ∈ V := hV1 cur (List.mem_cons_self _ _)
          refine ⟨V, fun p hp => hV1 p (List.mem_cons_of_mem _ hp), ?_, ?_, ?_⟩
          · intro p hp
            rcases List.mem_cons.mp hp with rfl | hp
            · exact hcurV
            · exact hV2 p (mem_AddToStack.mpr (Or.inr hp))
          · intro p hp hnp
            by_cases hpc : p = cur
            · subst hpc
              refine ⟨by simp [hc], fun q hq => ?_,
                p, List.mem_cons_self _ _, Relation.ReflTransGen.refl⟩
              rw [infl_of_GetCell hc] at hq
              exact hV2 q (mem_AddToStack.mpr (Or.inl hq))
            · have hnp' : p ∉ cur :: v := by simp [hpc, hnp]
              obtain ⟨h1, h2, q, hq, hreach⟩ := hV3 p hp hnp'
              rw [Influences_ClearCache] at hreach
              refine ⟨?_, ?_, ?_⟩
              · rwa [Cell.ClearCache, GetCell_modify_ne _ _ (Ne.symm hpc)] at h1
              · intro q hq
                apply h2
                rwa [Cell.ClearCache, infl_modify (fun c => { c with cache_ := none })
                  (fun _ => rfl)]
              · rcases mem_AddToStack.mp hq with hq | hq
                · refine ⟨cur, List.mem_cons_self _ _, ?_⟩
                  refine Relation.ReflTransGen.head ?_ hreach
                  simpa [Influences, infl_of_GetCell hc] using hq
                · exact ⟨q, List.mem_cons_of_mem _ hq, hreach⟩
          · intro p
            rw [hV4 p, Cell.ClearCache, GetCell_modify]
            by_cases hpc : cur = p
            · subst hpc
              simp [hc, hcurV, hv]
            · have hpc' : ¬ p = cur := fun h => hpc h.symm
              simp [hpc, hpc']

/-- `ClearCaches`, when it returns, resets exactly the caches of the cell and of the
cells reachable from it through `influence_` sets. -/
theorem ClearCaches_ok {s : Sheet} {self : Position} {s' : Sheet}
    (h : Cell.ClearCaches s self = .ok () s') :
    ∃ W : List Position,
      (∀ p, p ∈ W ↔ Relation.ReflTransGen (Influences s) self p) ∧
      ∀ p, Sheet.GetCell s' p
        = (Sheet.GetCell s p).map (fun c => if p ∈ W then { c with cache_ := none } else c) := by
  unfold Cell.ClearCaches at h
  cases hc : Sheet.GetCell s self with
  | none => simp [hc] at h
  | some this =>
    simp only [hc] at h
    cases hl : Cell.clearLoop ((Cell.CreateStack this.influence_).length + Sheet.influenceTotal s)
        s (Cell.CreateStack this.influence_) [] with
    | none => simp [hl] at h
    | some r =>
      cases r with
      | formulaException _ => simp [hl] at h
      | circularDependency _ => simp [hl] at h
      | undefined => simp [hl] at h
      | ok u s1 =>
        simp only [hl, Outcome.ok.injEq, true_and] at h
        subst h
        obtain ⟨V, _, hV2, hV3, hV4⟩ := clearLoop_ok _ _ _ _ s1 hl
        have hclosed : ∀ p ∈ V, ∀ q ∈ Sheet.infl s p, q ∈ V :=
          fun p hp => (hV3 p hp (by simp)).2.1
        have hreachV : ∀ q ∈ V, ∀ p, Relation.ReflTransGen (Influences s) q p → p ∈ V := by
          intro q hq p hqp
          induction hqp with
          | refl => exact hq
          | tail _ hbc ih => exact hclosed _ ih _ hbc
        refine ⟨self :: V, fun p => ?_, fun p => ?_⟩
        · constructor
          · intro hp
            rcases List.mem_cons.mp hp with rfl | hp
            · exact Relation.ReflTransGen.refl
            · obtain ⟨_, _, q, hq, hreach⟩ := hV3 p hp (by simp)
              refine Relation.ReflTransGen.head ?_ hreach
              simpa [Influences, infl_of_GetCell hc] using mem_CreateStack.mp hq
          · intro hp
            rcases Relation.ReflTransGen.cases_head hp with rfl | ⟨q, hq, hqp⟩
            · exact List.mem_cons_self _ _
            · refine List.mem_cons_of_mem _ (hreachV q (hV2 q ?_) p hqp)
              apply mem_CreateStack.mpr
              simpa [Influences, infl_of_GetCell hc] using hq
        · rw [Cell.ClearCache, GetCell_modify, hV4]
          by_cases hps : self = p
          · subst hps
            cases hcs : Sheet.GetCell s self with
            | none => simp
            | some c => by_cases hV : self ∈ V <;> simp [hV]
          · have hps' : ¬ p = self := fun h => hps h.symm
            simp [hps, hps']

/-! ## The steps of `Set` -/

theorem CreateFormulaImpl_ok {parse : String → Option FormulaAST} {s : Sheet}
    {self : Position} {text : String} {fi : Option Impl} {s1 : Sheet}
    (h : Cell.CreateFormulaImpl parse s self text = .ok fi s1) :
    (isFormulaText text = false ∧ fi = none ∧ s1 = s) ∨
    (isFormulaText text = true ∧ ∃ f, ParseFormula parse (substr text 1) = some f ∧
      fi = some (.FormulaImpl f) ∧
      Cell.CheckForCircularDependencies s self f.GetReferencedCells = .ok () s1) := by
  unfold Cell.CreateFormulaImpl at h
  by_cases hf : isFormulaText text = true
  · simp only [hf, if_true] at h
    cases hp : ParseFormula parse (substr text 1) with
    | none => simp [hp] at h
    | some f =>
      simp only [hp] at h
      right
      refine ⟨hf, f, rfl, ?_⟩
      cases hchk : Cell.CheckForCircularDependencies s self
          (Impl.FormulaImpl f).GetReferencedCells with
      | ok u s2 =>
        simp only [hchk, Outcome.ok.injEq] at h
        obtain ⟨h1, h2⟩ := h
        subst h1 h2
        exact ⟨rfl, hchk⟩
      | formulaException _ => simp [hchk] at h
      | circularDependency _ => simp [hchk] at h
      | undefined => simp [hchk] at h
  · simp only [hf] at h
    simp only [Bool.false_eq_true, if_false, Outcome.ok.injEq] at h
    left
    exact ⟨by simpa using hf, h.1.symm, h.2.symm⟩

theorem Set_ok_steps {parse : String → Option FormulaAST} {s : Sheet} {self : Position}
    {text : String} {this : Cell} {s' : Sheet}
    (hc : Sheet.GetCell s self = some this) (hne : text ≠ this.impl_.GetText)
    (h : Cell.Set parse s self text = .ok () s') :
    ∃ fi s1 s3 s4, Cell.CreateFormulaImpl parse s self text = .ok fi s1 ∧
      Cell.SetImpl (Cell.ClearInfluence s1 self) self text fi = some s3 ∧
      Cell.ClearCaches s3 self = .ok () s4 ∧ s' = Cell.RebuildGraph s4 self := by
  unfold Cell.Set at h
  simp only [hc, hne, if_false] at h
  cases hcf : Cell.CreateFormulaImpl parse s self text with
  | formulaException _ => simp [hcf] at h
  | circularDependency _ => simp [hcf] at h
  | undefined => simp [hcf] at h
  | ok fi s1 =>
    simp only [hcf] at h
    cases hsi : Cell.SetImpl (Cell.ClearInfluence s1 self) self text fi with
    | none => simp [hsi] at h
    | some s3 =>
      simp only [hsi] at h
      cases hcc : Cell.ClearCaches s3 self with
      | formulaException _ => simp [hcc] at h
      | circularDependency _ => simp [hcc] at h
      | undefined => simp [hcc] at h
      | ok u s4 =>
        simp only [hcc, Outcome.ok.injEq, true_and] at h
        exact ⟨fi, s1, s3, s4, rfl, hsi, hcc, h.symm⟩

/-- Reachability from `self` through `influence_` sets does not change when edges
into `self` are removed. -/
theorem reach_of_edges_into_self {E E3 : Position → Position → Prop} {self : Position}
    (hsub : ∀ y z, E y z → z ≠ self → E3 y z) {p : Position}
    (h : Relation.ReflTransGen E self p) : Relation.ReflTransGen E3 self p := by
  induction h with
  | refl => exact Relation.ReflTransGen.refl
  | @tail y z _ hyz ih =>
    by_cases hz : z = self
    · rw [hz]
    · exact Relation.ReflTransGen.tail ih (hsub y z hyz hz)

theorem infl_clearInfluenceOver (self : Position) (refs : List Position) (s : Sheet)
    (y : Position) :
    Sheet.infl (Cell.clearInfluenceOver self s refs) y
      = if y ∈ refs then eraseCell self (Sheet.infl s y) else Sheet.infl s y := by
  unfold Sheet.infl
  rw [GetCell_clearInfluenceOver]
  cases hc : Sheet.GetCell s y with
  | none => simp [eraseCell]
  | some c => by_cases hy : y ∈ refs <;> simp [hy]

theorem SetImpl_eq {s : Sheet} {self : Position} {text : String} {fi : Option Impl}
    {s3 : Sheet} (h : Cell.SetImpl s self text fi = some s3) :
    ∃ impl, s3 = Sheet.modify (fun c => { c with impl_ := impl }) s self ∧
      ((text = "" ∧ impl = .EmptyImpl) ∨
       (text ≠ "" ∧ isFormulaText text = true ∧ fi = some impl) ∨
       (text ≠ "" ∧ isFormulaText text = false ∧ impl = .TextImpl text)) := by
  unfold Cell.SetImpl at h
  by_cases ht : text = ""
  · simp only [ht, if_true, Option.some.injEq] at h
    exact ⟨.EmptyImpl, h.symm, Or.inl ⟨ht, rfl⟩⟩
  · simp only [ht, if_false] at h
    by_cases hf : isFormulaText text = true
    · simp only [hf, if_true] at h
      cases fi with
      | none => simp at h
      | some impl =>
        simp only [Option.some.injEq] at h
        exact ⟨impl, h.symm, Or.inr (Or.inl ⟨ht, hf, rfl⟩)⟩
    · simp only [hf] at h
      simp only [Bool.false_eq_true, if_false, Option.some.injEq] at h
      exact ⟨.TextImpl text, h.symm, Or.inr (Or.inr ⟨ht, by simpa using hf, rfl⟩)⟩

/-- The sheet after a committing `Set`, cell by cell: the content of the edited cell
is replaced, the reverse edges of its old references are removed and those of its new
references inserted, the caches of the cell and its transitive dependents are reset,
and missing referenced cells are created. -/
theorem Set_commit {parse : String → Option FormulaAST} {s : Sheet} {self : Position}
    {text : String} {this : Cell} {s' : Sheet}
    (hc : Sheet.GetCell s self = some this) (hne : text ≠ this.impl_.GetText)
    (h : Cell.Set parse s self text = .ok () s') :
    ∃ (s1 : Sheet) (impl : Impl) (W : List Position),
      Materialized s s1 ∧ NewContent parse s self text impl s1 ∧
      (∀ p, p ∈ W ↔ Relation.ReflTransGen (Influences s) self p) ∧
      ∀ p, Sheet.GetCell s' p
        = match Sheet.GetCell s1 p with
          | some c =>
            some { impl_ := if p = self then impl else c.impl_,
                   influence_ := relink self this.impl_.GetReferencedCells
                     impl.GetReferencedCells p c.influence_,
                   cache_ := if p ∈ W then none else c.cache_ }
          | none =>
            if p ∈ impl.GetReferencedCells then some { Cell.new with influence_ := [self] }
            else none := by
  obtain ⟨fi, s1, s3, s4, hcf, hsi, hcc, hs'⟩ := Set_ok_steps hc hne h
  obtain ⟨impl, hs3, himpl⟩ := SetImpl_eq hsi
  have hnew : NewContent parse s self text impl s1 ∧ Materialized s s1 := by
    rcases CreateFormulaImpl_ok hcf with ⟨hf, hfi, hs1⟩ | ⟨hf, f, hp, hfi, hchk⟩
    · subst hs1
      refine ⟨?_, Materialized.self _⟩
      rcases himpl with ⟨ht, hi⟩ | ⟨_, hf', _⟩ | ⟨ht, _, hi⟩
      · exact Or.inl ⟨ht, hi, rfl⟩
      · rw [hf] at hf'; simp at hf'
      · exact Or.inr (Or.inl ⟨ht, hf, hi, rfl⟩)
    · have hmat := (CheckForCircularDependencies_state
        (by rw [hchk]; rfl : (Cell.CheckForCircularDependencies s self
          f.GetReferencedCells).state = some s1)).1
      refine ⟨Or.inr (Or.inr ⟨hf, f, hp, ?_, hchk⟩), hmat⟩
      rcases himpl with ⟨ht, _⟩ | ⟨_, _, hi⟩ | ⟨_, hf', _⟩
      · exact absurd ht (isFormulaText_ne_empty hf)
      · rw [hfi] at hi
        exact (Option.some.inj hi).symm
      · rw [hf] at hf'; simp at hf'
  obtain ⟨hcontent, hmat⟩ := hnew
  have hc1 : Sheet.GetCell s1 self = some this := hmat.1 self this hc
  have hs2 : Cell.ClearInfluence s1 self
      = Cell.clearInfluenceOver self s1 this.impl_.GetReferencedCells := by
    simp [Cell.ClearInfluence, hc1]
  rw [hs2] at hs3
  obtain ⟨W, hW, hs4⟩ := ClearCaches_ok hcc
  have hinfl3 : ∀ y, Sheet.infl s3 y
      = if y ∈ this.impl_.GetReferencedCells then eraseCell self (Sheet.infl s y)
        else Sheet.infl s y := by
    intro y
    rw [hs3, infl_modify (fun c => { c with impl_ := impl }) (fun _ => rfl),
      infl_clearInfluenceOver, hmat.infl_same]
  have hWs : ∀ p, p ∈ W ↔ Relation.ReflTransGen (Influences s) self p := by
    intro p
    rw [hW]
    constructor
    · apply Relation.ReflTransGen.mono
      intro y z hyz
      simp only [Influences, hinfl3] at hyz
      by_cases hy : y ∈ this.impl_.GetReferencedCells
      · simp only [hy, if_true] at hyz
        exact (mem_eraseCell.mp hyz).1
      · simpa [hy] using hyz
    · apply reach_of_edges_into_self
      intro y z hyz hz
      simp only [Influences, hinfl3]
      by_cases hy : y ∈ this.impl_.GetReferencedCells
      · simp only [hy, if_true]
        exact mem_eraseCell.mpr ⟨hyz, hz⟩
      · simpa [hy] using hyz
  have hc4 : ∃ c4, Sheet.GetCell s4 self = some c4 ∧ c4.impl_ = impl := by
    rw [hs4, hs3, GetCell_modify_self, GetCell_clearInfluenceOver, hc1]
    simp only [Option.map_some']
    exact ⟨_, rfl, by split <;> rfl⟩
  obtain ⟨c4, hc4, hc4i⟩ := hc4
  have hs'' : s' = impl.GetReferencedCells.foldl (Cell.rebuildStep self) s4 := by
    rw [hs', Cell.RebuildGraph, hc4]
    simp only [hc4i]
  refine ⟨s1, impl, W, hmat, hcontent, hWs, fun p => ?_⟩
  rw [hs'', GetCell_rebuild, hs4, hs3, GetCell_modify, GetCell_clearInfluenceOver]
  cases hp : Sheet.GetCell s1 p with
  | none => by_cases hps : self = p <;> simp [hps]
  | some c =>
    by_cases hps : self = p
    · subst hps
      by_cases hW' : self ∈ W <;>
      by_cases hold : self ∈ this.impl_.GetReferencedCells <;>
      by_cases hnew : self ∈ impl.GetReferencedCells <;>
      simp [hW', hold, hnew, relink]
    · have hps' : ¬ p = self := fun h => hps h.symm
      by_cases hW' : p ∈ W <;>
      by_cases hold : p ∈ this.impl_.GetReferencedCells <;>
      by_cases hnew : p ∈ impl.GetReferencedCells <;>
      simp [hps, hps', hW', hold, hnew, relink]

/-! ## Texts -/

theorem data_formula_append (rest : String) : ("=" ++ rest).data = '=' :: rest.data := by
  show ("=".data ++ rest.data) = _
  rfl

theorem substr_formula_append (rest : String) : substr ("=" ++ rest) 1 = rest := by
  simp [substr, data_formula_append]

/-- The test of `CreateFormulaImpl` and `SetImpl` holds exactly for the texts that
start with the formula sign and are longer than the sign alone. -/
theorem isFormulaText_iff (text : String) :
    isFormulaText text = true ↔ ∃ rest, rest ≠ "" ∧ text = "=" ++ rest := by
  constructor
  · intro h
    simp only [isFormulaText, Bool.and_eq_true, decide_eq_true_eq, front, FORMULA_SIGN] at h
    obtain ⟨hlen, hfront⟩ := h
    obtain ⟨data⟩ := text
    cases data with
    | nil => simp at hfront
    | cons c tl =>
      simp only [List.headD_cons] at hfront
      subst hfront
      refine ⟨⟨tl⟩, ?_, ?_⟩
      · intro htl
        have : tl = [] := by
          have := congrArg String.data htl
          simpa using this
        subst this
        simp [String.length] at hlen
      · apply String.ext
        rw [data_formula_append]
  · rintro ⟨rest, hrest, rfl⟩
    simp only [isFormulaText, Bool.and_eq_true, decide_eq_true_eq, front, FORMULA_SIGN,
      data_formula_append, List.headD_cons, and_true, String.length]
    intro h
    have h2 : ("=" ++ rest).data.length = 1 := h
    rw [data_formula_append, List.length_cons] at h2
    apply hrest
    have : rest.data = [] := by
      apply List.eq_nil_of_length_eq_zero
      omega
    apply String.ext
    simpa using this

theorem isFormulaText_iff_front (text : String) :
    isFormulaText text = true ↔ front text = FORMULA_SIGN ∧ text ≠ "=" := by
  rw [isFormulaText_iff]
  constructor
  · rintro ⟨rest, hrest, rfl⟩
    refine ⟨by simp [front, data_formula_append, FORMULA_SIGN], fun h => hrest ?_⟩
    have := congrArg String.data h
    rw [data_formula_append] at this
    apply String.ext
    simpa using this
  · rintro ⟨hfront, hne⟩
    obtain ⟨data⟩ := text
    cases data with
    | nil => simp [front, FORMULA_SIGN] at hfront
    | cons c tl =>
      simp only [front, List.headD_cons, FORMULA_SIGN] at hfront
      subst hfront
      refine ⟨⟨tl⟩, ?_, ?_⟩
      · intro htl
        apply hne
        have : tl = [] := by
          have := congrArg String.data htl
          simpa using this
        subst this
        rfl
      · apply String.ext
        rw [data_formula_append]

/-! ## Rejected and idle calls of `Set` -/

theorem CreateFormulaImpl_state {parse : String → Option FormulaAST} {s : Sheet}
    {self : Position} {text : String} {s1 : Sheet}
    (h : (Cell.CreateFormulaImpl parse s self text).state = some s1) :
    Materialized s s1 := by
  unfold Cell.CreateFormulaImpl at h
  by_cases hf : isFormulaText text = true
  · simp only [hf, if_true] at h
    cases hp : ParseFormula parse (substr text 1) with
    | none =>
      simp only [hp, Outcome.state, Option.some.injEq] at h
      subst h
      exact Materialized.self _
    | some f =>
      simp only [hp] at h
      cases hchk : Cell.CheckForCircularDependencies s self
          (Impl.FormulaImpl f).GetReferencedCells with
      | ok u s2 =>
        simp only [hchk, Outcome.state, Option.some.injEq] at h
        subst h
        exact (CheckForCircularDependencies_state (by rw [hchk]; rfl)).1
      | formulaException s2 =>
        exact absurd hchk (CheckForCircularDependencies_not_formulaException _ _ _ _)
      | circularDependency s2 =>
        simp only [hchk, Outcome.state, Option.some.injEq] at h
        subst h
        exact (CheckForCircularDependencies_state (by rw [hchk]; rfl)).1
      | undefined => simp [hchk, Outcome.state] at h
  · simp only [hf] at h
    simp only [Bool.false_eq_true, if_false, Outcome.state, Option.some.injEq] at h
    subst h
    exact Materialized.self _

theorem Set_of_ne {parse : String → Option FormulaAST} {s : Sheet} {self : Position}
    {text : String} {this : Cell}
    (hc : Sheet.GetCell s self = some this) (hne : text ≠ this.impl_.GetText) :
    Cell.Set parse s self text
      = match Cell.CreateFormulaImpl parse s self text with
        | .formulaException s' => .formulaException s'
        | .circularDependency s' => .circularDependency s'
        | .undefined => .undefined
        | .ok formula_impl s1 =>
          match Cell.SetImpl (Cell.ClearInfluence s1 self) self text formula_impl with
          | none => .undefined
          | some s3 =>
            match Cell.ClearCaches s3 self with
            | .ok () s4 => .ok () (Cell.RebuildGraph s4 self)
            | _ => .undefined := by
  unfold Cell.Set
  simp only [hc, hne, if_false]

theorem Set_formula_unfold {parse : String → Option FormulaAST} {s : Sheet}
    {self : Position} {this : Cell} {text : String} {f : Formula}
    (hc : Sheet.GetCell s self = some this) (hne : text ≠ this.impl_.GetText)
    (hf : isFormulaText text = true)
    (hp : ParseFormula parse (substr text 1) = some f) :
    Cell.Set parse s self text
      = match Cell.CheckForCircularDependencies s self f.GetReferencedCells with
        | .circularDependency s' => .circularDependency s'
        | .formulaException s' => .formulaException s'
        | .undefined => .undefined
        | .ok () s1 =>
          match Cell.SetImpl (Cell.ClearInfluence s1 self) self text
              (some (.FormulaImpl f)) with
          | none => .undefined
          | some s3 =>
            match Cell.ClearCaches s3 self with
            | .ok () s4 => .ok () (Cell.RebuildGraph s4 self)
            | _ => .undefined := by
  rw [Set_of_ne hc hne]
  simp only [Cell.CreateFormulaImpl, hf, if_true, hp, Impl.GetReferencedCells]
  cases Cell.CheckForCircularDependencies s self f.GetReferencedCells <;> rfl

/-- The cycle check of a candidate that references only the edited cell itself throws
at its first step, without touching the sheet. -/
theorem CheckForCircularDependencies_self {s : Sheet} {self : Position} {this : Cell}
    (hc : Sheet.GetCell s self = some this) :
    Cell.CheckForCircularDependencies s self [self] = .circularDependency s := by
  have hb := inBounds_of_GetCell hc
  have hv : visitedAt (Cell.CreateVisitedCells s) self = some 0 := by
    rw [visitedAt_CreateVisitedCells]
    simp only [inBounds] at hb
    simp [hb]
  unfold Cell.CheckForCircularDependencies
  have hst : Cell.CreateStack [self] = [self] := rfl
  simp only [hst, List.length_cons, List.length_nil]
  have hfuel : 0 + 1 + Sheet.referencesTotal s = (Sheet.referencesTotal s) + 1 := by omega
  rw [hfuel]
  unfold Cell.checkLoop
  simp [hv, hc]

theorem refs_sheetAC (p : Position) : Sheet.refs sheetAC p = [] := by
  unfold Sheet.refs sheetAC
  simp only [Sheet.GetCell]
  split_ifs <;> rfl

/-! ## Acyclicity -/

/-- Replacing the out-edges of one node keeps a graph acyclic when the node cannot be
reached from any of its new successors. -/
theorem acyclic_of_update {E E' : Position → Position → Prop} {self : Position}
    (hac : ∀ p, ¬ Relation.TransGen E p p)
    (hsame : ∀ x y, x ≠ self → E' x y → E x y)
    (hnew : ∀ r, E' self r → ¬ Relation.ReflTransGen E r self) :
    ∀ p, ¬ Relation.TransGen E' p p := by
  have hA : ∀ r, E' self r → ∀ y, Relation.ReflTransGen E' r y →
      Relation.ReflTransGen E r y ∧ y ≠ self := by
    intro r hr y hy
    induction hy with
    | refl =>
      refine ⟨Relation.ReflTransGen.refl, fun h => ?_⟩
      exact hnew r hr (by rw [h])
    | @tail y z _ hyz ih =>
      have hE : Relation.ReflTransGen E r z :=
        Relation.ReflTransGen.tail ih.1 (hsame y z ih.2 hyz)
      refine ⟨hE, fun h => ?_⟩
      exact hnew r hr (by rw [← h]; exact hE)
  have hB : ∀ x y, Relation.TransGen E' x y →
      Relation.TransGen E x y ∨
        (Relation.ReflTransGen E' x self ∧ Relation.TransGen E' self y) := by
    intro x y hxy
    induction hxy with
    | @single y hxy =>
      by_cases hx : x = self
      · right
        subst hx
        exact ⟨Relation.ReflTransGen.refl, Relation.TransGen.single hxy⟩
      · left
        exact Relation.TransGen.single (hsame x y hx hxy)
    | @tail y z hxy hyz ih =>
      rcases ih with ih | ⟨ih1, ih2⟩
      · by_cases hy : y = self
        · right
          subst hy
          exact ⟨hxy.to_reflTransGen, Relation.TransGen.single hyz⟩
        · left
          exact Relation.TransGen.tail ih (hsame y z hy hyz)
      · right
        exact ⟨ih1, Relation.TransGen.tail ih2 hyz⟩
  intro p hp
  rcases hB p p hp with h | ⟨h1, h2⟩
  · exact hac p h
  · have hcyc : Relation.TransGen E' self self := Relation.TransGen.trans_left h2 h1
    obtain ⟨r, hr, hrs⟩ := Relation.TransGen.head'_iff.mp hcyc
    exact (hA r hr self hrs).2 rfl

theorem Materialized.keeps_acyclic {s s' : Sheet} (h : Materialized s s') (hac : Acyclic s) :
    Acyclic s' := by
  intro p hp
  rw [h.Refers_same] at hp
  exact hac p hp

/-- A throwing `Set` leaves a sheet that differs from the old one by fresh empty cells
only. -/
theorem Set_exception_state {parse : String → Option FormulaAST} {s : Sheet}
    {self : Position} {text : String} {s' : Sheet}
    (h : Cell.Set parse s self text = .formulaException s' ∨
      Cell.Set parse s self text = .circularDependency s') :
    Materialized s s' := by
  cases hc : Sheet.GetCell s self with
  | none =>
    have : Cell.Set parse s self text = .undefined := by simp [Cell.Set, hc]
    rw [this] at h
    simp at h
  | some this =>
    by_cases hne : text = this.impl_.GetText
    · have : Cell.Set parse s self text = .ok () s := by
        unfold Cell.Set
        simp only [hc]
        rw [if_pos hne]
      rw [this] at h
      simp at h
    · rw [Set_of_ne hc hne] at h
      cases hcf : Cell.CreateFormulaImpl parse s self text with
      | formulaException s2 =>
        simp only [hcf, Outcome.formulaException.injEq, reduceCtorEq, or_false] at h
        subst h
        exact CreateFormulaImpl_state (by rw [hcf]; rfl)
      | circularDependency s2 =>
        simp only [hcf, Outcome.circularDependency.injEq, reduceCtorEq, false_or] at h
        subst h
        exact CreateFormulaImpl_state (by rw [hcf]; rfl)
      | undefined => simp [hcf] at h
      | ok fi s1 =>
        simp only [hcf] at h
        cases hsi : Cell.SetImpl (Cell.ClearInfluence s1 self) self text fi with
        | none => simp [hsi] at h
        | some s3 =>
          simp only [hsi] at h
          cases hcc : Cell.ClearCaches s3 self <;> simp [hcc] at h

/-- The forward references after a committing `Set`: those of the new content at the
edited cell, unchanged everywhere else. -/
theorem Set_commit_refs {parse : String → Option FormulaAST} {s : Sheet} {self : Position}
    {text : String} {this : Cell} {s' : Sheet}
    (hc : Sheet.GetCell s self = some this) (hne : text ≠ this.impl_.GetText)
    (h : Cell.Set parse s self text = .ok () s') :
    ∃ (s1 : Sheet) (impl : Impl), NewContent parse s self text impl s1 ∧
      ∀ x, Sheet.refs s' x = if x = self then impl.GetReferencedCells else Sheet.refs s x := by
  obtain ⟨s1, impl, W, hmat, hnew, _, hs'⟩ := Set_commit hc hne h
  refine ⟨s1, impl, hnew, fun x => ?_⟩
  have hx := hs' x
  rw [← hmat.refs_same x]
  unfold Sheet.refs
  rw [hx]
  cases hx1 : Sheet.GetCell s1 x with
  | some c =>
    by_cases hxs : x = self <;> simp [hxs, Cell.GetReferencedCells]
  | none =>
    have hxs : x ≠ self := by
      rintro rfl
      rw [hmat.1 _ _ hc] at hx1
      simp at hx1
    by_cases hxr : x ∈ impl.GetReferencedCells
    · simp only [if_pos hxr, if_neg hxs]
      rfl
    · simp only [if_neg hxr, if_neg hxs]

theorem NewContent_unreachable {parse : String → Option FormulaAST} {s : Sheet}
    {self : Position} {text : String} {impl : Impl} {s1 : Sheet}
    (hself : Sheet.GetCell s self ≠ none)
    (h : NewContent parse s self text impl s1) :
    ∀ q ∈ impl.GetReferencedCells, ¬ Relation.ReflTransGen (Refers s) q self := by
  rcases h with ⟨_, hi, _⟩ | ⟨_, _, hi, _⟩ | ⟨_, f, _, hi, hchk⟩
  · subst hi; simp [Impl.GetReferencedCells]
  · subst hi; simp [Impl.GetReferencedCells]
  · subst hi
    exact CheckForCircularDependencies_ok hself hchk

/-- A committing `Set` keeps the forward-reference graph acyclic: the cycle check has
excluded that the edited cell is reachable from its new references. -/
theorem Set_commit_acyclic {parse : String → Option FormulaAST} {s : Sheet}
    {self : Position} {text : String} {this : Cell} {s' : Sheet}
    (hc : Sheet.GetCell s self = some this) (hne : text ≠ this.impl_.GetText)
    (h : Cell.Set parse s self text = .ok () s') (hac : Acyclic s) :
    Acyclic s' := by
  obtain ⟨s1, impl, hnew, hrefs⟩ := Set_commit_refs hc hne h
  have hunreach := NewContent_unreachable (by simp [hc]) hnew
  apply acyclic_of_update hac
  · intro x y hx hxy
    have hxr := hrefs x
    rw [if_neg hx] at hxr
    unfold Refers at hxy ⊢
    rwa [hxr] at hxy
  · intro r hr
    apply hunreach
    simpa [Refers, hrefs] using hr

theorem Acyclic_sheetAC : Acyclic sheetAC := by
  intro p hp
  obtain ⟨r, hr, _⟩ := Relation.TransGen.head'_iff.mp hp
  simp [Refers, refs_sheetAC] at hr

/-! ## Reverse edges and invalidation after a commit -/

theorem mem_relink {self : Position} {old new : List Position} {y z : Position}
    {l : List Position} :
    z ∈ relink self old new y l ↔
      (y ∈ new ∧ z = self) ∨ (z ∈ l ∧ (y ∈ old → z ≠ self)) := by
  unfold relink
  by_cases hn : y ∈ new <;> by_cases ho : y ∈ old <;>
    simp only [hn, ho, if_true, if_false, mem_insertCell, mem_eraseCell] <;> tauto

/-- The `influence_` sets after a committing `Set`. -/
theorem Set_commit_infl {parse : String → Option FormulaAST} {s : Sheet} {self : Position}
    {text : String} {this : Cell} {s' : Sheet}
    (hc : Sheet.GetCell s self = some this) (hne : text ≠ this.impl_.GetText)
    (h : Cell.Set parse s self text = .ok () s') :
    (∀ y, Sheet.infl s' y
      = relink self (Sheet.refs s self) (Sheet.refs s' self) y (Sheet.infl s y)) ∧
    (∀ y, Sheet.GetCell s y ≠ none → Sheet.GetCell s' y ≠ none) ∧
    (∀ y ∈ Sheet.refs s' self, Sheet.GetCell s' y ≠ none) := by
  obtain ⟨s1, impl, W, hmat, hnew, _, hs'⟩ := Set_commit hc hne h
  have hc1 := hmat.1 self this hc
  have hrs : Sheet.refs s' self = impl.GetReferencedCells := by
    unfold Sheet.refs
    rw [hs' self, hc1]
    simp [Cell.GetReferencedCells]
  have hro : Sheet.refs s self = this.impl_.GetReferencedCells := refs_of_GetCell hc
  refine ⟨fun y => ?_, fun y hy => ?_, fun y hy => ?_⟩
  · rw [hrs, hro, ← hmat.infl_same y]
    unfold Sheet.infl
    rw [hs' y]
    cases hy1 : Sheet.GetCell s1 y with
    | some c => rfl
    | none =>
      by_cases hyr : y ∈ impl.GetReferencedCells
      · simp [hyr, relink, insertCell, eraseCell]
      · simp [hyr, relink, eraseCell]
  · cases hy0 : Sheet.GetCell s y with
    | none => exact absurd hy0 hy
    | some c => rw [hs' y, hmat.1 y c hy0]; simp
  · rw [hrs] at hy
    rw [hs' y]
    cases hy1 : Sheet.GetCell s1 y with
    | some c => simp
    | none => simp [hy]

theorem ReverseEdgesExact_iff (s : Sheet) :
    ReverseEdgesExact s ↔
      (∀ x y, x ∈ Sheet.infl s y ↔ y ∈ Sheet.refs s x) ∧
      (∀ x, ∀ y ∈ Sheet.refs s x, Sheet.GetCell s y ≠ none) ∧
      (∀ y, ∀ x ∈ Sheet.infl s y, Sheet.GetCell s x ≠ none) := by
  constructor
  · rintro ⟨h1, h2, h3⟩
    have h2' : ∀ x, ∀ y ∈ Sheet.refs s x, Sheet.GetCell s y ≠ none := by
      intro x y hy
      cases hx : Sheet.GetCell s x with
      | none => simp [Sheet.refs, hx] at hy
      | some cx =>
        rw [refs_of_GetCell hx] at hy
        exact h2 x cx hx y hy
    have h3' : ∀ y, ∀ x ∈ Sheet.infl s y, Sheet.GetCell s x ≠ none := by
      intro y x hx
      cases hy : Sheet.GetCell s y with
      | none => simp [Sheet.infl, hy] at hx
      | some cy =>
        rw [infl_of_GetCell hy] at hx
        exact h3 y cy hy x hx
    refine ⟨fun x y => ?_, h2', h3'⟩
    constructor
    · intro hx
      have hxe := h3' y x hx
      cases hxc : Sheet.GetCell s x with
      | none => exact absurd hxc hxe
      | some cx =>
        cases hyc : Sheet.GetCell s y with
        | none => simp [Sheet.infl, hyc] at hx
        | some cy =>
          rw [infl_of_GetCell hyc] at hx
          rw [refs_of_GetCell hxc]
          exact (h1 x y cx cy hxc hyc).mp hx
    · intro hy
      have hye := h2' x y hy
      cases hxc : Sheet.GetCell s x with
      | none => simp [Sheet.refs, hxc] at hy
      | some cx =>
        cases hyc : Sheet.GetCell s y with
        | none => exact absurd hyc hye
        | some cy =>
          rw [refs_of_GetCell hxc] at hy
          rw [infl_of_GetCell hyc]
          exact (h1 x y cx cy hxc hyc).mpr hy
  · rintro ⟨h1, h2, h3⟩
    refine ⟨fun x y cx cy hx hy => ?_, fun x cx hx y hy => ?_, fun y cy hy x hx => ?_⟩
    · rw [← infl_of_GetCell hy, ← refs_of_GetCell hx]
      exact h1 x y
    · rw [← refs_of_GetCell hx] at hy
      exact h2 x y hy
    · rw [← infl_of_GetCell hy] at hx
      exact h3 y x hx

/-- A committing `Set` keeps the reverse edges the exact inverse of the forward
references. -/
theorem Set_commit_reverseEdges {parse : String → Option FormulaAST} {s : Sheet}
    {self : Position} {text : String} {this : Cell} {s' : Sheet}
    (hc : Sheet.GetCell s self = some this) (hne : text ≠ this.impl_.GetText)
    (h : Cell.Set parse s self text = .ok () s')
    (hinv : ReverseEdgesExact s) :
    ReverseEdgesExact s' := by
  obtain ⟨_, _, _, hrefs⟩ := Set_commit_refs hc hne h
  obtain ⟨hinfl, hkeep, hnewex⟩ := Set_commit_infl hc hne h
  obtain ⟨h1, h2, h3⟩ := (ReverseEdgesExact_iff s).mp hinv
  have hselfex : Sheet.GetCell s' self ≠ none := hkeep self (by simp [hc])
  have hrefs' : ∀ x, x ≠ self → Sheet.refs s' x = Sheet.refs s x := by
    intro x hx
    have := hrefs x
    rw [if_neg hx] at this
    exact this
  have hI1 : ∀ x y, x ∈ Sheet.infl s' y ↔ y ∈ Sheet.refs s' x := by
    intro x y
    rw [hinfl y, mem_relink]
    by_cases hx : x = self
    · subst hx
      rw [h1 x y]
      tauto
    · rw [hrefs' x hx, h1 x y]
      tauto
  rw [ReverseEdgesExact_iff]
  refine ⟨hI1, fun x y hy => ?_, fun y x hx => ?_⟩
  · by_cases hx : x = self
    · subst hx
      exact hnewex y hy
    · rw [hrefs' x hx] at hy
      exact hkeep y (h2 x y hy)
  · rw [hinfl y, mem_relink] at hx
    rcases hx with ⟨_, hx⟩ | ⟨hx, _⟩
    · rw [hx]; exact hselfex
    · exact hkeep x (h3 y x hx)

theorem infl_sheetAC (p : Position) : Sheet.infl sheetAC p = [] := by
  unfold Sheet.infl sheetAC
  simp only [Sheet.GetCell]
  split_ifs <;> rfl

theorem ReverseEdgesExact_sheetAC : ReverseEdgesExact sheetAC := by
  rw [ReverseEdgesExact_iff]
  simp [infl_sheetAC, refs_sheetAC]

/-! ## `Clear` -/

/-- What `Clear` does: the content of the cell becomes `EmptyImpl`; its cache, its
`influence_` set and every other cell stay as they are. -/
theorem GetCell_Clear (s : Sheet) (self p : Position) :
    Sheet.GetCell (Cell.Clear s self) p
      = if self = p then (Sheet.GetCell s p).map (fun c => { c with impl_ := .EmptyImpl })
        else Sheet.GetCell s p := by
  rw [Cell.Clear, GetCell_modify]

/-- After `Clear`, `GetValue` still returns the value cached before the call. -/
theorem GetValue_Clear_cached (stod : String → Option Double) (n : Nat) (s : Sheet)
    (self : Position) (c : Cell) (v : Value)
    (hc : Sheet.GetCell s self = some c) (hv : c.cache_ = some v) :
    Cell.GetValue stod (n + 1) (Cell.Clear s self) self = some (v, Cell.Clear s self) := by
  unfold Cell.GetValue
  simp [GetCell_Clear, hc, hv]

/-! ## Evaluation from scratch -/

theorem executePure_congr (stod : String → Option Double) {g g' : Position → Option Value}
    (e : Exec) :
    (∀ p, Exec.Reads e p → ∀ v, g p = some v → g' p = some v) →
    ∀ r, Formula.executePure stod g e = some r → Formula.executePure stod g' e = some r := by
  induction e with
  | ret d => intro _ r h; simpa [Formula.executePure] using h
  | raise e => intro _ r h; simpa [Formula.executePure] using h
  | arg pos k ih =>
    intro hg r h
    unfold Formula.executePure at h ⊢
    cases hp : g pos with
    | none => simp [hp] at h
    | some val =>
      rw [hg pos (Exec.Reads.here pos k) val hp]
      simp only [hp] at h
      have hk : ∀ d, ∀ p, Exec.Reads (k d) p → ∀ v, g p = some v → g' p = some v :=
        fun d p hr => hg p (Exec.Reads.later pos k d p hr)
      cases val with
      | num d => exact ih d (hk d) r h
      | str t =>
        simp only at h ⊢
        by_cases ht : t = ""
        · simp only [ht, if_true] at h ⊢
          exact ih 0 (hk 0) r h
        · simp only [ht, if_false] at h ⊢
          cases hs : stod t with
          | none => simpa [hs] using h
          | some d =>
            simp only [hs] at h ⊢
            exact ih d (hk d) r h
      | err e => simpa using h

theorem Impl.valuePure_agree (stod : String → Option Double) {g g' : Position → Option Value}
    (impl : Impl)
    (hg : ∀ f, impl = .FormulaImpl f → ∀ p, Exec.Reads f.ast_.run p →
      ∀ v, g p = some v → g' p = some v)
    (v : Value) (h : Impl.valuePure stod g impl = some v) :
    Impl.valuePure stod g' impl = some v := by
  cases impl with
  | EmptyImpl => exact h
  | TextImpl t => exact h
  | FormulaImpl f =>
    simp only [Impl.valuePure] at h ⊢
    cases he : Formula.executePure stod g f.ast_.run with
    | none => simp [he] at h
    | some r =>
      rw [executePure_congr stod f.ast_.run (hg f rfl) r he]
      simpa [he] using h

theorem valuePure_succ (stod : String → Option Double) (s : Sheet) :
    ∀ (n : Nat) (x : Position) (v : Value),
      Cell.valuePure stod s n x = some v → Cell.valuePure stod s (n + 1) x = some v := by
  intro n
  induction n with
  | zero => intro x v h; simp [Cell.valuePure] at h
  | succ n ih =>
    intro x v h
    unfold Cell.valuePure at h ⊢
    cases hc : Sheet.GetCell s x with
    | none => simp [hc] at h
    | some this =>
      simp only [hc] at h ⊢
      exact Impl.valuePure_agree stod this.impl_ (fun _ _ p _ v hv => ih p v hv) v h

theorem valuePure_mono (stod : String → Option Double) (s : Sheet) {n m : Nat} (hnm : n ≤ m)
    {x : Position} {v : Value} (h : Cell.valuePure stod s n x = some v) :
    Cell.valuePure stod s m x = some v := by
  induction hnm with
  | refl => exact h
  | step _ ih => exact valuePure_succ stod s _ x v ih

/-- Evaluation from scratch reads only the contents of the cells reachable through
forward references: it gives the same value on a sheet that agrees on those. -/
theorem valuePure_congr (stod : String → Option Double) {s s' : Sheet}
    (hsound : ContentSound s) :
    ∀ (n : Nat) (x : Position) (v : Value),
      (∀ p, Relation.ReflTransGen (Refers s) x p → ∀ c, Sheet.GetCell s p = some c →
        ∃ c', Sheet.GetCell s' p = some c' ∧ c'.impl_ = c.impl_) →
      Cell.valuePure stod s n x = some v → Cell.valuePure stod s' n x = some v := by
  intro n
  induction n with
  | zero => intro x v _ h; simp [Cell.valuePure] at h
  | succ n ih =>
    intro x v hagree h
    unfold Cell.valuePure at h ⊢
    cases hc : Sheet.GetCell s x with
    | none => simp [hc] at h
    | some this =>
      obtain ⟨c', hc', himpl⟩ := hagree x Relation.ReflTransGen.refl this hc
      simp only [hc] at h
      simp only [hc', himpl]
      refine Impl.valuePure_agree stod this.impl_ (fun f hf p hp val hval => ?_) v h
      have hedge : Refers s x p := by
        have := hsound x this f hc hf p hp
        simp only [Refers, refs_of_GetCell hc, Cell.GetReferencedCells, hf,
          Impl.GetReferencedCells, Formula.GetReferencedCells]
        exact this
      exact ih p val (fun q hq c hqc => hagree q (Relation.ReflTransGen.head hedge hq) c hqc)
        hval

theorem SameContent.refl (s : Sheet) : SameContent s s := fun _ => rfl

theorem SameContent.trans {s t u : Sheet} (h1 : SameContent s t) (h2 : SameContent t u) :
    SameContent s u := fun p => (h2 p).trans (h1 p)

theorem SameContent.symm {s t : Sheet} (h : SameContent s t) : SameContent t s :=
  fun p => (h p).symm

theorem SameContent.cell {s s' : Sheet} (h : SameContent s s') {p : Position} {c : Cell}
    (hc : Sheet.GetCell s p = some c) :
    ∃ c', Sheet.GetCell s' p = some c' ∧ c'.impl_ = c.impl_ ∧ c'.influence_ = c.influence_ := by
  have hp := h p
  rw [hc] at hp
  cases hc' : Sheet.GetCell s' p with
  | none => simp [hc'] at hp
  | some c' =>
    simp only [hc', Option.map_some', Option.some.injEq, Prod.mk.injEq] at hp
    exact ⟨c', rfl, hp.1, hp.2⟩

theorem SameContent.absent {s s' : Sheet} (h : SameContent s s') {p : Position}
    (hc : Sheet.GetCell s p = none) : Sheet.GetCell s' p = none := by
  have hp := h p
  rw [hc] at hp
  cases hc' : Sheet.GetCell s' p with
  | none => rfl
  | some c' => simp [hc'] at hp

theorem SameContent.refs_eq {s s' : Sheet} (h : SameContent s s') (p : Position) :
    Sheet.refs s' p = Sheet.refs s p := by
  cases hc : Sheet.GetCell s p with
  | none => simp [Sheet.refs, hc, h.absent hc]
  | some c =>
    obtain ⟨c', hc', hi, _⟩ := h.cell hc
    simp [Sheet.refs, hc, hc', Cell.GetReferencedCells, hi]

theorem SameContent.infl_eq {s s' : Sheet} (h : SameContent s s') (p : Position) :
    Sheet.infl s' p = Sheet.infl s p := by
  cases hc : Sheet.GetCell s p with
  | none => simp [Sheet.infl, hc, h.absent hc]
  | some c =>
    obtain ⟨c', hc', _, hi⟩ := h.cell hc
    simp [Sheet.infl, hc, hc', hi]

theorem SameContent.valuePure_eq (stod : String → Option Double) {s s' : Sheet}
    (h : SameContent s s') :
    ∀ (n : Nat) (x : Position), Cell.valuePure stod s' n x = Cell.valuePure stod s n x := by
  intro n
  induction n with
  | zero => intro x; rfl
  | succ n ih =>
    intro x
    unfold Cell.valuePure
    have hfun : Cell.valuePure stod s' n = Cell.valuePure stod s n := funext ih
    cases hc : Sheet.GetCell s x with
    | none => simp [h.absent hc]
    | some c =>
      obtain ⟨c', hc', hi, _⟩ := h.cell hc
      simp [hc', hi, hfun]

theorem SameContent_modify_cache (s : Sheet) (pos : Position) (v : Option Value) :
    SameContent s (Sheet.modify (fun c => { c with cache_ := v }) s pos) := by
  intro p
  rw [GetCell_modify]
  by_cases hp : pos = p
  · cases hc : Sheet.GetCell s p <;> simp [hp]
  · simp [hp]

/-! ## `GetValue` against evaluation from scratch -/

theorem execute_mono (stod : String → Option Double)
    {g g' : Sheet → Position → Option (Value × Sheet)}
    (hg : ∀ s p r, g s p = some r → g' s p = some r) (e : Exec) :
    ∀ s r, Formula.execute stod g e s = some r → Formula.execute stod g' e s = some r := by
  induction e with
  | ret d => intro s r h; simpa [Formula.execute] using h
  | raise e => intro s r h; simpa [Formula.execute] using h
  | arg pos k ih =>
    intro s r h
    unfold Formula.execute at h ⊢
    cases hp : g s pos with
    | none => simp [hp] at h
    | some res =>
      rw [hg s pos res hp]
      simp only [hp] at h
      obtain ⟨val, s1⟩ := res
      cases val with
      | num d => exact ih d s1 r h
      | str t =>
        simp only at h ⊢
        by_cases ht : t = ""
        · simp only [ht, if_true] at h ⊢
          exact ih 0 s1 r h
        · simp only [ht, if_false] at h ⊢
          cases hs : stod t with
          | none => simpa [hs] using h
          | some d =>
            simp only [hs] at h ⊢
            exact ih d s1 r h
      | err e => simpa using h

theorem Impl.GetValue_callback (stod : String → Option Double)
    {g g' : Sheet → Position → Option (Value × Sheet)}
    (hg : ∀ s p r, g s p = some r → g' s p = some r) (impl : Impl) (s : Sheet)
    (r : Value × Sheet) (h : Impl.GetValue stod g impl s = some r) :
    Impl.GetValue stod g' impl s = some r := by
  cases impl with
  | EmptyImpl => exact h
  | TextImpl t => exact h
  | FormulaImpl f =>
    simp only [Impl.GetValue, Formula.Evaluate] at h ⊢
    cases he : Formula.execute stod g f.ast_.run s with
    | none => simp [he] at h
    | some res =>
      rw [execute_mono stod hg f.ast_.run s res he]
      simpa [he] using h

theorem GetValue_succ (stod : String → Option Double) :
    ∀ (n : Nat) (s : Sheet) (x : Position) (r : Value × Sheet),
      Cell.GetValue stod n s x = some r → Cell.GetValue stod (n + 1) s x = some r := by
  intro n
  induction n with
  | zero => intro s x r h; simp [Cell.GetValue] at h
  | succ n ih =>
    intro s x r h
    unfold Cell.GetValue at h ⊢
    cases hc : Sheet.GetCell s x with
    | none => simp [hc] at h
    | some this =>
      simp only [hc] at h ⊢
      cases hcache : this.cache_ with
      | some v => simpa [hcache] using h
      | none =>
        simp only [hcache] at h ⊢
        cases hi : Impl.GetValue stod (Cell.GetValue stod n) this.impl_ s with
        | none => simp [hi] at h
        | some res =>
          rw [Impl.GetValue_callback stod (fun s p r => ih s p r) this.impl_ s res hi]
          simpa [hi] using h

theorem GetValue_mono (stod : String → Option Double) {n m : Nat} (hnm : n ≤ m) {s : Sheet}
    {x : Position} {r : Value × Sheet} (h : Cell.GetValue stod n s x = some r) :
    Cell.GetValue stod m s x = some r := by
  induction hnm with
  | refl => exact h
  | step _ ih => exact GetValue_succ stod _ s x r ih

theorem execute_correct (stod : String → Option Double)
    {gv : Sheet → Position → Option (Value × Sheet)}
    (hgv : ∀ s x v s', CacheValid stod s → gv s x = some (v, s') →
      SameContent s s' ∧ CacheValid stod s' ∧ ∃ m, Cell.valuePure stod s m x = some v)
    (e : Exec) :
    ∀ s r s', CacheValid stod s → Formula.execute stod gv e s = some (r, s') →
      SameContent s s' ∧ CacheValid stod s' ∧
      ∃ m, Formula.executePure stod (Cell.valuePure stod s m) e = some r := by
  induction e with
  | ret d =>
    intro s r s' hcv h
    simp only [Formula.execute, Option.some.injEq, Prod.mk.injEq] at h
    obtain ⟨h1, h2⟩ := h
    subst h1 h2
    exact ⟨SameContent.refl _, hcv, 0, rfl⟩
  | raise e =>
    intro s r s' hcv h
    simp only [Formula.execute, Option.some.injEq, Prod.mk.injEq] at h
    obtain ⟨h1, h2⟩ := h
    subst h1 h2
    exact ⟨SameContent.refl _, hcv, 0, rfl⟩
  | arg pos k ih =>
    intro s r s' hcv h
    unfold Formula.execute at h
    cases hp : gv s pos with
    | none => simp [hp] at h
    | some res =>
      obtain ⟨val, s1⟩ := res
      simp only [hp] at h
      obtain ⟨hsc1, hcv1, m1, hm1⟩ := hgv s pos val s1 hcv hp
      have hcont : ∀ d, Formula.execute stod gv (k d) s1 = some (r, s') →
          (match val with
            | .num d' => d' = d
            | .str t => (t = "" ∧ d = 0) ∨ (t ≠ "" ∧ stod t = some d)
            | .err _ => False) →
          SameContent s s' ∧ CacheValid stod s' ∧
          ∃ m, Formula.executePure stod (Cell.valuePure stod s m) (.arg pos k) = some r := by
        intro d hk hval
        obtain ⟨hsc2, hcv2, m2, hm2⟩ := ih d s1 r s' hcv1 hk
        refine ⟨hsc1.trans hsc2, hcv2, max m1 m2, ?_⟩
        have hfun : Cell.valuePure stod s1 m2 = Cell.valuePure stod s m2 :=
          funext (hsc1.valuePure_eq stod m2)
        rw [hfun] at hm2
        have hk' : Formula.executePure stod (Cell.valuePure stod s (max m1 m2)) (k d)
            = some r :=
          executePure_congr stod (k d)
            (fun p _ v hv => valuePure_mono stod s (le_max_right m1 m2) hv) r hm2
        unfold Formula.executePure
        rw [valuePure_mono stod s (le_max_left m1 m2) hm1]
        cases val with
        | num d' =>
          simp only at hval
          subst hval
          exact hk'
        | str t =>
          simp only at hval ⊢
          rcases hval with ⟨ht, hd⟩ | ⟨ht, hd⟩
          · subst hd
            simp only [ht, if_true]
            exact hk'
          · simp only [ht, if_false, hd]
            exact hk'
        | err _ => exact absurd hval (by simp)
      cases val with
      | num d => exact hcont d h rfl
      | str t =>
        simp only at h
        by_cases ht : t = ""
        · simp only [ht, if_true] at h
          exact hcont 0 h (Or.inl ⟨ht, rfl⟩)
        · simp only [ht, if_false] at h
          cases hs : stod t with
          | some d =>
            simp only [hs] at h
            exact hcont d h (Or.inr ⟨ht, hs⟩)
          | none =>
            simp only [hs, Option.some.injEq, Prod.mk.injEq] at h
            obtain ⟨h1, h2⟩ := h
            subst h1 h2
            refine ⟨hsc1, hcv1, m1, ?_⟩
            unfold Formula.executePure
            simp [hm1, ht, hs]
      | err e =>
        simp only [Option.some.injEq, Prod.mk.injEq] at h
        obtain ⟨h1, h2⟩ := h
        subst h1 h2
        refine ⟨hsc1, hcv1, m1, ?_⟩
        unfold Formula.executePure
        simp [hm1]

theorem Impl.GetValue_sound (stod : String → Option Double)
    {gv : Sheet → Position → Option (Value × Sheet)}
    (hgv : ∀ s x v s', CacheValid stod s → gv s x = some (v, s') →
      SameContent s s' ∧ CacheValid stod s' ∧ ∃ m, Cell.valuePure stod s m x = some v)
    (impl : Impl) (s : Sheet) (v : Value) (s' : Sheet) (hcv : CacheValid stod s)
    (h : Impl.GetValue stod gv impl s = some (v, s')) :
    SameContent s s' ∧ CacheValid stod s' ∧
      ∃ m, Impl.valuePure stod (Cell.valuePure stod s m) impl = some v := by
  cases impl with
  | EmptyImpl =>
    simp only [Impl.GetValue, Option.some.injEq, Prod.mk.injEq] at h
    obtain ⟨h1, h2⟩ := h
    subst h1 h2
    exact ⟨SameContent.refl _, hcv, 0, rfl⟩
  | TextImpl t =>
    simp only [Impl.GetValue] at h
    by_cases ht : t ≠ "" ∧ front t = ESCAPE_SIGN
    · rw [if_pos ht] at h
      simp only [Option.some.injEq, Prod.mk.injEq] at h
      obtain ⟨h1, h2⟩ := h
      subst h1 h2
      refine ⟨SameContent.refl _, hcv, 0, ?_⟩
      simp only [Impl.valuePure]
      rw [if_pos ht]
    · rw [if_neg ht] at h
      simp only [Option.some.injEq, Prod.mk.injEq] at h
      obtain ⟨h1, h2⟩ := h
      subst h1 h2
      refine ⟨SameContent.refl _, hcv, 0, ?_⟩
      simp only [Impl.valuePure]
      rw [if_neg ht]
  | FormulaImpl f =>
    simp only [Impl.GetValue, Formula.Evaluate] at h
    cases he : Formula.execute stod gv f.ast_.run s with
    | none => simp [he] at h
    | some res =>
      obtain ⟨r, s1⟩ := res
      obtain ⟨hsc, hcv', m, hm⟩ := execute_correct stod hgv f.ast_.run s r s1 hcv he
      simp only [he] at h
      cases r with
      | num d =>
        simp only [Option.some.injEq, Prod.mk.injEq] at h
        obtain ⟨h1, h2⟩ := h
        subst h1 h2
        exact ⟨hsc, hcv', m, by simp [Impl.valuePure, hm]⟩
      | err e =>
        simp only [Option.some.injEq, Prod.mk.injEq] at h
        obtain ⟨h1, h2⟩ := h
        subst h1 h2
        exact ⟨hsc, hcv', m, by simp [Impl.valuePure, hm]⟩

/-- `GetValue` on a sheet with valid caches returns the value of the cell evaluated
from scratch, changes nothing but caches, and leaves the caches valid. -/
theorem GetValue_correct (stod : String → Option Double) :
    ∀ (n : Nat) (s : Sheet) (x : Position) (v : Value) (s' : Sheet),
      CacheValid stod s → Cell.GetValue stod n s x = some (v, s') →
      SameContent s s' ∧ CacheValid stod s' ∧ ∃ m, Cell.valuePure stod s m x = some v := by
  intro n
  induction n with
  | zero => intro s x v s' _ h; simp [Cell.GetValue] at h
  | succ n ih =>
    intro s x v s' hcv h
    unfold Cell.GetValue at h
    cases hc : Sheet.GetCell s x with
    | none => simp [hc] at h
    | some this =>
      simp only [hc] at h
      cases hcache : this.cache_ with
      | some w =>
        simp only [hcache, Option.some.injEq, Prod.mk.injEq] at h
        obtain ⟨h1, h2⟩ := h
        subst h1 h2
        exact ⟨SameContent.refl _, hcv, hcv x this w hc hcache⟩
      | none =>
        simp only [hcache] at h
        cases hi : Impl.GetValue stod (Cell.GetValue stod n) this.impl_ s with
        | none => simp [hi] at h
        | some res =>
          obtain ⟨v1, s1⟩ := res
          simp only [hi, Option.some.injEq, Prod.mk.injEq] at h
          obtain ⟨h1, h2⟩ := h
          subst h1 h2
          obtain ⟨hsc, hcv1, m, hm⟩ :=
            Impl.GetValue_sound stod ih this.impl_ s v1 s1 hcv hi
          have hval : Cell.valuePure stod s (m + 1) x = some v1 := by
            unfold Cell.valuePure
            simp only [hc]
            exact hm
          have hsc' : SameContent s
              (Sheet.modify (fun c => { c with cache_ := some v1 }) s1 x) :=
            hsc.trans (SameContent_modify_cache s1 x (some v1))
          refine ⟨hsc', ?_, m + 1, hval⟩
          intro y c w hy hw
          rw [GetCell_modify] at hy
          by_cases hxy : x = y
          · subst hxy
            simp only [if_true] at hy
            cases hy1 : Sheet.GetCell s1 x with
            | none => simp [hy1] at hy
            | some c1 =>
              simp only [hy1, Option.map_some', Option.some.injEq] at hy
              subst hy
              simp only [Option.some.injEq] at hw
              subst hw
              exact ⟨m + 1, by rw [hsc'.valuePure_eq stod]; exact hval⟩
          · simp only [hxy, if_false] at hy
            obtain ⟨k, hk⟩ := hcv1 y c w hy hw
            exact ⟨k, by
              rw [(SameContent_modify_cache s1 x (some v1)).valuePure_eq stod]; exact hk⟩

/-! ## `GetValue` returns -/

theorem mem_keys_of_GetCell {s : Sheet} {x : Position} (h : Sheet.GetCell s x ≠ none) :
    x ∈ s.map Prod.fst := by
  induction s with
  | nil => simp [Sheet.GetCell] at h
  | cons e rest ih =>
    obtain ⟨k, c⟩ := e
    by_cases hk : k = x
    · simp [hk]
    · simp only [Sheet.GetCell, hk, if_false] at h
      simp [ih h]

/-- In an acyclic sheet the set of cells reachable from a referenced cell is strictly
smaller than the set reachable from the referencing cell. -/
theorem reach_card_lt {s : Sheet} (hac : Acyclic s) {x y : Position}
    (hx : Sheet.GetCell s x ≠ none) (hxy : Refers s x y)
    [DecidablePred fun p => Relation.ReflTransGen (Refers s) x p]
    [DecidablePred fun p => Relation.ReflTransGen (Refers s) y p] :
    ((s.map Prod.fst).toFinset.filter
        (fun p => Relation.ReflTransGen (Refers s) y p)).card
      < ((s.map Prod.fst).toFinset.filter
        (fun p => Relation.ReflTransGen (Refers s) x p)).card := by
  apply Finset.card_lt_card
  rw [Finset.ssubset_iff_of_subset]
  · refine ⟨x, ?_, ?_⟩
    · simp only [Finset.mem_filter, List.mem_toFinset]
      exact ⟨mem_keys_of_GetCell hx, Relation.ReflTransGen.refl⟩
    · simp only [Finset.mem_filter, List.mem_toFinset, not_and]
      intro _ hyx
      exact hac x (Relation.TransGen.head' hxy hyx)
  · intro p hp
    simp only [Finset.mem_filter, List.mem_toFinset] at hp ⊢
    exact ⟨hp.1, Relation.ReflTransGen.head hxy hp.2⟩

theorem execute_returns (stod : String → Option Double) (e : Exec) :
    ∀ (t : Sheet), CacheValid stod t →
      (∀ p, Exec.Reads e p → ∀ t1, SameContent t t1 → CacheValid stod t1 →
        ∃ n v t2, Cell.GetValue stod n t1 p = some (v, t2)) →
      ∃ n r t', Formula.execute stod (Cell.GetValue stod n) e t = some (r, t') := by
  induction e with
  | ret d => intro t _ _; exact ⟨0, _, _, rfl⟩
  | raise e => intro t _ _; exact ⟨0, _, _, rfl⟩
  | arg pos k ih =>
    intro t hcv hget
    obtain ⟨n1, val, t1, h1⟩ := hget pos (Exec.Reads.here pos k) t (SameContent.refl _) hcv
    obtain ⟨hsc1, hcv1, _⟩ := GetValue_correct stod n1 t pos val t1 hcv h1
    have hcont : ∀ d, ∃ n r t',
        Formula.execute stod (Cell.GetValue stod n) (k d) t1 = some (r, t') ∧ n1 ≤ n := by
      intro d
      obtain ⟨n2, r, t', h2⟩ := ih d t1 hcv1
        (fun p hp t2 hsc2 hcv2 =>
          hget p (Exec.Reads.later pos k d p hp) t2 (hsc1.trans hsc2) hcv2)
      refine ⟨max n1 n2, r, t', ?_, le_max_left _ _⟩
      exact execute_mono stod
        (fun s p r hr => GetValue_mono stod (le_max_right n1 n2) hr) (k d) t1 _ h2
    cases val with
    | num d =>
      obtain ⟨n, r, t', h2, hle⟩ := hcont d
      refine ⟨n, r, t', ?_⟩
      unfold Formula.execute
      rw [GetValue_mono stod hle h1]
      exact h2
    | str txt =>
      by_cases ht : txt = ""
      · obtain ⟨n, r, t', h2, hle⟩ := hcont 0
        refine ⟨n, r, t', ?_⟩
        unfold Formula.execute
        rw [GetValue_mono stod hle h1]
        simp only [ht, if_true]
        exact h2
      · cases hs : stod txt with
        | some d =>
          obtain ⟨n, r, t', h2, hle⟩ := hcont d
          refine ⟨n, r, t', ?_⟩
          unfold Formula.execute
          rw [GetValue_mono stod hle h1]
          simp only [ht, if_false, hs]
          exact h2
        | none =>
          refine ⟨n1, .err { category_ := .Value }, t1, ?_⟩
          unfold Formula.execute
          rw [h1]
          simp [ht, hs]
    | err e =>
      refine ⟨n1, .err e, t1, ?_⟩
      unfold Formula.execute
      rw [h1]

/-- On an acyclic sheet whose referenced positions all hold cells and whose formulas
read only the positions they list, `GetValue` returns for every cell, given enough
depth. -/
theorem GetValue_returns (stod : String → Option Double) {s : Sheet} (hac : Acyclic s)
    (hrefs : ∀ x, ∀ y ∈ Sheet.refs s x, Sheet.GetCell s y ≠ none)
    (hsound : ContentSound s) :
    ∀ x, Sheet.GetCell s x ≠ none → ∀ t, SameContent s t → CacheValid stod t →
      ∃ n v t', Cell.GetValue stod n t x = some (v, t') := by
  classical
  have key : ∀ (k : Nat) (x : Position),
      ((s.map Prod.fst).toFinset.filter
        (fun p => Relation.ReflTransGen (Refers s) x p)).card = k →
      Sheet.GetCell s x ≠ none → ∀ t, SameContent s t → CacheValid stod t →
      ∃ n v t', Cell.GetValue stod n t x = some (v, t') := by
    intro k
    induction k using Nat.strong_induction_on with
    | _ k ih =>
      intro x hk hx t hsc hcv
      cases hc : Sheet.GetCell s x with
      | none => exact absurd hc hx
      | some this =>
        obtain ⟨c', hc', himpl, _⟩ := hsc.cell hc
        cases hcache : c'.cache_ with
        | some w =>
          exact ⟨1, w, t, by unfold Cell.GetValue; simp [hc', hcache]⟩
        | none =>
          have hfinish : ∀ n v t1,
              Impl.GetValue stod (Cell.GetValue stod n) c'.impl_ t = some (v, t1) →
              ∃ n v t', Cell.GetValue stod n t x = some (v, t') := by
            intro n v t1 h
            exact ⟨n + 1, v, Sheet.modify (fun c => { c with cache_ := some v }) t1 x, by
              unfold Cell.GetValue; simp [hc', hcache, h]⟩
          cases hi : c'.impl_ with
          | EmptyImpl => exact hfinish 0 _ _ (by rw [hi]; rfl)
          | TextImpl txt =>
            by_cases ht : txt ≠ "" ∧ front txt = ESCAPE_SIGN
            · exact hfinish 0 _ _ (by rw [hi]; simp only [Impl.GetValue]; rw [if_pos ht])
            · exact hfinish 0 _ _ (by rw [hi]; simp only [Impl.GetValue]; rw [if_neg ht])
          | FormulaImpl f =>
            have hthis : this.impl_ = .FormulaImpl f := by rw [← himpl, hi]
            have hreads : ∀ p, Exec.Reads f.ast_.run p → Refers s x p := by
              intro p hp
              have := hsound x this f hc hthis p hp
              simp only [Refers, refs_of_GetCell hc, Cell.GetReferencedCells, hthis,
                Impl.GetReferencedCells, Formula.GetReferencedCells]
              exact this
            obtain ⟨n, r, t1, he⟩ := execute_returns stod f.ast_.run t hcv
              (fun p hp t1 hsc1 hcv1 =>
                ih _ (by rw [← hk]; exact reach_card_lt hac hx (hreads p hp)) p rfl
                  (hrefs x p (hreads p hp)) t1 (hsc.trans hsc1) hcv1)
            cases r with
            | num d =>
              exact hfinish n (.num d) t1 (by
                rw [hi]; simp only [Impl.GetValue, Formula.Evaluate, he])
            | err e =>
              exact hfinish n (.err e) t1 (by
                rw [hi]; simp only [Impl.GetValue, Formula.Evaluate, he])
  intro x hx t hsc hcv
  exact key _ x rfl hx t hsc hcv

/-! ## The invariants of the reachable sheets -/

theorem SameContent.Refers_eq {s s' : Sheet} (h : SameContent s s') :
    Refers s' = Refers s := by
  funext p q
  simp [Refers, h.refs_eq]

theorem SameContent.acyclic {s s' : Sheet} (h : SameContent s s') (hac : Acyclic s) :
    Acyclic s' := by
  intro p hp
  rw [h.Refers_eq] at hp
  exact hac p hp

theorem SameContent.reverseEdges {s s' : Sheet} (h : SameContent s s')
    (hinv : ReverseEdgesExact s) : ReverseEdgesExact s' := by
  rw [ReverseEdgesExact_iff] at hinv ⊢
  obtain ⟨h1, h2, h3⟩ := hinv
  have hex : ∀ p, Sheet.GetCell s p ≠ none → Sheet.GetCell s' p ≠ none := by
    intro p hp hp'
    exact hp (h.symm.absent hp')
  refine ⟨fun x y => ?_, fun x y hy => ?_, fun y x hx => ?_⟩
  · rw [h.infl_eq, h.refs_eq]; exact h1 x y
  · rw [h.refs_eq] at hy; exact hex y (h2 x y hy)
  · rw [h.infl_eq] at hx; exact hex x (h3 y x hx)

theorem SameContent.contentSound {s s' : Sheet} (h : SameContent s s')
    (hs : ContentSound s) : ContentSound s' := by
  intro x c' f hc' hf
  obtain ⟨c, hc, hi, _⟩ := h.symm.cell hc'
  exact hs x c f hc (by rw [hi, hf])

theorem Materialized.keeps_reverseEdges {s s' : Sheet} (h : Materialized s s')
    (hinv : ReverseEdgesExact s) : ReverseEdgesExact s' := by
  rw [ReverseEdgesExact_iff] at hinv ⊢
  obtain ⟨h1, h2, h3⟩ := hinv
  have hex : ∀ p, Sheet.GetCell s p ≠ none → Sheet.GetCell s' p ≠ none := by
    intro p hp
    cases hc : Sheet.GetCell s p with
    | none => exact absurd hc hp
    | some c => rw [h.1 p c hc]; simp
  refine ⟨fun x y => ?_, fun x y hy => ?_, fun y x hx => ?_⟩
  · rw [h.infl_same, h.refs_same]; exact h1 x y
  · rw [h.refs_same] at hy; exact hex y (h2 x y hy)
  · rw [h.infl_same] at hx; exact hex x (h3 y x hx)

theorem Materialized.keeps_contentSound {s s' : Sheet} (h : Materialized s s')
    (hs : ContentSound s) : ContentSound s' := by
  intro x c' f hc' hf
  cases hc : Sheet.GetCell s x with
  | some c =>
    rw [h.1 x c hc] at hc'
    simp only [Option.some.injEq] at hc'
    subst hc'
    exact hs x c f hc hf
  | none =>
    rcases h.2 x hc with h' | h'
    · rw [h'] at hc'; simp at hc'
    · rw [h'] at hc'
      simp only [Option.some.injEq] at hc'
      subst hc'
      simp [Cell.new] at hf

theorem Materialized.keeps_cacheValid (stod : String → Option Double) {s s' : Sheet}
    (h : Materialized s s') (hs : ContentSound s) (hcv : CacheValid stod s) :
    CacheValid stod s' := by
  intro x c' w hc' hw
  cases hc : Sheet.GetCell s x with
  | some c =>
    rw [h.1 x c hc] at hc'
    simp only [Option.some.injEq] at hc'
    subst hc'
    obtain ⟨n, hn⟩ := hcv x c w hc hw
    exact ⟨n, valuePure_congr stod hs n x w
      (fun p _ cp hp => ⟨cp, h.1 p cp hp, rfl⟩) hn⟩
  | none =>
    rcases h.2 x hc with h' | h'
    · rw [h'] at hc'; simp at hc'
    · rw [h'] at hc'
      simp only [Option.some.injEq] at hc'
      subst hc'
      simp [Cell.new] at hw

/-- With exact reverse edges, a cell reaches another through forward references iff it
is reached from it through `influence_` sets. -/
theorem reach_Influences_of_Refers {s : Sheet} (hinv : ReverseEdgesExact s)
    {x y : Position} (h : Relation.ReflTransGen (Refers s) x y) :
    Relation.ReflTransGen (Influences s) y x := by
  obtain ⟨h1, _, _⟩ := (ReverseEdgesExact_iff s).mp hinv
  induction h with
  | refl => exact Relation.ReflTransGen.refl
  | @tail b c _ hbc ih =>
    exact Relation.ReflTransGen.head ((h1 b c).mpr hbc) ih

theorem Set_commit_contentSound {parse : String → Option FormulaAST} {s : Sheet}
    {self : Position} {text : String} {this : Cell} {s' : Sheet}
    (hparse : ParseSound parse)
    (hc : Sheet.GetCell s self = some this) (hne : text ≠ this.impl_.GetText)
    (h : Cell.Set parse s self text = .ok () s') (hs : ContentSound s) :
    ContentSound s' := by
  obtain ⟨s1, impl, W, hmat, hnew, _, hs'⟩ := Set_commit hc hne h
  have hs1 := hmat.keeps_contentSound hs
  intro x c' f hc' hf
  rw [hs' x] at hc'
  cases hx1 : Sheet.GetCell s1 x with
  | none =>
    simp only [hx1] at hc'
    split_ifs at hc'
    simp only [Option.some.injEq] at hc'
    subst hc'
    simp [Cell.new] at hf
  | some c =>
    simp only [hx1, Option.some.injEq] at hc'
    subst hc'
    by_cases hxs : x = self
    · simp only [hxs, if_true] at hf
      rcases hnew with ⟨_, hi, _⟩ | ⟨_, _, hi, _⟩ | ⟨_, g, hp, hi, _⟩
      · rw [hi] at hf; simp at hf
      · rw [hi] at hf; simp at hf
      · rw [hi] at hf
        simp only [Impl.FormulaImpl.injEq] at hf
        subst hf
        simp only [ParseFormula, Option.map_eq_some'] at hp
        obtain ⟨ast, hast, hg⟩ := hp
        subst hg
        exact hparse _ ast hast
    · simp only [hxs, if_false] at hf
      exact hs1 x c f hx1 hf

theorem Set_commit_cacheValid {parse : String → Option FormulaAST}
    (stod : String → Option Double) {s : Sheet}
    {self : Position} {text : String} {this : Cell} {s' : Sheet}
    (hc : Sheet.GetCell s self = some this) (hne : text ≠ this.impl_.GetText)
    (h : Cell.Set parse s self text = .ok () s') (hinv : ReverseEdgesExact s)
    (hs : ContentSound s) (hcv : CacheValid stod s) :
    CacheValid stod s' := by
  obtain ⟨s1, impl, W, hmat, hnew, hW, hs'⟩ := Set_commit hc hne h
  intro x c' w hc' hw
  rw [hs' x] at hc'
  cases hx1 : Sheet.GetCell s1 x with
  | none =>
    simp only [hx1] at hc'
    split_ifs at hc'
    simp only [Option.some.injEq] at hc'
    subst hc'
    simp [Cell.new] at hw
  | some c =>
    simp only [hx1, Option.some.injEq] at hc'
    subst hc'
    simp only at hw
    by_cases hxW : x ∈ W
    · simp [hxW] at hw
    · simp only [hxW, if_false] at hw
      cases hx0 : Sheet.GetCell s x with
      | none =>
        rcases hmat.2 x hx0 with h' | h'
        · rw [h'] at hx1; simp at hx1
        · rw [h'] at hx1
          simp only [Option.some.injEq] at hx1
          subst hx1
          simp [Cell.new] at hw
      | some c0 =>
        rw [hmat.1 x c0 hx0] at hx1
        simp only [Option.some.injEq] at hx1
        subst hx1
        obtain ⟨n, hn⟩ := hcv x c0 w hx0 hw
        refine ⟨n, valuePure_congr stod hs n x w (fun p hp cp hpc => ?_) hn⟩
        have hps : p ≠ self := by
          rintro rfl
          exact hxW ((hW x).mpr (reach_Influences_of_Refers hinv hp))
        rw [hs' p, hmat.1 p cp hpc]
        exact ⟨_, rfl, by simp [hps]⟩

/-- Every reachable sheet is acyclic, has exact reverse edges, holds only formulas
that read the positions they list, and has valid caches. -/
theorem Reachable.invariant {parse : String → Option FormulaAST}
    {stod : String → Option Double} (hparse : ParseSound parse) {s : Sheet}
    (hr : Reachable parse stod s) :
    Acyclic s ∧ ReverseEdgesExact s ∧ ContentSound s ∧ CacheValid stod s := by
  induction hr with
  | empty =>
    refine ⟨fun p hp => ?_, ⟨?_, ?_, ?_⟩, ?_, ?_⟩
    · obtain ⟨r, hr, _⟩ := Relation.TransGen.head'_iff.mp hp
      simp [Refers, Sheet.refs, Sheet.GetCell] at hr
    · intro x y cx cy hx; simp [Sheet.GetCell] at hx
    · intro x cx hx; simp [Sheet.GetCell] at hx
    · intro x cx hx; simp [Sheet.GetCell] at hx
    · intro x c f hx; simp [Sheet.GetCell] at hx
    · intro x c w hx; simp [Sheet.GetCell] at hx
  | create s pos _ _ ih =>
    obtain ⟨hac, hinv, hs, hcv⟩ := ih
    have hmat := Materialized_SetCellEmpty s pos
    exact ⟨hmat.keeps_acyclic hac, hmat.keeps_reverseEdges hinv, hmat.keeps_contentSound hs,
      hmat.keeps_cacheValid stod hs hcv⟩
  | set s pos text s' _ hset ih =>
    obtain ⟨hac, hinv, hs, hcv⟩ := ih
    cases hout : Cell.Set parse s pos text with
    | undefined => simp [hout, Outcome.state] at hset
    | formulaException s2 =>
      simp only [hout, Outcome.state, Option.some.injEq] at hset
      subst hset
      have hmat := Set_exception_state (Or.inl hout)
      exact ⟨hmat.keeps_acyclic hac, hmat.keeps_reverseEdges hinv, hmat.keeps_contentSound hs,
        hmat.keeps_cacheValid stod hs hcv⟩
    | circularDependency s2 =>
      simp only [hout, Outcome.state, Option.some.injEq] at hset
      subst hset
      have hmat := Set_exception_state (Or.inr hout)
      exact ⟨hmat.keeps_acyclic hac, hmat.keeps_reverseEdges hinv, hmat.keeps_contentSound hs,
        hmat.keeps_cacheValid stod hs hcv⟩
    | ok u s2 =>
      simp only [hout, Outcome.state, Option.some.injEq] at hset
      subst hset
      cases hc : Sheet.GetCell s pos with
      | none => simp [Cell.Set, hc] at hout
      | some this =>
        by_cases hne : text = this.impl_.GetText
        · have : Cell.Set parse s pos text = .ok () s := by
            unfold Cell.Set
            simp only [hc]
            rw [if_pos hne]
          rw [this] at hout
          simp only [Outcome.ok.injEq, true_and] at hout
          subst hout
          exact ⟨hac, hinv, hs, hcv⟩
        · exact ⟨Set_commit_acyclic hc hne hout hac,
            Set_commit_reverseEdges hc hne hout hinv,
            Set_commit_contentSound hparse hc hne hout hs,
            Set_commit_cacheValid stod hc hne hout hinv hs hcv⟩
  | getValue s pos n v s' _ hget ih =>
    obtain ⟨hac, hinv, hs, hcv⟩ := ih
    obtain ⟨hsc, hcv', _⟩ := GetValue_correct stod n s pos v s' hcv hget
    exact ⟨hsc.acyclic hac, hsc.reverseEdges hinv, hsc.contentSound hs, hcv'⟩

theorem valuePure_unique (stod : String → Option Double) (s : Sheet) {n m : Nat}
    {x : Position} {v w : Value} (hn : Cell.valuePure stod s n x = some v)
    (hm : Cell.valuePure stod s m x = some w) : w = v := by
  have h1 := valuePure_mono stod s (le_max_left n m) hn
  have h2 := valuePure_mono stod s (le_max_right n m) hm
  rw [h1] at h2
  exact (Option.some.inj h2).symm

theorem refAST_Sound (pos : Position) (name : String) : (refAST pos name).Sound := by
  intro p hp
  simp only [refAST] at hp ⊢
  cases hp with
  | here => simp
  | later _ _ d _ h => cases h

theorem sumAST_Sound (p q : Position) (name : String) : (sumAST p q name).Sound := by
  intro x hx
  simp only [sumAST] at hx ⊢
  cases hx with
  | here => simp
  | later _ _ d _ h =>
    cases h with
    | here => simp
    | later _ _ d' _ h' => cases h'

theorem twiceAST_Sound (p : Position) (name : String) : (twiceAST p name).Sound := by
  intro x hx
  simp only [twiceAST] at hx ⊢
  cases hx with
  | here => simp
  | later _ _ d _ h =>
    cases h with
    | here => simp
    | later _ _ d' _ h' => cases h'

theorem ParseSound_exampleParse : ParseSound exampleParse := by
  intro expression ast h
  unfold exampleParse at h
  split_ifs at h <;> simp only [Option.some.injEq] at h <;> subst h
  · exact refAST_Sound _ _
  · exact refAST_Sound _ _
  · exact sumAST_Sound _ _ _
  · exact sumAST_Sound _ _ _
  · exact twiceAST_Sound _ _

theorem Reachable_sheetLinked : Reachable exampleParse exampleStod sheetLinked :=
  Reachable.getValue sheetLinkedFresh A1 2 (.num 5) sheetLinked
    (Reachable.set sheetAB A1 "=B1" sheetLinkedFresh
      (Reachable.set [(A1, Cell.new), (B1, Cell.new)] B1 "5" sheetAB
        (Reachable.create sheetA B1 (Reachable.create [] A1 Reachable.empty rfl) rfl) rfl)
      rfl)
    rfl

/-! ## Escaped texts -/

theorem data_escaped (rest : String) :
    (String.singleton ESCAPE_SIGN ++ rest).data = ESCAPE_SIGN :: rest.data := by
  show ((String.singleton ESCAPE_SIGN).data ++ rest.data) = _
  rfl

theorem front_escaped (rest : String) :
    front (String.singleton ESCAPE_SIGN ++ rest) = ESCAPE_SIGN := by
  simp [front, data_escaped]

theorem substr_escaped (rest : String) :
    substr (String.singleton ESCAPE_SIGN ++ rest) 1 = rest := by
  simp [substr, data_escaped]

theorem escaped_ne_empty (rest : String) : String.singleton ESCAPE_SIGN ++ rest ≠ "" := by
  intro h
  have := congrArg String.data h
  rw [data_escaped] at this
  simp at this

theorem isFormulaText_escaped (rest : String) :
    isFormulaText (String.singleton ESCAPE_SIGN ++ rest) = false := by
  have h : ESCAPE_SIGN ≠ FORMULA_SIGN := by decide
  simp [isFormulaText, front_escaped, h]

/-- The content whose text starts with the escape sign is a text. -/
theorem impl_of_escaped_text {impl : Impl} {rest : String}
    (h : String.singleton ESCAPE_SIGN ++ rest = impl.GetText) :
    impl = .TextImpl (String.singleton ESCAPE_SIGN ++ rest) := by
  cases impl with
  | EmptyImpl => exact absurd h (escaped_ne_empty rest)
  | TextImpl t => simp only [Impl.GetText] at h; rw [h]
  | FormulaImpl f =>
    simp only [Impl.GetText] at h
    have := congrArg String.data h
    rw [data_escaped, data_formula_append] at this
    simp [ESCAPE_SIGN] at this

/-- A cell that holds a text and no cached value other than the value of that text
returns the text from `GetValue`, without the escape sign if it starts with one. -/
theorem GetValue_text (stod : String → Option Double) {s : Sheet} {self : Position}
    {c : Cell} {t : String} (hc : Sheet.GetCell s self = some c)
    (hi : c.impl_ = .TextImpl t)
    (hcache : ∀ v, c.cache_ = some v →
      v = if t ≠ "" ∧ front t = ESCAPE_SIGN then .str (substr t 1) else .str t)
    (n : Nat) :
    ∃ s', Cell.GetValue stod (n + 1) s self
      = some (if t ≠ "" ∧ front t = ESCAPE_SIGN then .str (substr t 1) else .str t, s') := by
  simp only [Cell.GetValue, hc]
  cases hcc : c.cache_ with
  | some v => exact ⟨s, by simp only [hcache v hcc]⟩
  | none =>
    simp only [hi, Impl.GetValue]
    split_ifs <;> exact ⟨_, rfl⟩

/-- A valid cache of a text cell holds the value of the text. -/
theorem CacheValid.text {stod : String → Option Double} {s : Sheet} (hcv : CacheValid stod s)
    {self : Position} {c : Cell} {t : String} (hc : Sheet.GetCell s self = some c)
    (hi : c.impl_ = .TextImpl t) (v : Value) (hv : c.cache_ = some v) :
    v = if t ≠ "" ∧ front t = ESCAPE_SIGN then .str (substr t 1) else .str t := by
  obtain ⟨n, hn⟩ := hcv self c v hc hv
  cases n with
  | zero => simp [Cell.valuePure] at hn
  | succ n =>
    simp only [Cell.valuePure, hc, hi, Impl.valuePure] at hn
    split_ifs at hn ⊢ <;> simp_all

/-- A committing `Set` of a text that is not a formula stores the text (or the empty
content) in the cell and leaves it without a cached value. -/
theorem Set_commit_text {parse : String → Option FormulaAST} {s : Sheet} {self : Position}
    {text : String} {this : Cell} {s' : Sheet}
    (hc : Sheet.GetCell s self = some this) (hne : text ≠ this.impl_.GetText)
    (hnf : isFormulaText text = false) (h : Cell.Set parse s self text = .ok () s') :
    ∃ c', Sheet.GetCell s' self = some c' ∧ c'.cache_ = none ∧
      c'.impl_ = if text = "" then .EmptyImpl else .TextImpl text := by
  obtain ⟨s1, impl, W, hmat, hnew, hW, hs'⟩ := Set_commit hc hne h
  have hc1 := hmat.1 self this hc
  have hself := hs' self
  rw [hc1] at hself
  have hin : self ∈ W := (hW self).mpr Relation.ReflTransGen.refl
  simp only [if_true, hin] at hself
  refine ⟨_, hself, rfl, ?_⟩
  rcases hnew with ⟨ht, hi, _⟩ | ⟨ht, _, hi, _⟩ | ⟨hf, _⟩
  · simp [ht, hi]
  · simp [ht, hi]
  · rw [hnf] at hf; simp at hf

theorem CacheValid_sheetA (stod : String → Option Double) : CacheValid stod sheetA := by
  intro x c v hx hv
  simp only [sheetA, Sheet.GetCell] at hx
  split_ifs at hx
  · simp only [Option.some.injEq] at hx
    subst hx
    simp [Cell.new] at hv

/-! ## Errors read by a formula -/

/-- A run that reads a cell whose value is an error ends with that error. -/
theorem execute_error {stod : String → Option Double}
    {getValue : Sheet → Position → Option (Value × Sheet)} {e : Exec} {s : Sheet}
    {p : Position} {err : FormulaError}
    (h : Formula.ReadsValue stod getValue e s p (.err err)) :
    ∃ s', Formula.execute stod getValue e s = some (.err err, s') := by
  generalize hv : Value.err err = v at h
  induction h with
  | here pos k s s' v hg =>
    subst hv
    exact ⟨s', by simp only [Formula.execute, hg]⟩
  | afterNumber pos k s s' d p v hg _ ih =>
    obtain ⟨s'', hs''⟩ := ih hv
    exact ⟨s'', by simp only [Formula.execute, hg, hs'']⟩
  | afterEmptyText pos k s s' p v hg _ ih =>
    obtain ⟨s'', hs''⟩ := ih hv
    exact ⟨s'', by simp only [Formula.execute, hg, if_true, hs'']⟩
  | afterText pos k s s' str_value d p v hg hne hd _ ih =>
    obtain ⟨s'', hs''⟩ := ih hv
    exact ⟨s'', by simp only [Formula.execute, hg, if_neg hne, hd, hs'']⟩

/-- The value of a formula computed from scratch is a number or an error. -/
theorem valuePure_formula {stod : String → Option Double} {getValue : Position → Option Value}
    {f : Formula} {v : Value} (h : Impl.valuePure stod getValue (.FormulaImpl f) = some v) :
    (∃ d, v = .num d) ∨ ∃ e, v = .err e := by
  simp only [Impl.valuePure] at h
  split at h
  · simp at h
  · simp only [Option.some.injEq] at h
    exact Or.inl ⟨_, h.symm⟩
  · simp only [Option.some.injEq] at h
    exact Or.inr ⟨_, h.symm⟩

/-- The value `FormulaImpl::GetValue` returns is a number or an error. -/
theorem GetValue_formula {stod : String → Option Double}
    {getValue : Sheet → Position → Option (Value × Sheet)}
    {f : Formula} {s s' : Sheet} {v : Value}
    (h : Impl.GetValue stod getValue (.FormulaImpl f) s = some (v, s')) :
    (∃ d, v = .num d) ∨ ∃ e, v = .err e := by
  simp only [Impl.GetValue] at h
  split at h
  · simp at h
  · simp only [Option.some.injEq, Prod.mk.injEq] at h
    exact Or.inl ⟨_, h.1.symm⟩
  · simp only [Option.some.injEq, Prod.mk.injEq] at h
    exact Or.inr ⟨_, h.1.symm⟩

theorem CacheValid_sheetDiv0 (stod : String → Option Double) : CacheValid stod sheetDiv0 := by
  intro x c v hx hv
  simp only [sheetDiv0, Sheet.GetCell] at hx
  split_ifs at hx
  · simp only [Option.some.injEq] at hx
    subst hx
    simp at hv
  · simp only [Option.some.injEq] at hx
    subst hx
    simp at hv

/-! ## The references of the committed content -/

/-- After a committing `Set` the cell lists the positions of `GetCells()` of the parsed
tree if the text is a formula, and nothing otherwise. -/
theorem Set_commit_references {parse : String → Option FormulaAST} {s : Sheet}
    {self : Position} {text : String} {this : Cell} {s' : Sheet}
    (hc : Sheet.GetCell s self = some this) (hne : text ≠ this.impl_.GetText)
    (h : Cell.Set parse s self text = .ok () s') :
    ∃ c', Sheet.GetCell s' self = some c' ∧
      (isFormulaText text = true →
        ∃ ast, parse (substr text 1) = some ast ∧ c'.GetReferencedCells = ast.cells) ∧
      (isFormulaText text = false → c'.GetReferencedCells = []) := by
  obtain ⟨s1, impl, W, hmat, hnew, _, hs'⟩ := Set_commit hc hne h
  have hc1 := hmat.1 self this hc
  have hself := hs' self
  rw [hc1] at hself
  simp only [if_true] at hself
  refine ⟨_, hself, ?_⟩
  simp only [Cell.GetReferencedCells]
  rcases hnew with ⟨ht, hi, _⟩ | ⟨ht, hf, hi, _⟩ | ⟨hf, f, hp, hi, _⟩
  · subst hi
    exact ⟨fun hf => absurd ht (isFormulaText_ne_empty hf), fun _ => rfl⟩
  · subst hi
    exact ⟨fun hf' => by rw [hf] at hf'; simp at hf', fun _ => rfl⟩
  · subst hi
    refine ⟨fun _ => ?_, fun hf' => by rw [hf] at hf'; simp at hf'⟩
    simp only [ParseFormula, Option.map_eq_some'] at hp
    obtain ⟨ast, hast, hf⟩ := hp
    subst hf
    exact ⟨ast, hast, rfl⟩

theorem ParseCellsSet_exampleParse : ParseCellsSet exampleParse := by
  intro expression ast h
  unfold exampleParse at h
  split_ifs at h <;> simp only [Option.some.injEq] at h <;> subst h <;> decide

/-! ## The positions visited by the cycle check -/

/-- The loop with its record of visited positions ends like the loop itself. -/
theorem checkTrace_outcome (self : Position) :
    ∀ (n : Nat) (s : Sheet) (stack : List Position) (v : List (List Nat)),
      (Cell.checkTrace self n s stack v).map Prod.snd = Cell.checkLoop self n s stack v := by
  intro n
  induction n with
  | zero =>
    intro s stack v
    cases stack <;> simp [Cell.checkTrace, Cell.checkLoop]
  | succ n ih =>
    intro s stack v
    cases stack with
    | nil => simp [Cell.checkTrace, Cell.checkLoop]
    | cons cur rest =>
      unfold Cell.checkTrace Cell.checkLoop
      cases hv : visitedAt v cur with
      | none => simp
      | some x =>
        simp only
        by_cases hx : x = 1
        · simp only [hx, if_true, Option.map_map]
          rw [← ih s rest v]
          rfl
        · simp only [hx, if_false]
          cases hc : Sheet.GetCell s cur with
          | some c =>
            simp only
            by_cases hself : cur = self
            · simp [hself]
            · simp only [hself, if_false, Option.map_map]
              rw [← ih]
              rfl
          | none =>
            simp only
            cases hc' : Sheet.GetCell (Cell.CreateEmptyCell s cur) cur with
            | none => simp
            | some c' =>
              simp only [Option.map_map]
              rw [← ih]
              rfl

theorem visitedAt_visitedSet_none_iff {v : List (List Nat)} {cur p : Position} {x : Nat}
    (hcur : visitedAt v cur = some x) :
    visitedAt (visitedSet v cur) p = none ↔ visitedAt v p = none := by
  constructor
  · exact visitedAt_visitedSet_none
  · intro h
    have hp : p ≠ cur := by
      rintro rfl
      rw [hcur] at h
      simp at h
    rwa [visitedAt_visitedSet_ne hp]

/-- The loop runs into undefined behaviour exactly when one of the positions it visits
has no slot in the visited matrix. -/
theorem checkTrace_undefined (self : Position) :
    ∀ (n : Nat) (s : Sheet) (stack : List Position) (v : List (List Nat))
      (log : List Position) (r : Outcome Unit),
      Cell.checkTrace self n s stack v = some (log, r) →
      (r = .undefined ↔ ∃ p ∈ log, visitedAt v p = none) := by
  intro n
  induction n with
  | zero =>
    intro s stack v log r h
    cases stack with
    | nil =>
      simp only [Cell.checkTrace, Option.some.injEq, Prod.mk.injEq] at h
      obtain ⟨rfl, rfl⟩ := h
      simp
    | cons x xs => simp [Cell.checkTrace] at h
  | succ n ih =>
    intro s stack v log r h
    cases stack with
    | nil =>
      simp only [Cell.checkTrace, Option.some.injEq, Prod.mk.injEq] at h
      obtain ⟨rfl, rfl⟩ := h
      simp
    | cons cur rest =>
      unfold Cell.checkTrace at h
      cases hv : visitedAt v cur with
      | none =>
        simp only [hv, Option.some.injEq, Prod.mk.injEq] at h
        obtain ⟨rfl, rfl⟩ := h
        simp [hv]
      | some x =>
        simp only [hv] at h
        have key : ∀ (s1 : Sheet) (st : List Position) (v1 : List (List Nat)),
            (∀ p, visitedAt v1 p = none ↔ visitedAt v p = none) →
            (Cell.checkTrace self n s1 st v1).map (fun r => (cur :: r.1, r.2))
              = some (log, r) →
            (r = .undefined ↔ ∃ p ∈ log, visitedAt v p = none) := by
          intro s1 st v1 hv1 hrec
          simp only [Option.map_eq_some', Prod.mk.injEq] at hrec
          obtain ⟨⟨log', r'⟩, hsub, rfl, rfl⟩ := hrec
          rw [ih s1 st v1 log' r' hsub]
          simp only [List.mem_cons, exists_eq_or_imp, hv, false_or, hv1]
          simp
        by_cases hx : x = 1
        · simp only [hx, if_true] at h
          exact key s rest v (fun p => Iff.rfl) h
        · simp only [hx, if_false] at h
          cases hc : Sheet.GetCell s cur with
          | some c =>
            simp only [hc] at h
            by_cases hself : cur = self
            · simp only [hself, if_true, Option.some.injEq, Prod.mk.injEq] at h
              obtain ⟨rfl, rfl⟩ := h
              subst hself
              simp [hv]
            · simp only [hself, if_false] at h
              exact key _ _ _ (fun p => visitedAt_visitedSet_none_iff hv) h
          | none =>
            simp only [hc] at h
            cases hc' : Sheet.GetCell (Cell.CreateEmptyCell s cur) cur with
            | none =>
              simp [Cell.CreateEmptyCell, GetCell_SetCellEmpty_self hc] at hc'
            | some c' =>
              simp only [hc'] at h
              exact key _ _ _ (fun p => visitedAt_visitedSet_none_iff hv) h

/-- Every position the loop visits holds a cell afterwards. -/
theorem checkTrace_cells (self : Position) :
    ∀ (n : Nat) (s : Sheet) (stack : List Position) (v : List (List Nat))
      (log : List Position) (r : Outcome Unit),
      Cell.checkTrace self n s stack v = some (log, r) →
      (∀ p, marked v p → Sheet.GetCell s p ≠ none) →
      ∀ s', r.state = some s' → ∀ p ∈ log, Sheet.GetCell s' p ≠ none := by
  intro n
  induction n with
  | zero =>
    intro s stack v log r h _ s' _ p hp
    cases stack with
    | nil =>
      simp only [Cell.checkTrace, Option.some.injEq, Prod.mk.injEq] at h
      obtain ⟨rfl, rfl⟩ := h
      simp at hp
    | cons x xs => simp [Cell.checkTrace] at h
  | succ n ih =>
    intro s stack v log r h hmark s' hs' p hp
    cases stack with
    | nil =>
      simp only [Cell.checkTrace, Option.some.injEq, Prod.mk.injEq] at h
      obtain ⟨rfl, rfl⟩ := h
      simp at hp
    | cons cur rest =>
      unfold Cell.checkTrace at h
      cases hv : visitedAt v cur with
      | none =>
        simp only [hv, Option.some.injEq, Prod.mk.injEq] at h
        obtain ⟨rfl, rfl⟩ := h
        simp [Outcome.state] at hs'
      | some x =>
        simp only [hv] at h
        have key : ∀ (s1 : Sheet) (st : List Position) (v1 : List (List Nat)),
            Sheet.GetCell s1 cur ≠ none →
            (∀ q, marked v1 q → Sheet.GetCell s1 q ≠ none) →
            (Cell.checkTrace self n s1 st v1).map (fun r => (cur :: r.1, r.2))
              = some (log, r) →
            Sheet.GetCell s' p ≠ none := by
          intro s1 st v1 hcur hmark1 hrec
          simp only [Option.map_eq_some', Prod.mk.injEq] at hrec
          obtain ⟨⟨log', r'⟩, hsub, rfl, rfl⟩ := hrec
          rcases List.mem_cons.mp hp with rfl | hp'
          · have hloop : Cell.checkLoop self n s1 st v1 = some r' := by
              rw [← checkTrace_outcome, hsub]; rfl
            have hmat := (checkLoop_state self n s1 st v1 r' hloop s' hs').1
            cases hc1 : Sheet.GetCell s1 p with
            | none => exact absurd hc1 hcur
            | some c1 => rw [hmat.1 p c1 hc1]; simp
          · exact ih s1 st v1 log' r' hsub hmark1 s' hs' p hp'
        by_cases hx : x = 1
        · simp only [hx, if_true] at h
          exact key s rest v (hmark cur (by rw [marked, hv, hx])) hmark h
        · simp only [hx, if_false] at h
          cases hc : Sheet.GetCell s cur with
          | some c =>
            simp only [hc] at h
            by_cases hself : cur = self
            · simp only [hself, if_true, Option.some.injEq, Prod.mk.injEq] at h
              obtain ⟨rfl, rfl⟩ := h
              simp only [Outcome.state, Option.some.injEq] at hs'
              subst hs'
              simp only [List.mem_singleton] at hp
              subst hp
              subst hself
              simp [hc]
            · simp only [hself, if_false] at h
              refine key _ _ _ (by simp [hc]) (fun q hq => ?_) h
              by_cases hqc : q = cur
              · subst hqc; simp [hc]
              · rw [marked, visitedAt_visitedSet_ne hqc] at hq
                exact hmark q hq
          | none =>
            simp only [hc] at h
            have hnew := GetCell_SetCellEmpty_self hc
            simp only [Cell.CreateEmptyCell, hnew] at h
            refine key _ _ _ (by simp [hnew]) (fun q hq => ?_) h
            by_cases hqc : q = cur
            · subst hqc; simp [hnew]
            · rw [marked, visitedAt_visitedSet_ne hqc] at hq
              have := hmark q hq
              cases hq1 : Sheet.GetCell s q with
              | none => exact absurd hq1 this
              | some c1 => rw [GetCell_SetCellEmpty_of_some cur hq1]; simp

/-- The record of `CheckForCircularDependencies`: the loop ends within its fuel, and the
positions it visits are those of its record. -/
theorem visitedPositions_eq (s : Sheet) (self : Position) (refs : List Position) :
    Cell.checkTrace self ((Cell.CreateStack refs).length + Sheet.referencesTotal s) s
        (Cell.CreateStack refs) (Cell.CreateVisitedCells s)
      = some (Cell.visitedPositions s self refs,
          Cell.CheckForCircularDependencies s self refs) := by
  obtain ⟨r, hr, heq⟩ := CheckForCircularDependencies_eq s self refs
  have h := checkTrace_outcome self
    ((Cell.CreateStack refs).length + Sheet.referencesTotal s) s
    (Cell.CreateStack refs) (Cell.CreateVisitedCells s)
  rw [hr] at h
  simp only [Option.map_eq_some'] at h
  obtain ⟨⟨log, r'⟩, hlog, hr'⟩ := h
  simp only at hr'
  subst hr'
  simp only [Cell.visitedPositions, hlog, heq]

/-- The cycle check runs into undefined behaviour exactly when one of the positions it
visits lies outside the printable area, for which the visited matrix has slots. -/
theorem CheckForCircularDependencies_undefined_iff (s : Sheet) (self : Position)
    (refs : List Position) :
    Cell.CheckForCircularDependencies s self refs = .undefined
      ↔ ∃ p ∈ Cell.visitedPositions s self refs, ¬ inBounds s p := by
  rw [checkTrace_undefined self _ _ _ _ _ _ (visitedPositions_eq s self refs)]
  constructor
  · rintro ⟨p, hp, hnone⟩
    exact ⟨p, hp, visitedAt_CreateVisitedCells_none hnone⟩
  · rintro ⟨p, hp, hnb⟩
    refine ⟨p, hp, ?_⟩
    rw [visitedAt_CreateVisitedCells]
    simp only [inBounds] at hnb
    simp [hnb]

/-- Every position the cycle check visits holds a cell when the check returns or
throws; a position that held none holds a fresh empty cell. -/
theorem CheckForCircularDependencies_visited {s : Sheet} {self : Position}
    {refs : List Position} {s' : Sheet}
    (h : (Cell.CheckForCircularDependencies s self refs).state = some s')
    {p : Position} (hp : p ∈ Cell.visitedPositions s self refs) :
    Sheet.GetCell s' p ≠ none ∧
      (Sheet.GetCell s p = none → Sheet.GetCell s' p = some Cell.new) := by
  have hex := checkTrace_cells self _ _ _ _ _ _ (visitedPositions_eq s self refs)
    (fun q hq => absurd hq (not_marked_CreateVisitedCells s q)) s' h p hp
  refine ⟨hex, fun hnone => ?_⟩
  rcases (CheckForCircularDependencies_state h).1.2 p hnone with h1 | h1
  · exact absurd h1 hex
  · exact h1

/-! ## Cells created by `Set` -/

/-- A `Set` of a formula that ends with `CircularDependencyException` leaves the sheet
as the cycle check leaves it. -/
theorem Set_circular_state {parse : String → Option FormulaAST} {s : Sheet}
    {self : Position} {this : Cell} {text : String} {f : Formula} {s' : Sheet}
    (hc : Sheet.GetCell s self = some this) (hne : text ≠ this.impl_.GetText)
    (hf : isFormulaText text = true)
    (hp : ParseFormula parse (substr text 1) = some f)
    (h : Cell.Set parse s self text = .circularDependency s') :
    Cell.CheckForCircularDependencies s self f.GetReferencedCells
      = .circularDependency s' := by
  rw [Set_formula_unfold hc hne hf hp] at h
  cases hchk : Cell.CheckForCircularDependencies s self f.GetReferencedCells with
  | circularDependency s1 =>
    simp only [hchk, Outcome.circularDependency.injEq] at h
    rw [h]
  | formulaException s1 => simp [hchk] at h
  | undefined => simp [hchk] at h
  | ok x s1 =>
    simp only [hchk] at h
    split at h
    · simp at h
    · split at h <;> simp at h

/-- A committing `Set` of a formula stores the parsed formula, after a cycle check that
returned. -/
theorem Set_commit_formula {parse : String → Option FormulaAST} {s : Sheet}
    {self : Position} {this : Cell} {text : String} {f : Formula} {s' : Sheet}
    (hc : Sheet.GetCell s self = some this) (hne : text ≠ this.impl_.GetText)
    (hf : isFormulaText text = true)
    (hp : ParseFormula parse (substr text 1) = some f)
    (h : Cell.Set parse s self text = .ok () s') :
    ∃ (s1 : Sheet) (W : List Position),
      Cell.CheckForCircularDependencies s self f.GetReferencedCells = .ok () s1 ∧
      Materialized s s1 ∧
      (∀ p, p ∈ W ↔ Relation.ReflTransGen (Influences s) self p) ∧
      ∀ p, Sheet.GetCell s' p
        = match Sheet.GetCell s1 p with
          | some c =>
            some { impl_ := if p = self then .FormulaImpl f else c.impl_,
                   influence_ := relink self this.impl_.GetReferencedCells
                     f.GetReferencedCells p c.influence_,
                   cache_ := if p ∈ W then none else c.cache_ }
          | none =>
            if p ∈ f.GetReferencedCells then some { Cell.new with influence_ := [self] }
            else none := by
  obtain ⟨s1, impl, W, hmat, hnew, hW, hs'⟩ := Set_commit hc hne h
  rcases hnew with ⟨ht, _⟩ | ⟨_, hnf, _⟩ | ⟨_, f', hp', hi, hchk⟩
  · exact absurd ht (isFormulaText_ne_empty hf)
  · rw [hf] at hnf; simp at hnf
  · rw [hp] at hp'
    simp only [Option.some.injEq] at hp'
    subst hp'
    subst hi
    exact ⟨s1, W, hchk, hmat, hW, hs'⟩

/-! ## The cells expanded by `ClearCaches` -/

/-- The loop with its record of expanded cells ends like the loop itself. -/
theorem clearTrace_outcome :
    ∀ (n : Nat) (s : Sheet) (stack v : List Position),
      (Cell.clearTrace n s stack v).map Prod.snd = Cell.clearLoop n s stack v := by
  intro n
  induction n with
  | zero =>
    intro s stack v
    cases stack <;> simp [Cell.clearTrace, Cell.clearLoop]
  | succ n ih =>
    intro s stack v
    cases stack with
    | nil => simp [Cell.clearTrace, Cell.clearLoop]
    | cons cur rest =>
      unfold Cell.clearTrace Cell.clearLoop
      by_cases hv : cur ∈ v
      · simp only [hv, if_true]
        exact ih s rest v
      · simp only [hv, if_false]
        cases hc : Sheet.GetCell s cur with
        | none => simp
        | some c =>
          simp only [Option.map_map]
          rw [← ih]
          rfl

/-- The record of the loop of `ClearCaches`: no cell is inserted twice, none that was
visited before; every inserted cell is reached from the stack through `influence_`
sets; and after a normal end the caches of exactly the recorded cells were reset,
every cell of the stack and every dependent of a recorded cell being recorded or
visited before. -/
theorem clearTrace_spec :
    ∀ (n : Nat) (s : Sheet) (stack v : List Position) (log : List Position)
      (r : Outcome Unit),
      Cell.clearTrace n s stack v = some (log, r) →
      log.Nodup ∧ (∀ p ∈ log, p ∉ v) ∧
      (∀ p ∈ log, ∃ q ∈ stack, Relation.ReflTransGen (Influences s) q p) ∧
      ∀ s', r = .ok () s' →
        s' = log.foldl Cell.ClearCache s ∧
        (∀ p ∈ stack, p ∈ log ∨ p ∈ v) ∧
        (∀ p ∈ log, ∀ q ∈ Sheet.infl s p, q ∈ log ∨ q ∈ v) := by
  intro n
  induction n with
  | zero =>
    intro s stack v log r h
    cases stack with
    | nil =>
      simp only [Cell.clearTrace, Option.some.injEq, Prod.mk.injEq] at h
      obtain ⟨rfl, rfl⟩ := h
      simp
    | cons x xs => simp [Cell.clearTrace] at h
  | succ n ih =>
    intro s stack v log r h
    cases stack with
    | nil =>
      simp only [Cell.clearTrace, Option.some.injEq, Prod.mk.injEq] at h
      obtain ⟨rfl, rfl⟩ := h
      simp
    | cons cur rest =>
      unfold Cell.clearTrace at h
      by_cases hv : cur ∈ v
      · simp only [hv, if_true] at h
        obtain ⟨h1, h2, h3, h4⟩ := ih s rest v log r h
        refine ⟨h1, h2, fun p hp => ?_, fun s' hs' => ?_⟩
        · obtain ⟨q, hq, hreach⟩ := h3 p hp
          exact ⟨q, List.mem_cons_of_mem _ hq, hreach⟩
        · obtain ⟨h5, h6, h7⟩ := h4 s' hs'
          refine ⟨h5, fun p hp => ?_, h7⟩
          rcases List.mem_cons.mp hp with rfl | hp'
          · exact Or.inr hv
          · exact h6 p hp'
      · simp only [hv, if_false] at h
        cases hc : Sheet.GetCell s cur with
        | none =>
          simp only [hc, Option.some.injEq, Prod.mk.injEq] at h
          obtain ⟨rfl, rfl⟩ := h
          refine ⟨by simp, by simpa using hv, fun p hp => ?_, fun s' hs' => by simp at hs'⟩
          simp only [List.mem_singleton] at hp
          subst hp
          exact ⟨p, List.mem_cons_self _ _, Relation.ReflTransGen.refl⟩
        | some c =>
          simp only [hc, Option.map_eq_some', Prod.mk.injEq] at h
          obtain ⟨⟨log', r'⟩, hsub, rfl, rfl⟩ := h
          obtain ⟨h1, h2, h3, h4⟩ := ih _ _ _ log' r' hsub
          have hinfl : ∀ p, Sheet.infl (Cell.ClearCache s cur) p = Sheet.infl s p :=
            fun p => infl_modify (fun c => { c with cache_ := none }) (fun _ => rfl) s cur p
          rw [Influences_ClearCache] at h3
          have hcur : cur ∉ log' := fun hmem => h2 cur hmem (List.mem_cons_self _ _)
          refine ⟨List.nodup_cons.mpr ⟨hcur, h1⟩, fun p hp => ?_, fun p hp => ?_,
            fun s' hs' => ?_⟩
          · rcases List.mem_cons.mp hp with rfl | hp'
            · exact hv
            · exact fun hpv => h2 p hp' (List.mem_cons_of_mem _ hpv)
          · rcases List.mem_cons.mp hp with rfl | hp'
            · exact ⟨p, List.mem_cons_self _ _, Relation.ReflTransGen.refl⟩
            · obtain ⟨q, hq, hreach⟩ := h3 p hp'
              rcases mem_AddToStack.mp hq with hq | hq
              · refine ⟨cur, List.mem_cons_self _ _, Relation.ReflTransGen.head ?_ hreach⟩
                show q ∈ Sheet.infl s cur
                rw [infl_of_GetCell hc]
                exact hq
              · exact ⟨q, List.mem_cons_of_mem _ hq, hreach⟩
          · obtain ⟨h5, h6, h7⟩ := h4 s' hs'
            refine ⟨by rw [h5]; rfl, fun p hp => ?_, fun p hp q hq => ?_⟩
            · rcases List.mem_cons.mp hp with rfl | hp'
              · exact Or.inl (List.mem_cons_self _ _)
              · rcases h6 p (mem_AddToStack.mpr (Or.inr hp')) with h | h
                · exact Or.inl (List.mem_cons_of_mem _ h)
                · rcases List.mem_cons.mp h with rfl | h
                  · exact Or.inl (List.mem_cons_self _ _)
                  · exact Or.inr h
            · have hq' : q ∈ log' ∨ q ∈ cur :: v := by
                rcases List.mem_cons.mp hp with rfl | hp'
                · rw [infl_of_GetCell hc] at hq
                  exact h6 q (mem_AddToStack.mpr (Or.inl hq))
                · exact h7 p hp' q (by rw [hinfl]; exact hq)
              rcases hq' with h | h
              · exact Or.inl (List.mem_cons_of_mem _ h)
              · rcases List.mem_cons.mp h with rfl | h
                · exact Or.inl (List.mem_cons_self _ _)
                · exact Or.inr h

/-- The loop of `ClearCaches` does not dereference a missing cell when the cells on the
stack and the members of all `influence_` sets exist. -/
theorem clearTrace_defined :
    ∀ (n : Nat) (s : Sheet) (stack v : List Position) (log : List Position)
      (r : Outcome Unit),
      Cell.clearTrace n s stack v = some (log, r) →
      (∀ p ∈ stack, Sheet.GetCell s p ≠ none) →
      (∀ p q, q ∈ Sheet.infl s p → Sheet.GetCell s q ≠ none) →
      ∃ s', r = .ok () s' := by
  intro n
  induction n with
  | zero =>
    intro s stack v log r h _ _
    cases stack with
    | nil =>
      simp only [Cell.clearTrace, Option.some.injEq, Prod.mk.injEq] at h
      exact ⟨s, h.2.symm⟩
    | cons x xs => simp [Cell.clearTrace] at h
  | succ n ih =>
    intro s stack v log r h hst hcl
    cases stack with
    | nil =>
      simp only [Cell.clearTrace, Option.some.injEq, Prod.mk.injEq] at h
      exact ⟨s, h.2.symm⟩
    | cons cur rest =>
      unfold Cell.clearTrace at h
      by_cases hv : cur ∈ v
      · simp only [hv, if_true] at h
        exact ih s rest v log r h (fun p hp => hst p (List.mem_cons_of_mem _ hp)) hcl
      · simp only [hv, if_false] at h
        cases hc : Sheet.GetCell s cur with
        | none => exact absurd hc (hst cur (List.mem_cons_self _ _))
        | some c =>
          simp only [hc, Option.map_eq_some', Prod.mk.injEq] at h
          obtain ⟨⟨log', r'⟩, hsub, _, rfl⟩ := h
          have hex : ∀ p, Sheet.GetCell s p ≠ none →
              Sheet.GetCell (Cell.ClearCache s cur) p ≠ none := by
            intro p hp
            rw [Cell.ClearCache, GetCell_modify]
            split_ifs
            · cases hcp : Sheet.GetCell s p with
              | none => exact absurd hcp hp
              | some cp => simp
            · exact hp
          refine ih _ _ _ log' r' hsub (fun p hp => hex p ?_) (fun p q hq => hex q ?_)
          · rcases mem_AddToStack.mp hp with hp | hp
            · exact hcl cur p (by rw [infl_of_GetCell hc]; exact hp)
            · exact hst p (List.mem_cons_of_mem _ hp)
          · have hinfl : Sheet.infl (Cell.ClearCache s cur) p = Sheet.infl s p :=
              infl_modify (fun c => { c with cache_ := none }) (fun _ => rfl) s cur p
            rw [hinfl] at hq
            exact hcl p q hq

/-- The record of `ClearCaches`: its loop ends within the fuel, and the cells it expands
are those of the record. -/
theorem expandedCells_eq {s : Sheet} {self : Position} {this : Cell}
    (hc : Sheet.GetCell s self = some this) :
    ∃ r, Cell.clearTrace ((Cell.CreateStack this.influence_).length + Sheet.influenceTotal s)
        s (Cell.CreateStack this.influence_) [] = some (Cell.expandedCells s self, r) ∧
      Cell.ClearCaches s self
        = match r with
          | .ok () s' => .ok () (Cell.ClearCache s' self)
          | _ => .undefined := by
  obtain ⟨r, hr, heq⟩ := ClearCaches_eq hc
  have h := clearTrace_outcome
    ((Cell.CreateStack this.influence_).length + Sheet.influenceTotal s) s
    (Cell.CreateStack this.influence_) []
  rw [hr] at h
  simp only [Option.map_eq_some'] at h
  obtain ⟨⟨log, r'⟩, hlog, hr'⟩ := h
  simp only at hr'
  subst hr'
  refine ⟨r', ?_, heq⟩
  simp only [Cell.expandedCells, hc, hlog]

/-- What `ClearCaches` does, in terms of its record: the record has no cell twice and
holds cells reached from the cell; the call returns when all members of `influence_`
sets exist; and when it returns, the record holds exactly the cells reached and the
caches reset are those of the record and then that of the cell itself. -/
theorem ClearCaches_record {s : Sheet} {self : Position} {this : Cell}
    (hc : Sheet.GetCell s self = some this) :
    (Cell.expandedCells s self).Nodup ∧
    (∀ p ∈ Cell.expandedCells s self, Relation.TransGen (Influences s) self p) ∧
    ((∀ p q, q ∈ Sheet.infl s p → Sheet.GetCell s q ≠ none) →
      ∃ s', Cell.ClearCaches s self = .ok () s') ∧
    (∀ s', Cell.ClearCaches s self = .ok () s' →
      s' = (Cell.cacheResets s self).foldl Cell.ClearCache s ∧
      (∀ p, p ∈ Cell.expandedCells s self ↔ Relation.TransGen (Influences s) self p) ∧
      ((Cell.cacheResets s self).Nodup ↔ ¬ Relation.TransGen (Influences s) self self)) := by
  obtain ⟨r, htrace, heq⟩ := expandedCells_eq hc
  obtain ⟨hnd, _, hreach, hok⟩ := clearTrace_spec _ _ _ _ _ _ htrace
  have hsound : ∀ p ∈ Cell.expandedCells s self,
      Relation.TransGen (Influences s) self p := by
    intro p hp
    obtain ⟨q, hq, hqp⟩ := hreach p hp
    refine Relation.TransGen.head' ?_ hqp
    show q ∈ Sheet.infl s self
    rw [infl_of_GetCell hc]
    exact mem_CreateStack.mp hq
  refine ⟨hnd, hsound, fun hcl => ?_, fun s' hs' => ?_⟩
  · obtain ⟨s1, hs1⟩ := clearTrace_defined _ _ _ _ _ _ htrace
      (fun p hp => hcl self p (by
        rw [infl_of_GetCell hc]; exact mem_CreateStack.mp hp)) hcl
    subst hs1
    exact ⟨_, heq⟩
  · rw [heq] at hs'
    cases r with
    | formulaException _ => simp at hs'
    | circularDependency _ => simp at hs'
    | undefined => simp at hs'
    | ok x s1 =>
      simp only [Outcome.ok.injEq, true_and] at hs'
      obtain ⟨hs1, hstack, hclosed⟩ := hok s1 rfl
      have hcomplete : ∀ p, Relation.TransGen (Influences s) self p →
          p ∈ Cell.expandedCells s self := by
        intro p hp
        obtain ⟨q, hsq, hqp⟩ := Relation.TransGen.head'_iff.mp hp
        have hq : q ∈ Cell.expandedCells s self := by
          have hq' : q ∈ this.influence_ := by
            have : q ∈ Sheet.infl s self := hsq
            rwa [infl_of_GetCell hc] at this
          rcases hstack q (mem_CreateStack.mpr hq') with h | h
          · exact h
          · simp at h
        clear hsq hp
        induction hqp with
        | refl => exact hq
        | tail _ hbc ih =>
          rcases hclosed _ ih _ hbc with h | h
          · exact h
          · simp at h
      have hiff : ∀ p, p ∈ Cell.expandedCells s self
          ↔ Relation.TransGen (Influences s) self p :=
        fun p => ⟨hsound p, hcomplete p⟩
      refine ⟨?_, hiff, ?_⟩
      · rw [← hs', hs1, Cell.cacheResets, List.foldl_append]
        rfl
      · rw [Cell.cacheResets, List.nodup_append]
        simp only [hnd, List.nodup_singleton, true_and, ← hiff self]
        simp only [List.Disjoint, List.mem_singleton]
        exact ⟨fun h hmem => h hmem rfl, fun h a ha haself => h (haself ▸ ha)⟩

/-! ## The frame of a commit -/

theorem reach_Refers_of_Influences {s : Sheet} (hinv : ReverseEdgesExact s)
    {x y : Position} (h : Relation.ReflTransGen (Influences s) x y) :
    Relation.ReflTransGen (Refers s) y x := by
  obtain ⟨h1, _, _⟩ := (ReverseEdgesExact_iff s).mp hinv
  induction h with
  | refl => exact Relation.ReflTransGen.refl
  | @tail b c _ hbc ih =>
    exact Relation.ReflTransGen.head ((h1 c b).mp hbc) ih

/-- The cells a committing `Set` leaves behind in an acyclic sheet: the edited cell
keeps its `influence_` set, every other cell keeps its content, and what can change in
its `influence_` set and its cache is bounded; a new cell is empty. -/
theorem Set_commit_cells {parse : String → Option FormulaAST} {s : Sheet}
    {self : Position} {text : String} {this : Cell} {s' : Sheet}
    (hc : Sheet.GetCell s self = some this) (hne : text ≠ this.impl_.GetText)
    (h : Cell.Set parse s self text = .ok () s') (hac : Acyclic s) :
    (∃ c', Sheet.GetCell s' self = some c' ∧ c'.influence_ = this.influence_) ∧
    (∀ p c, p ≠ self → Sheet.GetCell s p = some c →
      ∃ c', Sheet.GetCell s' p = some c' ∧ c'.impl_ = c.impl_ ∧
        (∀ z, z ≠ self → (z ∈ c'.influence_ ↔ z ∈ c.influence_)) ∧
        (c'.influence_ ≠ c.influence_ →
          p ∈ this.GetReferencedCells ∨ p ∈ Sheet.refs s' self) ∧
        (c'.cache_ ≠ c.cache_ →
          c'.cache_ = none ∧ Relation.TransGen (Influences s) self p)) ∧
    (∀ p c', Sheet.GetCell s p = none → Sheet.GetCell s' p = some c' →
      c'.impl_ = .EmptyImpl ∧ c'.cache_ = none ∧
      (c'.influence_ = [] ∨ c'.influence_ = [self])) := by
  obtain ⟨s1, impl, W, hmat, hnew, hW, hs'⟩ := Set_commit hc hne h
  have hc1 := hmat.1 self this hc
  have hself := hs' self
  rw [hc1] at hself
  simp only [if_true] at hself
  have hrs : Sheet.refs s' self = impl.GetReferencedCells := by
    unfold Sheet.refs
    rw [hself]
    rfl
  have hold : self ∉ this.impl_.GetReferencedCells := by
    intro hmem
    refine hac self (Relation.TransGen.single ?_)
    show self ∈ Sheet.refs s self
    rw [refs_of_GetCell hc]
    exact hmem
  have hnw : self ∉ impl.GetReferencedCells := fun hmem =>
    NewContent_unreachable (by simp [hc]) hnew self hmem Relation.ReflTransGen.refl
  refine ⟨⟨_, hself, by simp [relink, hold, hnw]⟩, fun p c hps hp => ?_,
    fun p c' hnone hp' => ?_⟩
  · have hp1 := hmat.1 p c hp
    have hsp := hs' p
    rw [hp1] at hsp
    simp only [hps, if_false] at hsp
    refine ⟨_, hsp, rfl, fun z hz => ?_, fun hinfl => ?_, fun hcache => ?_⟩
    · simp only [mem_relink]
      constructor
      · rintro (⟨_, hzs⟩ | ⟨hzl, _⟩)
        · exact absurd hzs hz
        · exact hzl
      · exact fun hzl => Or.inr ⟨hzl, fun _ => hz⟩
    · by_contra hno
      simp only [not_or, Cell.GetReferencedCells, hrs] at hno
      exact hinfl (by simp [relink, hno.1, hno.2])
    · by_cases hpW : p ∈ W
      · refine ⟨by simp [hpW], ?_⟩
        rcases Relation.reflTransGen_iff_eq_or_transGen.mp ((hW p).mp hpW) with heq | ht
        · exact absurd heq hps
        · exact ht
      · simp [hpW] at hcache
  · have hps : p ≠ self := by
      rintro rfl
      rw [hc] at hnone
      simp at hnone
    have hsp := hs' p
    rw [hp'] at hsp
    rcases hmat.2 p hnone with h1 | h1
    · simp only [h1] at hsp
      by_cases hm : p ∈ impl.GetReferencedCells
      · simp only [hm, if_true, Option.some.injEq] at hsp
        subst hsp
        exact ⟨rfl, rfl, Or.inr rfl⟩
      · simp [hm] at hsp
    · simp only [h1, hps, if_false, Option.some.injEq] at hsp
      subst hsp
      refine ⟨rfl, by simp [Cell.new], ?_⟩
      simp only [relink, Cell.new, eraseCell, insertCell]
      split_ifs <;> simp

/-! ## Claims -/

/-! ### C1: Cycle rejection -/

/-- C1 (amended). Cycle rejection: for a formula text that differs from the current
text of the cell `A`, parses, and whose referenced positions reach `A` through forward
references, provided every position the traversal can reach has a slot in the visited
matrix, `Set` throws `CircularDependencyException`; afterwards every cell that existed
before is unchanged (content, cache, `influence_` set), and the only difference is
that positions without a cell which the traversal reached now hold fresh empty cells.
For the text that references `A` alone the sheet is exactly as before. -/
theorem Set_rejects_cycle (parse : String → Option FormulaAST) (s : Sheet)
    (self : Position) (this : Cell) (text : String) (f : Formula)
    (hc : Sheet.GetCell s self = some this) (hne : text ≠ this.GetText)
    (hfront : front text = FORMULA_SIGN) (hlen : text.length ≠ 1)
    (hp : ParseFormula parse (substr text 1) = some f)
    (hb : ∀ q ∈ f.GetReferencedCells, ∀ p,
      Relation.ReflTransGen (RefersAvoiding s self) q p → inBounds s p)
    (hreach : ∃ q ∈ f.GetReferencedCells, Relation.ReflTransGen (Refers s) q self) :
    ∃ s', Cell.Set parse s self text = .circularDependency s' ∧
      (∀ p c, Sheet.GetCell s p = some c → Sheet.GetCell s' p = some c) ∧
      (∀ p, Sheet.GetCell s p = none → Sheet.GetCell s' p ≠ none →
        Sheet.GetCell s' p = some Cell.new ∧
        ∃ q ∈ f.GetReferencedCells, Relation.ReflTransGen (RefersAvoiding s self) q p) ∧
      (f.GetReferencedCells = [self] → s' = s) := by
  have hf : isFormulaText text = true := by
    simp [isFormulaText, hfront, hlen]
  have hself : Sheet.GetCell s self ≠ none := by simp [hc]
  obtain ⟨s', hs'⟩ := CheckForCircularDependencies_throws hself hb hreach
  obtain ⟨hmat, hprov⟩ := CheckForCircularDependencies_state
    (by rw [hs']; rfl : (Cell.CheckForCircularDependencies s self
      f.GetReferencedCells).state = some s')
  refine ⟨s', ?_, hmat.1, fun p hp1 hp2 => ⟨?_, hprov p hp1 hp2⟩, fun hrefs => ?_⟩
  · rw [Set_formula_unfold hc hne hf hp, hs']
  · rcases hmat.2 p hp1 with h | h
    · exact absurd h hp2
    · exact h
  · rw [hrefs, CheckForCircularDependencies_self hc] at hs'
    simp only [Outcome.circularDependency.injEq] at hs'
    exact hs'.symm

theorem Set_rejects_cycle_witness :
    Sheet.GetCell sheetAC A1 = some Cell.new ∧
      ∃ s', Cell.Set exampleParse sheetAC A1 "=A1+B1" = .circularDependency s' ∧
        (∀ p c, Sheet.GetCell sheetAC p = some c → Sheet.GetCell s' p = some c) ∧
        (∀ p, Sheet.GetCell sheetAC p = none → Sheet.GetCell s' p ≠ none →
          Sheet.GetCell s' p = some Cell.new ∧
          ∃ q ∈ Formula.GetReferencedCells { ast_ := sumAST A1 B1 "A1+B1" },
            Relation.ReflTransGen (RefersAvoiding sheetAC A1) q p) ∧
        (Formula.GetReferencedCells { ast_ := sumAST A1 B1 "A1+B1" } = [A1] → s' = sheetAC) :=
  ⟨rfl, Set_rejects_cycle exampleParse sheetAC A1 Cell.new "=A1+B1"
    { ast_ := sumAST A1 B1 "A1+B1" } rfl (by decide) (by decide) (by decide) rfl
    (by
      intro q hq p hqp
      have hpq : p = q := by
        rcases Relation.ReflTransGen.cases_head hqp with h | ⟨c, hqc, _⟩
        · exact h.symm
        · have := hqc.2
          simp [Refers, refs_sheetAC] at this
      subst hpq
      simp only [Formula.GetReferencedCells, sumAST, List.mem_cons, List.mem_singleton,
        List.mem_nil_iff, or_false] at hq
      rcases hq with rfl | rfl <;> exact ⟨by decide, by decide⟩)
    ⟨A1, by simp [Formula.GetReferencedCells, sumAST], Relation.ReflTransGen.refl⟩⟩

/-- C1 (counterexample). On a sheet with cells at `A1` and `C1` only, `Set(A1, "=A1+B1")`
throws `CircularDependencyException`, but the sheet is not as before: `B1`, which held
no cell, now holds one. On the sheet with the cell `A1` alone the same call does not
throw at all: the lookup of `B1` in the visited matrix is out of range. -/
theorem Set_rejects_cycle_counterexample :
    Cell.Set exampleParse sheetAC A1 "=A1+B1"
        = .circularDependency (sheetAC ++ [(B1, Cell.new)]) ∧
      Sheet.GetCell sheetAC B1 = none ∧
      Sheet.GetCell (sheetAC ++ [(B1, Cell.new)]) B1 = some Cell.new ∧
      Cell.Set exampleParse sheetA A1 "=A1+B1" = .undefined :=
  ⟨rfl, rfl, rfl, rfl⟩

/-! ### C2: Acyclicity -/

/-- C2. Acyclicity is an invariant of `Set`: from a sheet whose forward-reference graph
has no cycle, the sheet that `Set` leaves behind, whether it returns or throws, again
has no cycle (and so no self-reference). -/
theorem Set_preserves_acyclic (parse : String → Option FormulaAST) (s : Sheet)
    (self : Position) (text : String) (s' : Sheet)
    (hac : Acyclic s) (h : (Cell.Set parse s self text).state = some s') :
    Acyclic s' := by
  cases hset : Cell.Set parse s self text with
  | undefined => simp [hset, Outcome.state] at h
  | formulaException s2 =>
    simp only [hset, Outcome.state, Option.some.injEq] at h
    subst h
    exact (Set_exception_state (Or.inl hset)).keeps_acyclic hac
  | circularDependency s2 =>
    simp only [hset, Outcome.state, Option.some.injEq] at h
    subst h
    exact (Set_exception_state (Or.inr hset)).keeps_acyclic hac
  | ok u s2 =>
    simp only [hset, Outcome.state, Option.some.injEq] at h
    subst h
    cases hc : Sheet.GetCell s self with
    | none => simp [Cell.Set, hc] at hset
    | some this =>
      by_cases hne : text = this.impl_.GetText
      · have : Cell.Set parse s self text = .ok () s := by
          unfold Cell.Set
          simp only [hc]
          rw [if_pos hne]
        rw [this] at hset
        simp only [Outcome.ok.injEq, true_and] at hset
        subst hset
        exact hac
      · exact Set_commit_acyclic hc hne hset hac

theorem Set_preserves_acyclic_witness :
    Acyclic sheetAC ∧
      Acyclic
        sheetACLinked :=
  ⟨Acyclic_sheetAC,
    Set_preserves_acyclic exampleParse sheetAC A1 "=B1" _ Acyclic_sheetAC rfl⟩

/-! ### C3: Reverse edges -/

/-- C3. Reverse edges stay the exact inverse of the forward references: if they are
before `Set` commits a text that differs from the current one, they are afterwards;
every position referenced by the new content then holds a cell whose `influence_`
contains the edited cell, and no cell that only the old content referenced keeps the
edited cell in its `influence_`. -/
theorem Set_commit_keeps_reverse_edges (parse : String → Option FormulaAST) (s : Sheet)
    (self : Position) (this : Cell) (text : String) (s' : Sheet)
    (hc : Sheet.GetCell s self = some this) (hne : text ≠ this.GetText)
    (h : Cell.Set parse s self text = .ok () s')
    (hinv : ReverseEdgesExact s) :
    ReverseEdgesExact s' ∧
      (∀ p ∈ Sheet.refs s' self, ∃ c, Sheet.GetCell s' p = some c ∧ self ∈ c.influence_) ∧
      (∀ p ∈ this.GetReferencedCells, p ∉ Sheet.refs s' self →
        ∀ c, Sheet.GetCell s' p = some c → self ∉ c.influence_) := by
  have hinv' : ReverseEdgesExact s' := Set_commit_reverseEdges hc hne h hinv
  obtain ⟨hI1, hI2, _⟩ := (ReverseEdgesExact_iff s').mp hinv'
  refine ⟨hinv', fun p hp => ?_, fun p _ hpn c hpc hmem => ?_⟩
  · cases hpc : Sheet.GetCell s' p with
    | none => exact absurd hpc (hI2 self p hp)
    | some c =>
      refine ⟨c, rfl, ?_⟩
      rw [← infl_of_GetCell hpc]
      exact (hI1 self p).mpr hp
  · rw [← infl_of_GetCell hpc] at hmem
    exact hpn ((hI1 self p).mp hmem)

theorem Set_commit_keeps_reverse_edges_witness :
    ReverseEdgesExact sheetAC ∧
      (ReverseEdgesExact
          sheetACLinked ∧
        (∀ p ∈ Sheet.refs
            sheetACLinked A1,
          ∃ c, Sheet.GetCell
              sheetACLinked p = some c ∧
            A1 ∈ c.influence_) ∧
        (∀ p ∈ Cell.new.GetReferencedCells,
          p ∉ Sheet.refs
            sheetACLinked A1 →
          ∀ c, Sheet.GetCell
              sheetACLinked p = some c →
            A1 ∉ c.influence_)) :=
  ⟨ReverseEdgesExact_sheetAC,
    Set_commit_keeps_reverse_edges exampleParse sheetAC A1 Cell.new "=B1" _ rfl (by decide)
      rfl ReverseEdgesExact_sheetAC⟩

/-! ### C4: Transitive invalidation -/

/-- C4. Transitive invalidation: after `Set` commits a text that differs from the
current text of the cell `A`, the cache is empty for `A` itself and for every cell
reachable from `A` through `influence_` sets in any number of steps (along whatever
paths; taken in the sheet before the call or after it), and every such cell that
existed before still exists. -/
theorem Set_commit_invalidates (parse : String → Option FormulaAST) (s : Sheet)
    (self : Position) (this : Cell) (text : String) (s' : Sheet)
    (hc : Sheet.GetCell s self = some this) (hne : text ≠ this.GetText)
    (h : Cell.Set parse s self text = .ok () s') :
    (∃ c', Sheet.GetCell s' self = some c' ∧ c'.cache_ = none) ∧
      ∀ p, (Relation.ReflTransGen (Influences s) self p ∨
          Relation.ReflTransGen (Influences s') self p) →
        (Sheet.GetCell s p ≠ none → Sheet.GetCell s' p ≠ none) ∧
        ∀ c', Sheet.GetCell s' p = some c' → c'.cache_ = none := by
  obtain ⟨s1, impl, W, hmat, _, hW, hs'⟩ := Set_commit hc hne h
  obtain ⟨hinfl, hkeep, _⟩ := Set_commit_infl hc hne h
  have hclear : ∀ p, Relation.ReflTransGen (Influences s) self p →
      ∀ c', Sheet.GetCell s' p = some c' → c'.cache_ = none := by
    intro p hp c' hc'
    have hpW : p ∈ W := (hW p).mpr hp
    rw [hs' p] at hc'
    cases hp1 : Sheet.GetCell s1 p with
    | some c =>
      simp only [hp1, Option.some.injEq] at hc'
      subst hc'
      simp [hpW]
    | none =>
      simp only [hp1] at hc'
      split_ifs at hc'
      simp only [Option.some.injEq] at hc'
      subst hc'
      rfl
  have hpost : ∀ p, Relation.ReflTransGen (Influences s') self p →
      Relation.ReflTransGen (Influences s) self p := by
    intro p
    apply reach_of_edges_into_self
    intro y z hyz hz
    simp only [Influences, hinfl y, mem_relink] at hyz
    rcases hyz with ⟨_, hzs⟩ | ⟨hyz, _⟩
    · exact absurd hzs hz
    · exact hyz
  refine ⟨?_, fun p hp => ⟨hkeep p, ?_⟩⟩
  · cases hcs : Sheet.GetCell s' self with
    | none => exact absurd hcs (hkeep self (by simp [hc]))
    | some c' => exact ⟨c', rfl, hclear self Relation.ReflTransGen.refl c' hcs⟩
  · rcases hp with hp | hp
    · exact hclear p hp
    · exact hclear p (hpost p hp)

theorem Set_commit_invalidates_witness :
    Cell.Set exampleParse sheetDiamond A1 "5" = .ok () sheetDiamondEdited ∧
      Relation.ReflTransGen (Influences sheetDiamond) A1 D1 ∧
      ((Sheet.GetCell sheetDiamond D1 ≠ none → Sheet.GetCell sheetDiamondEdited D1 ≠ none) ∧
        ∀ c', Sheet.GetCell sheetDiamondEdited D1 = some c' → c'.cache_ = none) :=
  have hreach : Relation.ReflTransGen (Influences sheetDiamond) A1 D1 :=
    Relation.ReflTransGen.single (by decide : D1 ∈ Sheet.infl sheetDiamond A1)
  ⟨rfl, hreach,
    (Set_commit_invalidates exampleParse sheetDiamond A1 _ "5" sheetDiamondEdited rfl
      (by decide) rfl).2 D1 (Or.inl hreach)⟩

/-! ### C5: Cache validity -/

/-- C5. Cache validity: in every sheet reachable from the empty sheet by creating
cells and calling `Set` and `GetValue` (with a parser whose trees list every position
they read), every cached value is the value of the cell evaluated from scratch with
all caches ignored; `GetValue` returns for every cell once the depth bound is large
enough, and whatever it returns is the value evaluated from scratch. -/
theorem cache_is_valid (parse : String → Option FormulaAST)
    (stod : String → Option Double) (s : Sheet)
    (hparse : ParseSound parse) (hr : Reachable parse stod s) :
    (∀ x c v, Sheet.GetCell s x = some c → c.cache_ = some v →
      ∃ n, Cell.valuePure stod s n x = some v) ∧
    (∀ x, Sheet.GetCell s x ≠ none →
      ∃ n v s', ∀ m, n ≤ m → Cell.GetValue stod m s x = some (v, s')) ∧
    (∀ x n v s', Cell.GetValue stod n s x = some (v, s') →
      (∃ m, Cell.valuePure stod s m x = some v) ∧
      ∀ m w, Cell.valuePure stod s m x = some w → w = v) := by
  obtain ⟨hac, hinv, hs, hcv⟩ := hr.invariant hparse
  obtain ⟨_, hrefs, _⟩ := (ReverseEdgesExact_iff s).mp hinv
  refine ⟨hcv, fun x hx => ?_, fun x n v s' hget => ?_⟩
  · obtain ⟨n, v, s', hget⟩ :=
      GetValue_returns stod hac hrefs hs x hx s (SameContent.refl s) hcv
    exact ⟨n, v, s', fun m hm => GetValue_mono stod hm hget⟩
  · obtain ⟨_, _, m, hm⟩ := GetValue_correct stod n s x v s' hcv hget
    exact ⟨⟨m, hm⟩, fun m' w hw => valuePure_unique stod s hm hw⟩

theorem cache_is_valid_witness :
    ParseSound exampleParse ∧ Reachable exampleParse exampleStod sheetLinked ∧
      ((∀ x c v, Sheet.GetCell sheetLinked x = some c → c.cache_ = some v →
        ∃ n, Cell.valuePure exampleStod sheetLinked n x = some v) ∧
      (∀ x, Sheet.GetCell sheetLinked x ≠ none →
        ∃ n v s', ∀ m, n ≤ m → Cell.GetValue exampleStod m sheetLinked x = some (v, s')) ∧
      (∀ x n v s', Cell.GetValue exampleStod n sheetLinked x = some (v, s') →
        (∃ m, Cell.valuePure exampleStod sheetLinked m x = some v) ∧
        ∀ m w, Cell.valuePure exampleStod sheetLinked m x = some w → w = v)) :=
  ⟨ParseSound_exampleParse, Reachable_sheetLinked,
    cache_is_valid exampleParse exampleStod sheetLinked ParseSound_exampleParse
      Reachable_sheetLinked⟩

/-! ### C6: Idempotent no-op -/

/-- C6. Idempotent no-op: `Set` with the text the cell already has returns normally and
leaves the whole sheet as it is (contents, caches, `influence_` sets, set of cells),
whatever the parser would do with the text: nothing is parsed or checked. -/
theorem Set_current_text_is_noop (parse : String → Option FormulaAST) (s : Sheet)
    (self : Position) (this : Cell) (text : String)
    (hc : Sheet.GetCell s self = some this) (ht : text = this.GetText) :
    Cell.Set parse s self text = .ok () s := by
  have ht' : text = this.impl_.GetText := ht
  unfold Cell.Set
  simp only [hc]
  rw [if_pos ht']

theorem Set_current_text_is_noop_witness :
    Sheet.GetCell sheetLinked A1
        = some { impl_ := .FormulaImpl { ast_ := refAST B1 "B1" }, influence_ := [],
                 cache_ := some (.num 5) } ∧
      Cell.Set (fun _ => none) sheetLinked A1 "=B1" = .ok () sheetLinked :=
  ⟨rfl, Set_current_text_is_noop (fun _ => none) sheetLinked A1 _ "=B1" rfl rfl⟩

/-! ### C7: Parse failure -/

/-- C7. Parse-failure atomicity: for a text that starts with the formula sign, is not of
length one and whose remainder the parser rejects, the sheet after `Set` is exactly as
before (contents, caches, `influence_` sets, set of cells), and `Set` throws
`FormulaException`; only for the text that the cell already has does it return at its
first test instead, before anything is parsed. -/
theorem Set_parse_failure_is_atomic (parse : String → Option FormulaAST) (s : Sheet)
    (self : Position) (this : Cell) (text : String)
    (hc : Sheet.GetCell s self = some this)
    (hfront : front text = FORMULA_SIGN) (hlen : text.length ≠ 1)
    (hrej : parse (substr text 1) = none) :
    (Cell.Set parse s self text).state = some s ∧
      (text ≠ this.GetText → Cell.Set parse s self text = .formulaException s) := by
  have hf : isFormulaText text = true := by
    simp [isFormulaText, hfront, hlen]
  have hthrow : text ≠ this.GetText → Cell.Set parse s self text = .formulaException s := by
    intro hne
    rw [Set_of_ne hc hne]
    simp [Cell.CreateFormulaImpl, hf, ParseFormula, hrej]
  refine ⟨?_, hthrow⟩
  by_cases hne : text = this.GetText
  · have hnoop : Cell.Set parse s self text = .ok () s := by
      have hne' : text = this.impl_.GetText := hne
      unfold Cell.Set
      simp only [hc]
      rw [if_pos hne']
    rw [hnoop]
    rfl
  · rw [hthrow hne]
    rfl

theorem Set_parse_failure_is_atomic_witness :
    Sheet.GetCell sheetLinked A1
        = some { impl_ := .FormulaImpl { ast_ := refAST B1 "B1" }, influence_ := [],
                 cache_ := some (.num 5) } ∧
      (Cell.Set exampleParse sheetLinked A1 "=B1+").state = some sheetLinked ∧
      Cell.Set exampleParse sheetLinked A1 "=B1+" = .formulaException sheetLinked :=
  have h := Set_parse_failure_is_atomic exampleParse sheetLinked A1 _ "=B1+" rfl
    (by decide) (by decide) rfl
  ⟨rfl, h.1, h.2 (by decide)⟩

/-! ### C8: `Clear` against `Set` with the empty text -/

/-- C8 (evaluation at the failing input). The sheet `sheetLinked` arises from fresh
cells `A1`, `B1` by `Set(B1, "5")`, `Set(A1, "=B1")` and `GetValue(A1)`. On it, `Set(A1, "")`
removes `A1` from the `influence_` set of `B1` and resets the cache of `A1`, while
`Clear(A1)` leaves `A1` in the `influence_` set of `B1` and keeps the cached number: the
two sheets differ. -/
theorem Clear_differs_from_Set_empty :
    Cell.Set exampleParse [(A1, Cell.new), (B1, Cell.new)] B1 "5" = .ok () sheetAB ∧
      Cell.Set exampleParse sheetAB A1 "=B1" = .ok () sheetLinkedFresh ∧
      Cell.GetValue exampleStod 2 sheetLinkedFresh A1 = some (.num 5, sheetLinked) ∧
      Cell.Set exampleParse sheetLinked A1 "" = .ok () sheetLinkedEmptied ∧
      Cell.Clear sheetLinked A1 = sheetLinkedCleared ∧
      Sheet.infl sheetLinkedEmptied B1 = [] ∧
      Sheet.infl sheetLinkedCleared B1 = [A1] ∧
      (Sheet.GetCell sheetLinkedEmptied A1).map Cell.cache_ = some none ∧
      (Sheet.GetCell sheetLinkedCleared A1).map Cell.cache_ = some (some (.num 5)) :=
  ⟨rfl, rfl, rfl, rfl, rfl, rfl, rfl, rfl, rfl⟩

/-! ### C9: Value of a cleared cell -/

/-- C9 (evaluation at the failing input). The sheet `sheetTextRead` arises from a fresh
cell `A1` by `Set(A1, "x")` and `GetValue(A1)`. After `Clear(A1)` the text and the
references of the cell are empty, but `GetValue` returns the text `x` cached before
the call instead of the empty text. -/
theorem Clear_keeps_cached_value :
    Cell.Set exampleParse sheetA A1 "x"
        = .ok () [(A1, { impl_ := .TextImpl "x", influence_ := [], cache_ := none })] ∧
      Cell.GetValue exampleStod 1
          [(A1, { impl_ := .TextImpl "x", influence_ := [], cache_ := none })] A1
        = some (.str "x", sheetTextRead) ∧
      (Sheet.GetCell (Cell.Clear sheetTextRead A1) A1).map Cell.GetText = some "" ∧
      (Sheet.GetCell (Cell.Clear sheetTextRead A1) A1).map Cell.GetReferencedCells
        = some [] ∧
      Cell.GetValue exampleStod 1 (Cell.Clear sheetTextRead A1) A1
        = some (.str "x", Cell.Clear sheetTextRead A1) ∧
      Value.str "x" ≠ Value.str "" :=
  ⟨rfl, rfl, rfl, rfl, rfl, by decide⟩

/-! ### C10: Content classification -/

/-- C10. Content classification on commit: when `Set` commits a text that differs from
the cell's current text, the new content is `EmptyImpl` iff the text is empty,
`FormulaImpl` iff the text starts with the formula sign and is not the sign alone, and
`TextImpl` otherwise; `GetText` then returns the text itself for empty and text
content, and the formula sign followed by the canonical print of the expression parsed
from the remainder for formula content. -/
theorem Set_commit_content (parse : String → Option FormulaAST) (s : Sheet)
    (self : Position) (this : Cell) (text : String) (s' : Sheet)
    (hc : Sheet.GetCell s self = some this) (hne : text ≠ this.GetText)
    (h : Cell.Set parse s self text = .ok () s') :
    ∃ c', Sheet.GetCell s' self = some c' ∧
      (c'.impl_ = .EmptyImpl ↔ text = "") ∧
      ((∃ f, c'.impl_ = .FormulaImpl f) ↔ (front text = FORMULA_SIGN ∧ text ≠ "=")) ∧
      ((∃ t, c'.impl_ = .TextImpl t) ↔
        (text ≠ "" ∧ ¬ (front text = FORMULA_SIGN ∧ text ≠ "="))) ∧
      ((c'.impl_ = .EmptyImpl ∨ ∃ t, c'.impl_ = .TextImpl t) → c'.GetText = text) ∧
      (∀ f, c'.impl_ = .FormulaImpl f →
        ParseFormula parse (substr text 1) = some f ∧
        c'.GetText = "=" ++ f.GetExpression) := by
  obtain ⟨s1, impl, W, hmat, hnew, _, hs'⟩ := Set_commit hc hne h
  have hc1 := hmat.1 self this hc
  have hself := hs' self
  rw [hc1] at hself
  simp only [if_true] at hself
  refine ⟨_, hself, ?_⟩
  simp only [Cell.GetText]
  rcases hnew with ⟨ht, hi, _⟩ | ⟨ht, hf, hi, _⟩ | ⟨hf, f, hp, hi, _⟩
  · subst hi
    have hnf : ¬ (front text = FORMULA_SIGN ∧ text ≠ "=") := by
      rw [← isFormulaText_iff_front, ht]; decide
    refine ⟨by simp [ht], by simp [hnf], by simp [ht], fun _ => by simp [Impl.GetText, ht],
      fun f hf => by simp at hf⟩
  · subst hi
    have hnf : ¬ (front text = FORMULA_SIGN ∧ text ≠ "=") := by
      rw [← isFormulaText_iff_front, hf]; simp
    exact ⟨by simp [ht], by simp [hnf], by simp [ht, hnf], fun _ => by simp [Impl.GetText],
      fun f hf => by simp at hf⟩
  · subst hi
    have hyf : front text = FORMULA_SIGN ∧ text ≠ "=" := (isFormulaText_iff_front text).mp hf
    have ht : text ≠ "" := isFormulaText_ne_empty hf
    refine ⟨by simp [ht], by simp [hyf], by simp [hyf], fun h => by simp at h, fun g hg => ?_⟩
    simp only [Impl.FormulaImpl.injEq] at hg
    subst hg
    exact ⟨hp, rfl⟩

theorem Set_commit_content_witness :
    Sheet.GetCell sheetAC A1 = some Cell.new ∧
      ∃ c', Sheet.GetCell
          sheetACLinked A1 = some c' ∧
        (c'.impl_ = .EmptyImpl ↔ "=B1" = "") ∧
        ((∃ f, c'.impl_ = .FormulaImpl f) ↔ (front "=B1" = FORMULA_SIGN ∧ "=B1" ≠ "=")) ∧
        ((∃ t, c'.impl_ = .TextImpl t) ↔
          ("=B1" ≠ "" ∧ ¬ (front "=B1" = FORMULA_SIGN ∧ "=B1" ≠ "="))) ∧
        ((c'.impl_ = .EmptyImpl ∨ ∃ t, c'.impl_ = .TextImpl t) → c'.GetText = "=B1") ∧
        (∀ f, c'.impl_ = .FormulaImpl f →
          ParseFormula exampleParse (substr "=B1" 1) = some f ∧
          c'.GetText = "=" ++ f.GetExpression) :=
  ⟨rfl, Set_commit_content exampleParse sheetAC A1 Cell.new "=B1" _ rfl (by decide) rfl⟩

/-! ### C11: Text escaping -/

/-- C11. Text escaping. In a sheet whose caches are valid, after `Set` of the escape
sign followed by any string `rest` the cell holds text content with exactly that text,
`GetText` returns the raw text with the sign, and `GetValue` returns `rest`, the text
without the one leading sign. After a committing `Set` of a text that is not a formula
and does not start with the escape sign, `GetText` and `GetValue` both return the text
unchanged. -/
theorem Set_text_escaping (parse : String → Option FormulaAST)
    (stod : String → Option Double) (s : Sheet) (self : Position) (this : Cell)
    (hc : Sheet.GetCell s self = some this) (hcv : CacheValid stod s) :
    (∀ (rest : String) (s' : Sheet),
      Cell.Set parse s self (String.singleton ESCAPE_SIGN ++ rest) = .ok () s' →
      ∃ c', Sheet.GetCell s' self = some c' ∧
        c'.impl_ = .TextImpl (String.singleton ESCAPE_SIGN ++ rest) ∧
        c'.GetText = String.singleton ESCAPE_SIGN ++ rest ∧
        ∀ n, ∃ s'', Cell.GetValue stod (n + 1) s' self = some (.str rest, s'')) ∧
    (∀ (text : String) (s' : Sheet),
      text ≠ this.GetText → isFormulaText text = false → front text ≠ ESCAPE_SIGN →
      Cell.Set parse s self text = .ok () s' →
      ∃ c', Sheet.GetCell s' self = some c' ∧ c'.GetText = text ∧
        ∀ n, ∃ s'', Cell.GetValue stod (n + 1) s' self = some (.str text, s'')) := by
  constructor
  · intro rest s' h
    have hval : ∀ (s0 : Sheet) (c : Cell), Sheet.GetCell s0 self = some c →
        c.impl_ = .TextImpl (String.singleton ESCAPE_SIGN ++ rest) →
        (∀ v, c.cache_ = some v → v = .str rest) →
        ∀ n, ∃ s'', Cell.GetValue stod (n + 1) s0 self = some (.str rest, s'') := by
      intro s0 c hc0 hi hcache n
      have := GetValue_text stod hc0 hi (by
        intro v hv
        rw [if_pos ⟨escaped_ne_empty rest, front_escaped rest⟩, substr_escaped]
        exact hcache v hv) n
      rw [if_pos ⟨escaped_ne_empty rest, front_escaped rest⟩, substr_escaped] at this
      exact this
    by_cases ht : String.singleton ESCAPE_SIGN ++ rest = this.impl_.GetText
    · have hi := impl_of_escaped_text ht
      simp only [Cell.Set, hc, ht, if_true, Outcome.ok.injEq, true_and] at h
      subst h
      refine ⟨this, hc, hi, by rw [Cell.GetText, hi]; rfl, hval s this hc hi ?_⟩
      intro v hv
      have := hcv.text hc hi v hv
      rw [if_pos ⟨escaped_ne_empty rest, front_escaped rest⟩, substr_escaped] at this
      exact this
    · obtain ⟨c', hc', hcache, hi⟩ := Set_commit_text hc ht (isFormulaText_escaped rest) h
      rw [if_neg (escaped_ne_empty rest)] at hi
      refine ⟨c', hc', hi, by rw [Cell.GetText, hi]; rfl, hval s' c' hc' hi ?_⟩
      intro v hv
      rw [hcache] at hv
      simp at hv
  · intro text s' hne hnf hfront h
    obtain ⟨c', hc', hcache, hi⟩ := Set_commit_text hc hne hnf h
    by_cases ht : text = ""
    · rw [if_pos ht] at hi
      refine ⟨c', hc', by rw [Cell.GetText, hi, ht]; rfl, fun n => ?_⟩
      simp only [Cell.GetValue, hc', hcache, hi, Impl.GetValue, ht]
      exact ⟨_, rfl⟩
    · rw [if_neg ht] at hi
      refine ⟨c', hc', by rw [Cell.GetText, hi]; rfl, fun n => ?_⟩
      have := GetValue_text stod hc' hi (by
        intro v hv
        rw [hcache] at hv
        simp at hv) n
      rw [if_neg (fun hh => hfront hh.2)] at this
      exact this

theorem Set_text_escaping_witness :
    Sheet.GetCell sheetA A1 = some Cell.new ∧
      Cell.Set exampleParse sheetA A1 (String.singleton ESCAPE_SIGN ++ "=5")
        = .ok () [(A1, { impl_ := .TextImpl (String.singleton ESCAPE_SIGN ++ "=5"),
                          influence_ := [], cache_ := none })] ∧
      ∃ c', Sheet.GetCell [(A1, { impl_ := .TextImpl (String.singleton ESCAPE_SIGN ++ "=5"),
                                   influence_ := [], cache_ := none })] A1 = some c' ∧
        c'.impl_ = .TextImpl (String.singleton ESCAPE_SIGN ++ "=5") ∧
        c'.GetText = String.singleton ESCAPE_SIGN ++ "=5" ∧
        ∀ n, ∃ s'', Cell.GetValue exampleStod (n + 1)
          [(A1, { impl_ := .TextImpl (String.singleton ESCAPE_SIGN ++ "=5"),
                  influence_ := [], cache_ := none })] A1 = some (.str "=5", s'') :=
  ⟨rfl, rfl, (Set_text_escaping exampleParse exampleStod sheetA A1 Cell.new rfl
    (CacheValid_sheetA exampleStod)).1 "=5" _ rfl⟩

/-! ### C12: Conversion of text to a number -/

/-- C12 (failing input). Conversion of text to a number in `Formula::Evaluate`: with the
text `1abc` in `A1` and the formula `=A1` in `B1`, `std::stod` converts the prefix `1`
and does not throw, so the formula evaluates to the number 1, the value it has for the
text `1`, and not to the error of category `Value` that it yields for the text `abc`. -/
theorem Evaluate_accepts_numeric_prefix :
    (∃ s1, Cell.Set exampleParse sheetFreshAB A1 "1abc" = .ok () s1 ∧
      Cell.Set exampleParse s1 B1 "=A1" = .ok () (sheetReadsText "1abc")) ∧
    (Cell.GetValue exampleStod 2 (sheetReadsText "1abc") B1).map Prod.fst = some (.num 1) ∧
    (Formula.Evaluate exampleStod (Cell.GetValue exampleStod 1) { ast_ := refAST A1 "A1" }
      (sheetReadsText "1abc")).map Prod.fst = some (.num 1) ∧
    (Cell.GetValue exampleStod 2 (sheetReadsText "1") B1).map Prod.fst = some (.num 1) ∧
    (Cell.GetValue exampleStod 2 (sheetReadsText "abc") B1).map Prod.fst
      = some (.err { category_ := .Value }) :=
  ⟨⟨_, rfl, rfl⟩, rfl, rfl, rfl, rfl⟩

/-! ### C13: Propagation of errors -/

/-- C13. Propagation of errors. For a cell that holds a formula, in a sheet whose caches
are valid: when the evaluation of the formula reads a cell whose value is an error `E`,
`Formula::Evaluate` returns exactly `E` as its value, and `GetValue` of the formula cell,
when it evaluates the formula (no cached value), returns `E` and stores it in the cache;
and whatever `GetValue` of the formula cell returns is a number or an error, never a
text. -/
theorem Evaluate_propagates_error (stod : String → Option Double) (s : Sheet)
    (self : Position) (this : Cell) (f : Formula)
    (hc : Sheet.GetCell s self = some this) (hi : this.impl_ = .FormulaImpl f)
    (hcv : CacheValid stod s) :
    (∀ (n : Nat) (p : Position) (E : FormulaError),
      Formula.ReadsValue stod (Cell.GetValue stod n) f.ast_.run s p (.err E) →
      (∃ s', Formula.Evaluate stod (Cell.GetValue stod n) f s = some (.err E, s')) ∧
      (this.cache_ = none →
        ∃ s', Cell.GetValue stod (n + 1) s self = some (.err E, s') ∧
          (Sheet.GetCell s' self).map (fun c => c.cache_) = some (some (.err E)))) ∧
    (∀ (n : Nat) (v : Value) (s' : Sheet), Cell.GetValue stod n s self = some (v, s') →
      (∃ d, v = .num d) ∨ ∃ e, v = .err e) := by
  constructor
  · intro n p E hread
    obtain ⟨s', hs'⟩ := execute_error hread
    refine ⟨⟨s', hs'⟩, fun hcache => ?_⟩
    have hg : Cell.GetValue stod (n + 1) s self
        = some (.err E, Sheet.modify (fun c => { c with cache_ := some (.err E) }) s' self) := by
      simp only [Cell.GetValue, hc, hcache, hi, Impl.GetValue, Formula.Evaluate, hs']
    refine ⟨_, hg, ?_⟩
    have hsame := (GetValue_correct stod _ _ _ _ _ hcv hg).1 self
    rw [GetCell_modify_self] at hsame ⊢
    cases hc' : Sheet.GetCell s' self with
    | none => simp [hc', hc] at hsame
    | some c0 => rfl
  · intro n v s' h
    cases n with
    | zero => simp [Cell.GetValue] at h
    | succ n =>
      simp only [Cell.GetValue, hc] at h
      cases hcc : this.cache_ with
      | some w =>
        simp only [hcc, Option.some.injEq, Prod.mk.injEq] at h
        obtain ⟨m, hm⟩ := hcv self this w hc hcc
        cases m with
        | zero => simp [Cell.valuePure] at hm
        | succ m =>
          simp only [Cell.valuePure, hc, hi] at hm
          rw [← h.1]
          exact valuePure_formula hm
      | none =>
        simp only [hcc, hi] at h
        cases hg : Impl.GetValue stod (Cell.GetValue stod n) (.FormulaImpl f) s with
        | none => simp [hg] at h
        | some r =>
          obtain ⟨w, s''⟩ := r
          simp only [hg, Option.some.injEq, Prod.mk.injEq] at h
          rw [← h.1]
          exact GetValue_formula hg

theorem Evaluate_propagates_error_witness :
    Sheet.GetCell sheetDiv0 B1
        = some { impl_ := .FormulaImpl { ast_ := refAST A1 "A1" }, influence_ := [],
                 cache_ := none } ∧
      Formula.ReadsValue exampleStod (Cell.GetValue exampleStod 1) (refAST A1 "A1").run
        sheetDiv0 A1 (.err { category_ := .Div0 }) ∧
      (∃ s', Formula.Evaluate exampleStod (Cell.GetValue exampleStod 1)
        { ast_ := refAST A1 "A1" } sheetDiv0 = some (.err { category_ := .Div0 }, s')) :=
  ⟨rfl, Formula.ReadsValue.here A1 _ sheetDiv0 _ _ rfl,
    ((Evaluate_propagates_error exampleStod sheetDiv0 B1 _ { ast_ := refAST A1 "A1" } rfl rfl
      (CacheValid_sheetDiv0 exampleStod)).1 1 A1 { category_ := .Div0 }
      (Formula.ReadsValue.here A1 _ sheetDiv0 _ _ rfl)).1⟩

/-! ### C14: The referenced cells are listed once -/

/-- C14. For a parser whose trees list no position twice in `GetCells()`: after a
committing `Set` of a formula, `GetReferencedCells` of the cell is the list `GetCells()`
of the parsed tree and holds each of its positions exactly once; after a committing
`Set` of any other text, and for every cell with empty or text content, it is the
empty list. -/
theorem Set_commit_lists_references_once (parse : String → Option FormulaAST)
    (hset : ParseCellsSet parse) (s : Sheet) (self : Position) (this : Cell)
    (text : String) (s' : Sheet)
    (hc : Sheet.GetCell s self = some this) (hne : text ≠ this.GetText)
    (h : Cell.Set parse s self text = .ok () s') :
    (∃ c', Sheet.GetCell s' self = some c' ∧
      c'.GetReferencedCells.Nodup ∧
      (isFormulaText text = true →
        ∃ ast, parse (substr text 1) = some ast ∧ c'.GetReferencedCells = ast.cells ∧
          ∀ p ∈ ast.cells, c'.GetReferencedCells.count p = 1) ∧
      (isFormulaText text = false → c'.GetReferencedCells = [])) ∧
    (∀ c : Cell, (c.impl_ = .EmptyImpl ∨ ∃ t, c.impl_ = .TextImpl t) →
      c.GetReferencedCells = []) := by
  constructor
  · obtain ⟨c', hc', hform, htext⟩ := Set_commit_references hc hne h
    refine ⟨c', hc', ?_, fun hf => ?_, htext⟩
    · cases hf : isFormulaText text with
      | false => rw [htext hf]; exact List.nodup_nil
      | true =>
        obtain ⟨ast, hast, hrefs⟩ := hform hf
        rw [hrefs]
        exact hset _ _ hast
    · obtain ⟨ast, hast, hrefs⟩ := hform hf
      refine ⟨ast, hast, hrefs, fun p hp => ?_⟩
      rw [hrefs]
      exact List.count_eq_one_of_mem (hset _ _ hast) hp
  · rintro c (hi | ⟨t, hi⟩) <;> simp [Cell.GetReferencedCells, hi, Impl.GetReferencedCells]

theorem Set_commit_lists_references_once_witness :
    ParseCellsSet exampleParse ∧
      Cell.Set exampleParse sheetAB B1 "=A1+A1" = .ok () sheetTwice ∧
      (Sheet.GetCell sheetTwice B1).map Cell.GetReferencedCells = some [A1] ∧
      ((∃ c', Sheet.GetCell sheetTwice B1 = some c' ∧
        c'.GetReferencedCells.Nodup ∧
        (isFormulaText "=A1+A1" = true →
          ∃ ast, exampleParse (substr "=A1+A1" 1) = some ast ∧
            c'.GetReferencedCells = ast.cells ∧
            ∀ p ∈ ast.cells, c'.GetReferencedCells.count p = 1) ∧
        (isFormulaText "=A1+A1" = false → c'.GetReferencedCells = [])) ∧
      (∀ c : Cell, (c.impl_ = .EmptyImpl ∨ ∃ t, c.impl_ = .TextImpl t) →
        c.GetReferencedCells = [])) :=
  ⟨ParseCellsSet_exampleParse, rfl, rfl,
    Set_commit_lists_references_once exampleParse ParseCellsSet_exampleParse sheetAB B1 _
      "=A1+A1" sheetTwice rfl (by decide) rfl⟩

/-! ### C15: Bounds of the visited matrix -/

/-- C15 (failing input). On the sheet whose only cell is `A1`, the visited matrix has
one row and one column. `Set(A1, "=B1")` lets the cycle check visit `B1`, a position
without a cell outside the printable area: the lookup `visited_cells[0][1]` is out of
range, and the call has undefined behaviour. -/
theorem CheckForCircularDependencies_out_of_bounds :
    Sheet.GetCell sheetA B1 = none ∧
    Cell.CreateVisitedCells sheetA = [[0]] ∧
    Cell.visitedPositions sheetA A1 [B1] = [B1] ∧
    ¬ inBounds sheetA B1 ∧
    visitedAt (Cell.CreateVisitedCells sheetA) B1 = none ∧
    Cell.CheckForCircularDependencies sheetA A1 [B1] = .undefined ∧
    Cell.Set exampleParse sheetA A1 "=B1" = .undefined :=
  ⟨rfl, rfl, rfl, fun h => absurd h.2 (by decide), rfl, rfl, rfl⟩

/-! ### C16: Materialization -/

/-- C16. Materialization. Let `Set` be called with a formula text that differs from the
current text of the cell and parses. If the call commits or ends with
`CircularDependencyException`, every position that the cycle check visited and that
held no cell before holds an empty cell afterwards (empty text, no references); and if
the call commits, so does every position that the new content references and that
held no cell before. -/
theorem Set_materializes (parse : String → Option FormulaAST) (s : Sheet)
    (self : Position) (this : Cell) (text : String) (f : Formula) (s' : Sheet)
    (hc : Sheet.GetCell s self = some this) (hne : text ≠ this.GetText)
    (hf : isFormulaText text = true)
    (hp : ParseFormula parse (substr text 1) = some f)
    (h : Cell.Set parse s self text = .ok () s' ∨
      Cell.Set parse s self text = .circularDependency s') :
    (∀ p ∈ Cell.visitedPositions s self f.GetReferencedCells, Sheet.GetCell s p = none →
      ∃ c, Sheet.GetCell s' p = some c ∧ c.impl_ = .EmptyImpl ∧ c.GetText = "" ∧
        c.GetReferencedCells = []) ∧
    (Cell.Set parse s self text = .ok () s' →
      (∃ c, Sheet.GetCell s' self = some c ∧ c.impl_ = .FormulaImpl f) ∧
      ∀ p ∈ f.GetReferencedCells, Sheet.GetCell s p = none →
        ∃ c, Sheet.GetCell s' p = some c ∧ c.impl_ = .EmptyImpl ∧ c.GetText = "" ∧
          c.GetReferencedCells = []) := by
  have hempty : ∀ c : Cell, c.impl_ = .EmptyImpl →
      c.impl_ = .EmptyImpl ∧ c.GetText = "" ∧ c.GetReferencedCells = [] := by
    intro c hi
    simp [Cell.GetText, Cell.GetReferencedCells, hi, Impl.GetText, Impl.GetReferencedCells]
  have hcommit : ∀ (s1 : Sheet) (W : List Position) (p : Position),
      Sheet.GetCell s p = none →
      (Sheet.GetCell s1 p = some Cell.new ∨
        (Sheet.GetCell s1 p = none ∧ p ∈ f.GetReferencedCells)) →
      Sheet.GetCell s' p
        = (match Sheet.GetCell s1 p with
          | some c =>
            some { impl_ := if p = self then .FormulaImpl f else c.impl_,
                   influence_ := relink self this.impl_.GetReferencedCells
                     f.GetReferencedCells p c.influence_,
                   cache_ := if p ∈ W then none else c.cache_ }
          | none =>
            if p ∈ f.GetReferencedCells then some { Cell.new with influence_ := [self] }
            else none) →
      ∃ c, Sheet.GetCell s' p = some c ∧ c.impl_ = .EmptyImpl ∧ c.GetText = "" ∧
        c.GetReferencedCells = [] := by
    intro s1 W p hnone h1 hs'
    have hps : p ≠ self := by
      rintro rfl
      rw [hc] at hnone
      simp at hnone
    rcases h1 with h1 | ⟨h1, hmem⟩
    · rw [h1] at hs'
      simp only [hps, if_false] at hs'
      exact ⟨_, hs', hempty _ rfl⟩
    · rw [h1] at hs'
      simp only [hmem, if_true] at hs'
      exact ⟨_, hs', hempty _ rfl⟩
  constructor
  · intro p hvis hnone
    rcases h with h | h
    · obtain ⟨s1, W, hchk, _, _, hs'⟩ := Set_commit_formula hc hne hf hp h
      have h1 := (CheckForCircularDependencies_visited
        (by rw [hchk]; rfl : (Cell.CheckForCircularDependencies s self
          f.GetReferencedCells).state = some s1) hvis).2 hnone
      exact hcommit s1 W p hnone (Or.inl h1) (hs' p)
    · have hchk := Set_circular_state hc hne hf hp h
      have h1 := (CheckForCircularDependencies_visited
        (by rw [hchk]; rfl : (Cell.CheckForCircularDependencies s self
          f.GetReferencedCells).state = some s') hvis).2 hnone
      exact ⟨_, h1, hempty _ rfl⟩
  · intro hok
    obtain ⟨s1, W, _, hmat, _, hs'⟩ := Set_commit_formula hc hne hf hp hok
    refine ⟨?_, fun p hmem hnone => ?_⟩
    · have hself := hs' self
      rw [hmat.1 self this hc] at hself
      simp only [if_true] at hself
      exact ⟨_, hself, rfl⟩
    · refine hcommit s1 W p hnone ?_ (hs' p)
      rcases hmat.2 p hnone with h1 | h1
      · exact Or.inr ⟨h1, hmem⟩
      · exact Or.inl h1

theorem Set_materializes_witness :
    Sheet.GetCell sheetAC A1 = some Cell.new ∧ Sheet.GetCell sheetAC B1 = none ∧
      Cell.Set exampleParse sheetAC A1 "=B1" = .ok () sheetACLinked ∧
      Cell.visitedPositions sheetAC A1 [B1] = [B1] ∧
      (∀ p ∈ Cell.visitedPositions sheetAC A1 [B1], Sheet.GetCell sheetAC p = none →
        ∃ c, Sheet.GetCell sheetACLinked p = some c ∧ c.impl_ = .EmptyImpl ∧
          c.GetText = "" ∧ c.GetReferencedCells = []) :=
  ⟨rfl, rfl, rfl, rfl,
    (Set_materializes exampleParse sheetAC A1 Cell.new "=B1" { ast_ := refAST B1 "B1" }
      sheetACLinked rfl (by decide) rfl rfl (Or.inl rfl)).1⟩

/-! ### C17: Display and equality of errors -/

/-- C17. Display and equality of `FormulaError`: `ToString` maps the category `Ref` to
`#REF!`, `Value` to `#VALUE!` and `Div0` to `#DIV/0!`; `operator==` holds of two errors
exactly when their categories are equal, which is exactly when the errors are the same
value and exactly when their display strings are equal. -/
theorem FormulaError_display_and_equality :
    FormulaError.ToString { category_ := .Ref } = "#REF!" ∧
    FormulaError.ToString { category_ := .Value } = "#VALUE!" ∧
    FormulaError.ToString { category_ := .Div0 } = "#DIV/0!" ∧
    ∀ lhs rhs : FormulaError,
      (lhs.eq rhs = true ↔ lhs.category_ = rhs.category_) ∧
      (lhs.eq rhs = true ↔ lhs = rhs) ∧
      (lhs.eq rhs = true ↔ lhs.ToString = rhs.ToString) := by
  refine ⟨rfl, rfl, rfl, ?_⟩
  rintro ⟨a⟩ ⟨b⟩
  cases a <;> cases b <;> simp [FormulaError.eq, FormulaError.ToString]

/-! ### C18: Soundness and completeness of the cycle check -/

/-- C18. The cycle check is sound and complete. For every sheet, every existing cell
`A` and every list of candidate references such that every position the traversal
visits has a slot in the visited matrix: the loop ends within its fuel;
`CheckForCircularDependencies` throws `CircularDependencyException` if and only if `A`
is reachable from one of the candidate references along zero or more forward
references; and otherwise it returns normally. -/
theorem CheckForCircularDependencies_sound_complete (s : Sheet) (self : Position)
    (this : Cell) (refs : List Position)
    (hc : Sheet.GetCell s self = some this)
    (hsafe : ∀ p ∈ Cell.visitedPositions s self refs, inBounds s p) :
    (∃ r, Cell.checkLoop self ((Cell.CreateStack refs).length + Sheet.referencesTotal s) s
        (Cell.CreateStack refs) (Cell.CreateVisitedCells s) = some r ∧
      Cell.CheckForCircularDependencies s self refs = r) ∧
    ((∃ s', Cell.CheckForCircularDependencies s self refs = .circularDependency s')
      ↔ ∃ q ∈ refs, Relation.ReflTransGen (Refers s) q self) ∧
    ((¬ ∃ q ∈ refs, Relation.ReflTransGen (Refers s) q self) →
      ∃ s', Cell.CheckForCircularDependencies s self refs = .ok () s') := by
  have hself : Sheet.GetCell s self ≠ none := by simp [hc]
  have hdef : Cell.CheckForCircularDependencies s self refs ≠ .undefined := by
    rw [Ne, CheckForCircularDependencies_undefined_iff]
    rintro ⟨p, hp, hnb⟩
    exact hnb (hsafe p hp)
  refine ⟨CheckForCircularDependencies_eq s self refs, ?_, ?_⟩
  · constructor
    · rintro ⟨s', hs'⟩
      obtain ⟨q, hq, hreach⟩ := CheckForCircularDependencies_circular hs'
      exact ⟨q, hq, hreach.mono (fun a b hab => hab.2)⟩
    · rintro ⟨q, hq, hreach⟩
      cases hr : Cell.CheckForCircularDependencies s self refs with
      | ok x s' => exact absurd hreach (CheckForCircularDependencies_ok hself hr q hq)
      | formulaException s' =>
        exact absurd hr (CheckForCircularDependencies_not_formulaException s self refs s')
      | circularDependency s' => exact ⟨s', rfl⟩
      | undefined => exact absurd hr hdef
  · intro hno
    cases hr : Cell.CheckForCircularDependencies s self refs with
    | ok x s' => exact ⟨s', rfl⟩
    | formulaException s' =>
      exact absurd hr (CheckForCircularDependencies_not_formulaException s self refs s')
    | circularDependency s' =>
      obtain ⟨q, hq, hreach⟩ := CheckForCircularDependencies_circular hr
      exact absurd ⟨q, hq, hreach.mono (fun a b hab => hab.2)⟩ hno
    | undefined => exact absurd hr hdef

theorem CheckForCircularDependencies_sound_complete_witness :
    Cell.visitedPositions sheetLinkedFresh B1 [A1] = [A1, B1] ∧
      Cell.CheckForCircularDependencies sheetLinkedFresh B1 [A1]
        = .circularDependency sheetLinkedFresh ∧
      ((∃ s', Cell.CheckForCircularDependencies sheetLinkedFresh B1 [A1]
          = .circularDependency s')
        ↔ ∃ q ∈ [A1], Relation.ReflTransGen (Refers sheetLinkedFresh) q B1) :=
  ⟨rfl, rfl,
    (CheckForCircularDependencies_sound_complete sheetLinkedFresh B1 _ [A1] rfl
      (fun p hp => by
        have h : p = A1 ∨ p = B1 := by
          simpa [show Cell.visitedPositions sheetLinkedFresh B1 [A1] = [A1, B1] from rfl]
            using hp
        rcases h with rfl | rfl
        · exact ⟨by decide, by decide⟩
        · exact ⟨by decide, by decide⟩)).2.1⟩

/-! ### C19: `ClearCaches` ends and expands every cell once -/

/-- C19 (amended). For every sheet and every cell in it, whatever the shape of the
`influence_` graph: the loop of `ClearCaches` ends within its fuel; no cell is inserted
into the visited set, expanded and reset by the loop more than once; the cells the loop
handles are reached from the cell through `influence_` sets; when all members of
`influence_` sets exist the call returns; and when it returns, the loop has handled
exactly the cells reached from the cell, and the caches reset are those of these
cells, once each, and after the loop that of the cell itself, so that no cache is
reset twice exactly when the cell does not reach itself. -/
theorem ClearCaches_expands_once (s : Sheet) (self : Position) (this : Cell)
    (hc : Sheet.GetCell s self = some this) :
    (∃ r, Cell.clearTrace ((Cell.CreateStack this.influence_).length + Sheet.influenceTotal s)
        s (Cell.CreateStack this.influence_) [] = some (Cell.expandedCells s self, r) ∧
      Cell.ClearCaches s self
        = match r with
          | .ok () s' => .ok () (Cell.ClearCache s' self)
          | _ => .undefined) ∧
    (Cell.expandedCells s self).Nodup ∧
    (∀ p ∈ Cell.expandedCells s self, Relation.TransGen (Influences s) self p) ∧
    ((∀ p q, q ∈ Sheet.infl s p → Sheet.GetCell s q ≠ none) →
      ∃ s', Cell.ClearCaches s self = .ok () s') ∧
    (∀ s', Cell.ClearCaches s self = .ok () s' →
      s' = (Cell.cacheResets s self).foldl Cell.ClearCache s ∧
      (∀ p, p ∈ Cell.expandedCells s self ↔ Relation.TransGen (Influences s) self p) ∧
      ((Cell.cacheResets s self).Nodup ↔ ¬ Relation.TransGen (Influences s) self self)) :=
  ⟨expandedCells_eq hc, ClearCaches_record hc⟩

theorem ClearCaches_expands_once_witness :
    Sheet.GetCell sheetInfluenceCycle A1
        = some { impl_ := .EmptyImpl, influence_ := [B1], cache_ := none } ∧
      Cell.expandedCells sheetInfluenceCycle A1 = [B1, A1] ∧
      (Cell.expandedCells sheetInfluenceCycle A1).Nodup ∧
      ∃ s', Cell.ClearCaches sheetInfluenceCycle A1 = .ok () s' :=
  ⟨rfl, rfl,
    (ClearCaches_expands_once sheetInfluenceCycle A1 _ rfl).2.1, _, rfl⟩

/-- C19 (counterexample). After `Set(A1, "=B1")`, `Clear(A1)` and `Set(B1, "=A1")` the
`influence_` sets of `A1` and `B1` hold each other. `ClearCaches` on `A1` then ends, and
its loop inserts `B1` and `A1` into the visited set once each; but it resets the cache
of `A1`, a cell reached from `A1`, twice: once in the loop and once after it. -/
theorem ClearCaches_expands_once_counterexample :
    Cell.Set exampleParse sheetAB A1 "=B1" = .ok () sheetLinkedFresh ∧
    Cell.Clear sheetLinkedFresh A1 = sheetStaleEdge ∧
    Cell.Set exampleParse sheetStaleEdge B1 "=A1" = .ok () sheetInfluenceCycle ∧
    (∃ s', Cell.ClearCaches sheetInfluenceCycle A1 = .ok () s') ∧
    Relation.TransGen (Influences sheetInfluenceCycle) A1 A1 ∧
    Cell.cacheResets sheetInfluenceCycle A1 = [B1, A1, A1] ∧
    (Cell.cacheResets sheetInfluenceCycle A1).count A1 = 2 :=
  ⟨rfl, rfl, rfl, ⟨_, rfl⟩,
    Relation.TransGen.tail
      (Relation.TransGen.single
        (show B1 ∈ Sheet.infl sheetInfluenceCycle A1 from List.mem_singleton.mpr rfl))
      (show A1 ∈ Sheet.infl sheetInfluenceCycle B1 from List.mem_singleton.mpr rfl),
    rfl, by decide⟩

/-! ### C20: The frame of a commit -/

/-- C20. Frame of a committing `Set` on the cell `A` of an acyclic sheet whose reverse
edges are exact. The `influence_` set of `A` is unchanged. Every other cell that
existed before keeps its content, so its text and its referenced positions; its
`influence_` set changes at most in the membership of `A`, and only if the old or the
new content of `A` references the cell; its cache changes only by being reset, and only
if the cell depends on `A` through one or more `influence_` steps, that is, references
`A` through one or more forward references. A cell at a position that held none before
is an empty cell without a cached value, whose only possible dependent is `A`. -/
theorem Set_commit_frame (parse : String → Option FormulaAST) (s : Sheet)
    (self : Position) (this : Cell) (text : String) (s' : Sheet)
    (hc : Sheet.GetCell s self = some this) (hne : text ≠ this.GetText)
    (h : Cell.Set parse s self text = .ok () s')
    (hac : Acyclic s) (hinv : ReverseEdgesExact s) :
    (∃ c', Sheet.GetCell s' self = some c' ∧ c'.influence_ = this.influence_) ∧
    (∀ p c, p ≠ self → Sheet.GetCell s p = some c →
      ∃ c', Sheet.GetCell s' p = some c' ∧ c'.impl_ = c.impl_ ∧
        c'.GetText = c.GetText ∧ c'.GetReferencedCells = c.GetReferencedCells ∧
        (∀ z, z ≠ self → (z ∈ c'.influence_ ↔ z ∈ c.influence_)) ∧
        (c'.influence_ ≠ c.influence_ →
          p ∈ this.GetReferencedCells ∨ p ∈ Sheet.refs s' self) ∧
        (c'.cache_ ≠ c.cache_ →
          c'.cache_ = none ∧ Relation.TransGen (Influences s) self p ∧
          Relation.TransGen (Refers s) p self)) ∧
    (∀ p c', Sheet.GetCell s p = none → Sheet.GetCell s' p = some c' →
      c'.impl_ = .EmptyImpl ∧ c'.GetText = "" ∧ c'.GetReferencedCells = [] ∧
      c'.cache_ = none ∧ (c'.influence_ = [] ∨ c'.influence_ = [self])) := by
  obtain ⟨h1, h2, h3⟩ := Set_commit_cells hc hne h hac
  refine ⟨h1, fun p c hps hp => ?_, fun p c' hnone hp' => ?_⟩
  · obtain ⟨c', hc', himpl, hmem, hinfl, hcache⟩ := h2 p c hps hp
    refine ⟨c', hc', himpl, by simp [Cell.GetText, himpl],
      by simp [Cell.GetReferencedCells, himpl], hmem, hinfl, fun hne' => ?_⟩
    obtain ⟨hnone, hreach⟩ := hcache hne'
    refine ⟨hnone, hreach, ?_⟩
    rcases Relation.reflTransGen_iff_eq_or_transGen.mp
      (reach_Refers_of_Influences hinv hreach.to_reflTransGen) with heq | ht
    · exact absurd heq.symm hps
    · exact ht
  · obtain ⟨himpl, hcache, hinfl⟩ := h3 p c' hnone hp'
    exact ⟨himpl, by simp [Cell.GetText, himpl, Impl.GetText],
      by simp [Cell.GetReferencedCells, himpl, Impl.GetReferencedCells], hcache, hinfl⟩

theorem Set_commit_frame_witness :
    Sheet.GetCell sheetAC A1 = some Cell.new ∧
      Cell.Set exampleParse sheetAC A1 "=B1" = .ok () sheetACLinked ∧
      Acyclic sheetAC ∧ ReverseEdgesExact sheetAC ∧
      ∃ c', Sheet.GetCell sheetACLinked A1 = some c' ∧ c'.influence_ = Cell.new.influence_ :=
  ⟨rfl, rfl, Acyclic_sheetAC, ReverseEdgesExact_sheetAC,
    (Set_commit_frame exampleParse sheetAC A1 Cell.new "=B1" sheetACLinked rfl (by decide) rfl
      Acyclic_sheetAC ReverseEdgesExact_sheetAC).1⟩

end SpreadSheet
